import Mathlib

/-!
# go-m3u: the playlist converter of `m3u.go`

A shallow embedding of `m3u.go` (package `m3u`): the record model, `Write`,
`parseExtInf` and `Read`, together with the parts of the Go standard library
the file relies on (`regexp`, `bufio.Scanner`, `strings`, `strconv`, `fmt`).

Go strings are modelled as lists of Unicode scalar values (`Str`), that is,
as valid UTF-8 text; byte lengths are computed with `Char.utf8Size`.  Records
are values: `Read` never touches a record again once it is appended, so the
pointers of the Go code are not needed.  A reader is the text it delivers
before EOF, without read error; a writer is a state and the effect of one call.
-/

namespace M3u

/-- A Go string, as the list of its runes. -/
abbrev Str := List Char

/-! ## `regexp`: prioritised backtracking for the two patterns of `m3u.go` -/

/-- One item of a pattern: a literal rune, or a greedy repetition of a character
class with a minimum count (`x*` has minimum 0, `x+` has minimum 1), which is
either a capture group of its own or not captured. -/
inductive Item where
  | lit (c : Char)
  | rep (p : Char → Bool) (min : Nat) (cap : Bool)

/-- Greedy repetition of the class `p`: consume as many runes as possible, then
give runes back one at a time until the continuation `k` (called with the text
the repetition matched and the remaining input) succeeds. -/
def greedy {α : Type} (p : Char → Bool) (min : Nat) (k : Str → Str → Option α)
    (acc : Str) : Str → Option α
  | [] => if min ≤ acc.length then k acc [] else none
  | c :: cs =>
    if p c then
      match greedy p min k (acc ++ [c]) cs with
      | some r => some r
      | none => if min ≤ acc.length then k acc (c :: cs) else none
    else if min ≤ acc.length then k acc (c :: cs) else none

/-- Match a pattern (a sequence of items) at the start of the input, in the
leftmost-first order of Go's `regexp`.  The result is the list of captured
groups, in order, and the input left after the match. -/
def matchHere : List Item → Str → Option (List Str × Str)
  | [], s => some ([], s)
  | Item.lit _ :: _, [] => none
  | Item.lit c :: is, x :: xs => if x = c then matchHere is xs else none
  | Item.rep p min cap :: is, s =>
    greedy p min
      (fun m rest =>
        match matchHere is rest with
        | some (g, r) => some (if cap then m :: g else g, r)
        | none => none)
      [] s

/-- The text a match consumed, given the input and what was left of it. -/
def matched (s rest : Str) : Str := s.take (s.length - rest.length)

/-- Go `(*Regexp).FindStringSubmatch`: the leftmost match; the result holds the
text of the whole match followed by the text of each group, and is `[]` (Go's
`nil`) when there is no match. -/
def FindStringSubmatch (re : List Item) : Str → List Str
  | [] =>
    match matchHere re [] with
    | some (g, rest) => matched [] rest :: g
    | none => []
  | c :: cs =>
    match matchHere re (c :: cs) with
    | some (g, rest) => matched (c :: cs) rest :: g
    | none => FindStringSubmatch re cs

/-- Auxiliary scan for `FindAllString`: `skip` is the number of runes still
covered by the previous match. -/
def findAllFrom (re : List Item) : Nat → Str → List Str
  | _, [] => []
  | skip + 1, _ :: cs => findAllFrom re skip cs
  | 0, c :: cs =>
    match matchHere re (c :: cs) with
    | some (_, rest) =>
      matched (c :: cs) rest :: findAllFrom re ((matched (c :: cs) rest).length - 1) cs
    | none => findAllFrom re 0 cs

/-- Go `(*Regexp).FindAllString(s, -1)` for a pattern that cannot match the empty
string (as is the case of `m3uAttrRE`): the successive non-overlapping leftmost
matches. -/
def FindAllString (re : List Item) (s : Str) : List Str := findAllFrom re 0 s

/-- Perl class `\s` of Go's `regexp`: `[\t\n\f\r ]`. -/
def reSpace (c : Char) : Bool :=
  c = '\t' || c = '\n' || c = Char.ofNat 12 || c = '\r' || c = ' '

/-- Perl class `\S`. -/
def reNotSpace (c : Char) : Bool := !reSpace c

/-- The pattern `.`: any rune but a line feed. -/
def reDot (c : Char) : Bool := !(c = '\n')

/-- The class `[^"]`. -/
def reNotQuote (c : Char) : Bool := !(c = '"')

/-- The literal runes of a string as pattern items. -/
def lits (s : Str) : List Item := s.map Item.lit

/-- The pattern `m3uExtInfRE = regexp.MustCompile("#EXTINF:(\S+)\s*(.*),(.*)")`. -/
def m3uExtInfRE : List Item :=
  lits "#EXTINF:".toList ++
    [Item.rep reNotSpace 1 true, Item.rep reSpace 0 false, Item.rep reDot 0 true,
     Item.lit ',', Item.rep reDot 0 true]

/-- The pattern `m3uAttrRE = regexp.MustCompile("(.+)=\"([^\"]*)\"")`. -/
def m3uAttrRE : List Item :=
  [Item.rep reDot 1 true, Item.lit '=', Item.lit '"', Item.rep reNotQuote 0 true,
   Item.lit '"']

/-! ## `float64`, `strconv.ParseFloat` and the verb `%.0f` -/

/-- A value of Go's `float64`.  A finite value is kept as its sign and its
magnitude in units of `2^(-1074)`, the smallest positive `float64`: `fin neg k`
is `± k · 2^(-1074)`. -/
inductive Float64 where
  | fin (neg : Bool) (k : Nat)
  | inf (neg : Bool)
  | nan
  deriving DecidableEq

/-- Round the quotient `a / b` to the nearest natural number, ties to even. -/
def rne (a b : Nat) : Nat :=
  if 2 * (a % b) < b then a / b
  else if b < 2 * (a % b) then a / b + 1
  else a / b + (a / b) % 2

/-- The least `sh` such that `q / 2^sh < 2^53` (for `q < 2^(53 + fuel)`): the
binary logarithm of the spacing, in units of `2^(-1074)`, of the `float64`
values around `q`. -/
def binadeShift : Nat → Nat → Nat
  | 0, _ => 0
  | fuel + 1, q => if q < 2 ^ 53 then 0 else binadeShift fuel (q / 2) + 1

/-- The magnitudes of finite `float64` values lie below `2^1024`, that is below
`2^2098` units. -/
def f64Limit : Nat := 2 ^ 2098

/-- A magnitude (in units) is that of a `float64` when it is in range and a
multiple of the spacing at its size. -/
def isF64Magnitude (k : Nat) : Bool :=
  decide (k < f64Limit) && decide (k % 2 ^ binadeShift 2098 k = 0)

/-- Round the non-negative rational `num / den` to the nearest `float64`
magnitude, ties to even; `none` when the result overflows. -/
def roundToF64 (num den : Nat) : Option Nat :=
  let a := num * 2 ^ 1074
  if f64Limit ≤ a / den then none
  else
    let sh := binadeShift 2098 (a / den)
    let k := rne a (den * 2 ^ sh) * 2 ^ sh
    if f64Limit ≤ k then none else some k

/-- The two errors of `strconv`: `ErrSyntax` and `ErrRange`. -/
inductive NumErr where
  | syntaxErr
  | rangeErr
  deriving DecidableEq

/-- Go `'0' <= c && c <= '9'`. -/
def isDigit (c : Char) : Bool := decide ('0' ≤ c) && decide (c ≤ '9')

/-- Go `c - '0'`. -/
def digitVal (c : Char) : Nat := c.toNat - 48

/-- Go `'a' <= lower(c) && lower(c) <= 'f'`. -/
def isHexLetter (c : Char) : Bool :=
  (decide ('a' ≤ c) && decide (c ≤ 'f')) || (decide ('A' ≤ c) && decide (c ≤ 'F'))

/-- Go `lower(c) - 'a' + 10`. -/
def hexLetterVal (c : Char) : Nat :=
  if decide ('a' ≤ c) && decide (c ≤ 'f') then c.toNat - 87 else c.toNat - 55

/-- The ASCII lower-casing of `commonPrefixLenIgnoreCase`. -/
def lowerASCII (c : Char) : Char :=
  if decide ('A' ≤ c) && decide (c ≤ 'Z') then Char.ofNat (c.toNat + 32) else c

/-- Whether a string is `inf` or `infinity`, in any case. -/
def isInfWord (t : Str) : Bool :=
  t.map lowerASCII == "inf".toList || t.map lowerASCII == "infinity".toList

/-- Go `strconv.special`, restricted to the strings it consumes entirely: an
optionally signed `inf` or `infinity`, or an unsigned `nan`, in any case. -/
def special (s : Str) : Option Float64 :=
  match s with
  | [] => none
  | c :: t =>
    if c = '+' then (if isInfWord t then some (Float64.inf false) else none)
    else if c = '-' then (if isInfWord t then some (Float64.inf true) else none)
    else if isInfWord s then some (Float64.inf false)
    else if s.map lowerASCII == "nan".toList then some Float64.nan
    else none

/-- The state of the mantissa loop of `strconv.readFloat`. -/
structure Mantissa where
  sawdot : Bool
  sawdigits : Bool
  nd : Nat
  dp : Int
  mant : Nat
  underscores : Bool

/-- The mantissa loop of `strconv.readFloat`; the mantissa is accumulated
exactly (Go keeps 19 digits and a truncation flag, and rounds correctly all the
same).  Returns the state and the input left. -/
def mantLoop (hex : Bool) : Mantissa → Str → Mantissa × Str
  | st, [] => (st, [])
  | st, c :: cs =>
    if c = '_' then mantLoop hex { st with underscores := true } cs
    else if c = '.' then
      if st.sawdot then (st, c :: cs)
      else mantLoop hex { st with sawdot := true, dp := st.nd } cs
    else if isDigit c then
      if c = '0' ∧ st.nd = 0 then
        mantLoop hex { st with sawdigits := true, dp := st.dp - 1 } cs
      else
        mantLoop hex { st with sawdigits := true, nd := st.nd + 1,
                               mant := st.mant * (if hex then 16 else 10) + digitVal c } cs
    else if hex && isHexLetter c then
      mantLoop hex { st with sawdigits := true, nd := st.nd + 1,
                             mant := st.mant * 16 + hexLetterVal c } cs
    else (st, c :: cs)

/-- The exponent digits of `strconv.readFloat`: the exponent stops growing once
it has reached 10000.  Returns the exponent, whether an underscore was seen,
and the input left. -/
def expLoop : Nat → Bool → Str → Nat × Bool × Str
  | e, u, [] => (e, u, [])
  | e, u, c :: cs =>
    if c = '_' then expLoop e true cs
    else if isDigit c then expLoop (if e < 10000 then e * 10 + digitVal c else e) u cs
    else (e, u, c :: cs)

/-- The scan of `strconv.underscoreOK` after the sign and the base prefix. -/
def underscoreScan (hex : Bool) : Char → Str → Bool
  | saw, [] => saw != '_'
  | saw, c :: cs =>
    if isDigit c || (hex && isHexLetter c) then underscoreScan hex '0' cs
    else if c = '_' then (if saw != '0' then false else underscoreScan hex '_' cs)
    else if saw = '_' then false
    else underscoreScan hex '!' cs

/-- The optional sign of a number: whether it is negative, and the rest. -/
def stripSign (s : Str) : Bool × Str :=
  match s with
  | [] => (false, s)
  | c :: t => if c = '+' then (false, t) else if c = '-' then (true, t) else (false, s)

/-- The base prefix `0x` of `strconv.readFloat`, which needs a rune after it:
whether the number is hexadecimal, and the rest. -/
def stripHex (s : Str) : Bool × Str :=
  match s with
  | c0 :: c1 :: c2 :: t =>
    if c0 = '0' ∧ (c1 = 'x' ∨ c1 = 'X') then (true, c2 :: t) else (false, s)
  | _ => (false, s)

/-- Go `strconv.underscoreOK`. -/
def underscoreOK (s : Str) : Bool :=
  match (stripSign s).2 with
  | c0 :: c1 :: u =>
    if c0 = '0' ∧ (c1 = 'b' ∨ c1 = 'B' ∨ c1 = 'o' ∨ c1 = 'O' ∨ c1 = 'x' ∨ c1 = 'X') then
      underscoreScan (c1 = 'x' || c1 = 'X') '0' u
    else underscoreScan false '^' (stripSign s).2
  | t => underscoreScan false '^' t

/-- The end of `strconv.readFloat`, for a string that must be consumed entirely:
nothing may be left, and the underscores must be well placed. -/
def readFloatEnd (s : Str) (neg hex : Bool) (st : Mantissa) (dp : Int) (u : Bool) (rest : Str) :
    Option (Bool × Nat × Int × Bool) :=
  if !rest.isEmpty then none
  else if u && !underscoreOK s then none
  else some (neg, st.mant,
    if st.mant = 0 then 0 else dp - (if hex then (st.nd : Int) * 4 else st.nd), hex)

/-- The optional exponent of `strconv.readFloat`, `dp` being the position of the
point found so far. -/
def readExponent (s : Str) (neg hex : Bool) (st : Mantissa) (dp : Int) (s3 : Str) :
    Option (Bool × Nat × Int × Bool) :=
  match s3 with
  | [] => if hex then none else readFloatEnd s neg hex st dp st.underscores s3
  | c :: t =>
    if (if hex then c = 'p' ∨ c = 'P' else c = 'e' ∨ c = 'E') then
      let es := stripSign t
      match es.2 with
      | [] => none
      | d :: _ =>
        if isDigit d then
          let r := expLoop 0 st.underscores es.2
          readFloatEnd s neg hex st (dp + (r.1 : Int) * (if es.1 then -1 else 1)) r.2.1 r.2.2
        else none
    else if hex then none
    else readFloatEnd s neg hex st dp st.underscores s3

/-- Go `strconv.readFloat` on a string that must be consumed entirely: the sign,
the mantissa, the exponent and the base (`true` for hexadecimal), the value
being `mant · 10^exp` or `mant · 2^exp`. -/
def readFloat (s : Str) : Option (Bool × Nat × Int × Bool) :=
  let sg := stripSign s
  let hx := stripHex sg.2
  let ml := mantLoop hx.1 ⟨false, false, 0, 0, 0, false⟩ hx.2
  if !ml.1.sawdigits then none
  else
    let dp0 : Int := if ml.1.sawdot then ml.1.dp else ml.1.nd
    readExponent s sg.1 hx.1 ml.1 (if hx.1 then dp0 * 4 else dp0) ml.2

/-- Go `strconv.ParseFloat(s, 64)`: the value (0 on a syntax error, an infinity
on a range error) and the error, if any. -/
def ParseFloat (s : Str) : Float64 × Option NumErr :=
  match special s with
  | some f => (f, none)
  | none =>
    match readFloat s with
    | none => (Float64.fin false 0, some NumErr.syntaxErr)
    | some (neg, mant, exp, hex) =>
      let base : Nat := if hex then 2 else 10
      let r := if 0 ≤ exp then roundToF64 (mant * base ^ exp.toNat) 1
               else roundToF64 mant (base ^ (-exp).toNat)
      match r with
      | some k => (Float64.fin neg k, none)
      | none => (Float64.inf neg, some NumErr.rangeErr)

/-- The rune of a decimal digit. -/
def digitChar (d : Nat) : Char := Char.ofNat (48 + d)

/-- The decimal rendering of a natural number below `10^fuel`. -/
def natDigitsAux : Nat → Nat → Str
  | 0, _ => []
  | fuel + 1, n =>
    if n < 10 then [digitChar n] else natDigitsAux fuel (n / 10) ++ [digitChar (n % 10)]

/-- The decimal rendering of a natural number. -/
def natDigits (n : Nat) : Str := natDigitsAux (n + 1) n

/-- The sign `%.0f` prints before the digits. -/
def signText (neg : Bool) : Str := if neg then ['-'] else []

/-- Go `fmt.Sprintf("%.0f", f)`: the value rounded to an integer, ties to even,
in decimal. -/
def fmtF0 : Float64 → Str
  | Float64.fin neg k => signText neg ++ natDigits (rne k (2 ^ 1074))
  | Float64.inf false => "+Inf".toList
  | Float64.inf true => "-Inf".toList
  | Float64.nan => "NaN".toList

/-- The `float64` that is the natural number `n`, for `n` below `2^53`. -/
def Float64.ofNat (n : Nat) : Float64 := Float64.fin false (n * 2 ^ 1074)

/-- A `float64` that is a whole number: a finite value whose magnitude is that of
a `float64` and a multiple of one (`2^1074` units). -/
def Float64.isWhole : Float64 → Bool
  | Float64.fin _ k => isF64Magnitude k && decide (k % 2 ^ 1074 = 0)
  | _ => false

/-! ## `strings`, `bufio.Scanner` -/

/-- Go `unicode.IsSpace`: the runes with the Unicode property White_Space. -/
def isSpace (c : Char) : Bool :=
  let n := c.toNat
  (decide (9 ≤ n) && decide (n ≤ 13)) || n = 32 || n = 0x85 || n = 0xA0 || n = 0x1680 ||
    (decide (0x2000 ≤ n) && decide (n ≤ 0x200a)) || n = 0x2028 || n = 0x2029 ||
    n = 0x202f || n = 0x205f || n = 0x3000

/-- Go `strings.TrimSpace`. -/
def TrimSpace (s : Str) : Str := ((s.dropWhile isSpace).reverse.dropWhile isSpace).reverse

/-- Go `strings.HasPrefix(s, pre)`. -/
def HasPrefix (s pre : Str) : Bool := pre.isPrefixOf s

/-- Go `bufio.MaxScanTokenSize`, the size of the largest buffer a `Scanner`
allocates by default. -/
def maxScanTokenSize : Nat := 64 * 1024

/-- The length of a string in bytes. -/
def byteLen (s : Str) : Nat := (s.map Char.utf8Size).sum

/-- Go `bufio.dropCR`: drop one trailing carriage return. -/
def dropCR (s : Str) : Str := if s.getLast? = some '\r' then s.dropLast else s

/-- The tokens `bufio.Scanner` delivers with the split function `ScanLines`,
`cur` being the text of the current line read so far; the flag tells that the
scan stopped with `bufio.ErrTooLong`, which happens when the buffer is full
(`maxScanTokenSize` bytes) and holds no line feed.  A last line that is not
terminated is delivered when it is not empty. -/
def scanFrom : Str → Str → List Str × Bool
  | cur, [] =>
    if cur.isEmpty then ([], false)
    else if maxScanTokenSize ≤ byteLen cur then ([], true)
    else ([dropCR cur], false)
  | cur, c :: cs =>
    if c = '\n' then
      if maxScanTokenSize ≤ byteLen cur then ([], true)
      else (dropCR cur :: (scanFrom [] cs).1, (scanFrom [] cs).2)
    else scanFrom (cur ++ [c]) cs

/-- The lines a `bufio.Scanner` over the input delivers, and whether it then
fails with `bufio.ErrTooLong`. -/
def scanLines (input : Str) : List Str × Bool := scanFrom [] input

/-! ## `m3u.go` -/

/-- The constant `m3uHeader`. -/
def m3uHeader : Str := "#EXTM3U".toList

/-- The constant `newLine`. -/
def newLine : Str := "\n".toList

/-- The type `Record`.  The map `Attributes` is kept as an association list with
distinct keys, in the order the keys were first set; two maps with at most one
entry are equal when the lists are. -/
structure Record where
  Duration : Float64
  Attributes : List (Str × Str)
  Title : Str
  URL : Str
  deriving DecidableEq

/-- Go `NewRecord`: the zero record with an empty map. -/
def NewRecord : Record := ⟨Float64.fin false 0, [], [], []⟩

/-- The type `M3U`, a slice of records. -/
abbrev M3U := List Record

/-- The errors `Read` returns: one made by `fmt.Errorf` (it is its message), a
`*strconv.NumError` (its function, the text it parsed and its cause), or
`bufio.ErrTooLong`. -/
inductive Error where
  | errorf (msg : Str)
  | numError (fn num : Str) (err : NumErr)
  | tooLong
  deriving DecidableEq

/-- The map assignment `m[k] = v`. -/
def setAttr : List (Str × Str) → Str → Str → List (Str × Str)
  | [], k, v => [(k, v)]
  | (k', v') :: rest, k, v =>
    if k' = k then (k, v) :: rest else (k', v') :: setAttr rest k v

/-- An `io.Writer`: the effect of one call of `Write` on the state of the writer,
and the error it returns. -/
structure Writer (σ ε : Type) where
  write : σ → Str → σ × Option ε

/-- The text of the EXTINF line `Write` builds for a record.  Go ranges over a map
in an unspecified order; here the attributes are taken in the order of the
association list, which is the only order when there is at most one. -/
def extInfLine (r : Record) : Str :=
  r.Attributes.foldl
      (fun acc a => acc ++ (" ".toList ++ a.1 ++ "=\"".toList ++ a.2 ++ "\"".toList))
      ("#EXTINF:".toList ++ fmtF0 r.Duration)
    ++ (",".toList ++ r.Title ++ newLine)

/-- The loop of `Write` over the records. -/
def writeRecords {σ ε : Type} (wr : Writer σ ε) : σ → M3U → σ × Option ε
  | s, [] => (s, none)
  | s, r :: rs =>
    match wr.write s (extInfLine r) with
    | (s1, some e) => (s1, some e)
    | (s1, none) =>
      match wr.write s1 (r.URL ++ newLine) with
      | (s2, some e) => (s2, some e)
      | (s2, none) => writeRecords wr s2 rs

/-- Go `(*M3U).Write`: the state of the writer afterwards and the error. -/
def Write {σ ε : Type} (wr : Writer σ ε) (s : σ) (m : M3U) : σ × Option ε :=
  match wr.write s (m3uHeader ++ newLine) with
  | (s1, some e) => (s1, some e)
  | (s1, none) => writeRecords wr s1 m

/-- A writer that never fails and keeps what was written (a `bytes.Buffer`). -/
def bufferWriter : Writer Str Empty := ⟨fun s b => (s ++ b, none)⟩

/-- The loop of `parseExtInf` over the attribute texts. -/
def attrLoop (line : Str) : Record → List Str → Record × Option Error
  | r, [] => (r, none)
  | r, attr :: rest =>
    if (TrimSpace attr).length = 0 then attrLoop line r rest
    else
      let am := FindStringSubmatch m3uAttrRE (TrimSpace attr)
      if am.length ≤ 1 then
        (r, some (Error.errorf ("m3u: wrongly-formatted attribute '".toList ++ TrimSpace attr ++
          "' on the line '".toList ++ line ++ "'".toList)))
      else if am.length > 2 then
        attrLoop line { r with Attributes := setAttr r.Attributes (am.getD 1 []) (am.getD 2 []) } rest
      else
        attrLoop line { r with Attributes := setAttr r.Attributes (am.getD 1 []) [] } rest

/-- Go `(*M3U).parseExtInf`: the record as the call leaves it, and the error. -/
def parseExtInf (r : Record) (line : Str) : Record × Option Error :=
  let ms := FindStringSubmatch m3uExtInfRE line
  if ms.length < 4 then
    (r, some (Error.errorf ("m3u: wrongly-formatted line: ".toList ++ line)))
  else
    match ParseFloat (ms.getD 1 []) with
    | (f, some e) =>
      ({ r with Duration := f }, some (Error.numError "ParseFloat".toList (ms.getD 1 []) e))
    | (f, none) =>
      match attrLoop line { r with Duration := f } (FindAllString m3uAttrRE (ms.getD 2 [])) with
      | (r1, some e) => (r1, some e)
      | (r1, none) => ({ r1 with Title := ms.getD 3 [] }, none)

/-- The loop of `Read` over the lines the scanner delivers, `r` being the
pending record: the playlist as the loop leaves it, and the error. -/
def readLines : M3U → Record → List Str → M3U × Option Error
  | m, _, [] => (m, none)
  | m, r, line :: rest =>
    if line = m3uHeader then readLines m r rest
    else if HasPrefix line "#EXTINF".toList then
      match parseExtInf r line with
      | (_, some e) => (m, some e)
      | (r1, none) => readLines m r1 rest
    else if HasPrefix line "#".toList then
      (m, some (Error.errorf ("m3u: unknown line ".toList ++ line)))
    else readLines (m ++ [{ r with URL := line }]) NewRecord rest

/-- Go `(*M3U).Read` on a reader that delivers `input` and then EOF: the
playlist afterwards and the error returned. -/
def Read (m : M3U) (input : Str) : M3U × Option Error :=
  match readLines m NewRecord (scanLines input).1 with
  | (m1, some e) => (m1, some e)
  | (m1, none) => (m1, if (scanLines input).2 then some Error.tooLong else none)

/-! ## Auxiliary definitions used in the statements -/

/-- A line that is not a URL line for `Read`: it starts with `#`. -/
def isDirective (l : Str) : Bool := HasPrefix l "#".toList

/-- The pending record of `Read` after it has read the given lines without
error, starting with the pending record `r`. -/
def pendingAfter : Record → List Str → Record
  | r, [] => r
  | r, line :: rest =>
    if line = m3uHeader then pendingAfter r rest
    else if HasPrefix line "#EXTINF".toList then pendingAfter (parseExtInf r line).1 rest
    else if HasPrefix line "#".toList then r
    else pendingAfter NewRecord rest

/-- The text the specification prescribes for a record with at most one
attribute: `#EXTINF:`, the duration with zero decimal places, a space and
`key="value"` for the attribute if any, a comma, the title, a line feed, the
URL, a line feed. -/
def specRecordText (r : Record) : Str :=
  "#EXTINF:".toList ++ fmtF0 r.Duration ++
    (match r.Attributes with
     | [] => []
     | a :: _ => " ".toList ++ a.1 ++ "=\"".toList ++ a.2 ++ "\"".toList) ++
    ",".toList ++ r.Title ++ "\n".toList ++ r.URL ++ "\n".toList

/-- The text the specification prescribes for a playlist: the header line, then
the text of each record in order. -/
def specText (m : M3U) : Str := "#EXTM3U\n".toList ++ (m.map specRecordText).flatten

/-- Split a string at its last comma: the text before it and the text after it. -/
def splitLastComma : Str → Option (Str × Str)
  | [] => none
  | c :: cs =>
    match splitLastComma cs with
    | some (a, b) => some (c :: a, b)
    | none => if c = ',' then some ([], cs) else none

/-- The text after the last comma of a string (the whole string if it has no
comma). -/
def afterLastComma (s : Str) : Str := (s.reverse.takeWhile (fun c => c != ',')).reverse

/-- The attribute maps that `Write` and `Read` carry over unchanged: the empty map,
and the map with one entry whose key is not empty, does not begin with white
space and has no line feed, and whose value has no double quote and no line
feed. -/
def attrsSanitized : List (Str × Str) → Bool
  | [] => true
  | [(k, v)] =>
    (match k with
     | [] => false
     | c :: _ => !isSpace c) &&
      !k.contains '\n' && !v.contains '"' && !v.contains '\n'
  | _ => false

/-- The records that `Write` and `Read` carry over unchanged: a duration that is a
whole number; attributes as in `attrsSanitized`; a title with no comma and no
line feed that does not end in a carriage return; a URL with no line feed that
does not start with `#` and does not end in a carriage return; and an EXTINF
line and a URL that fit in the buffer of the line scanner. -/
def Record.sanitized (r : Record) : Bool :=
  r.Duration.isWhole && attrsSanitized r.Attributes &&
    !r.Title.contains ',' && !r.Title.contains '\n' && (r.Title.getLast? != some '\r') &&
    !r.URL.contains '\n' && !isDirective r.URL && (r.URL.getLast? != some '\r') &&
    decide (byteLen (extInfLine r) ≤ maxScanTokenSize) &&
    decide (byteLen r.URL < maxScanTokenSize)

/-- A rune that is a decimal digit. -/
def IsDec (c : Char) : Prop := ∃ d, d < 10 ∧ c = digitChar d

/-- The byte chunks `Write` passes to the writer, one per call, when no call
fails. -/
def writeChunks (m : M3U) : List Str :=
  (m3uHeader ++ newLine) :: m.flatMap (fun r => [extInfLine r, r.URL ++ newLine])

/-- The text made of the given lines, each followed by the terminator `term`. -/
def joinLines (term : Str) (ls : List Str) : Str := (ls.map (fun l => l ++ term)).flatten

/-! ## The messages of the errors -/

/-- The messages of `strconv.ErrSyntax` and `strconv.ErrRange`. -/
def NumErr.message : NumErr → Str
  | NumErr.syntaxErr => "invalid syntax".toList
  | NumErr.rangeErr => "value out of range".toList

/-- One digit of `strconv`'s `lowerhex`. -/
def hexDigit (n : Nat) : Char := if n < 10 then Char.ofNat (48 + n) else Char.ofNat (87 + n)

/-- The last `w` hexadecimal digits of `n`. -/
def hexFixed : Nat → Nat → Str
  | 0, _ => []
  | w + 1, n => hexFixed w (n / 16) ++ [hexDigit (n % 16)]

/-- Go `strconv.IsPrint`: decided by ranges for the runes up to U+00FF, and by the
tables of the package above, which are taken as the parameter `tbl`. -/
def IsPrint (tbl : Char → Bool) (c : Char) : Bool :=
  if c.toNat ≤ 0xFF then
    (decide (0x20 ≤ c.toNat) && decide (c.toNat ≤ 0x7E)) ||
      (decide (0xA1 ≤ c.toNat) && c.toNat != 0xAD)
  else tbl c

/-- Go `strconv.appendEscapedRune` for `Quote`: what one rune becomes between the
double quotes. -/
def quoteRune (tbl : Char → Bool) (c : Char) : Str :=
  if c = '"' ∨ c = '\\' then ['\\', c]
  else if IsPrint tbl c then [c]
  else if c.toNat = 7 then "\\a".toList
  else if c.toNat = 8 then "\\b".toList
  else if c.toNat = 12 then "\\f".toList
  else if c = '\n' then "\\n".toList
  else if c = '\r' then "\\r".toList
  else if c = '\t' then "\\t".toList
  else if c.toNat = 11 then "\\v".toList
  else if c.toNat < 0x20 ∨ c.toNat = 0x7f then "\\x".toList ++ hexFixed 2 c.toNat
  else if c.toNat < 0x10000 then "\\u".toList ++ hexFixed 4 c.toNat
  else "\\U".toList ++ hexFixed 8 c.toNat

/-- Go `strconv.Quote`. -/
def Quote (tbl : Char → Bool) (s : Str) : Str := '"' :: (s.flatMap (quoteRune tbl) ++ ['"'])

/-- The message of an error `Read` returns (Go `err.Error()`); for a
`*strconv.NumError` it is `strconv.<Func>: parsing <quoted Num>: <cause>`. -/
def Error.message (tbl : Char → Bool) : Error → Str
  | Error.errorf msg => msg
  | Error.numError fn num err =>
    "strconv.".toList ++ fn ++ ": parsing ".toList ++ Quote tbl num ++ ": ".toList ++ err.message
  | Error.tooLong => "bufio.Scanner: token too long".toList

/-- A `float64` that is finite: a finite value whose magnitude is that of a
`float64`. -/
def Float64.isFinite : Float64 → Bool
  | Float64.fin _ k => isF64Magnitude k
  | _ => false

/-- A finite `float64` rounded to the nearest whole number, ties to even, with its
sign kept. -/
def Float64.rounded : Float64 → Float64
  | Float64.fin neg k => Float64.fin neg (rne k (2 ^ 1074) * 2 ^ 1074)
  | d => d

/-- The conditions of `Record.sanitized` on the fields other than the duration. -/
def Record.fieldsSanitized (r : Record) : Bool :=
  attrsSanitized r.Attributes &&
    !r.Title.contains ',' && !r.Title.contains '\n' && (r.Title.getLast? != some '\r') &&
    !r.URL.contains '\n' && !isDirective r.URL && (r.URL.getLast? != some '\r') &&
    decide (byteLen (extInfLine r) ≤ maxScanTokenSize) &&
    decide (byteLen r.URL < maxScanTokenSize)

/-- A text that starts with `="` and holds a `"` further on: what `m3uAttrRE`
needs after the key. -/
def closesQuote (s : Str) : Prop := ∃ z w, s = '=' :: '"' :: (z ++ '"' :: w)

/-- The key `k` and the value `v` that `parseExtInf` takes from the attribute
section `a`: the section is white space, the key (not empty, starting with a
rune that is not white space), `="`, the value (without `"`), `"` and a rest,
and the key ends at the last `="` of the section that has a `"` after it. -/
def AttrAt (a k v : Str) : Prop :=
  ∃ ws rest, a = ws ++ k ++ '=' :: '"' :: (v ++ '"' :: rest) ∧
    (∀ c ∈ ws, isSpace c = true) ∧ k ≠ [] ∧ (∀ c, k.head? = some c → isSpace c = false) ∧
    '"' ∉ v ∧
    ∀ p s, a = p ++ s → (ws ++ k).length < p.length → ¬ closesQuote s

/-- The attribute section of an EXTINF line: `matches[2]` in `parseExtInf`, the
second group of `m3uExtInfRE` (empty when the line does not match). -/
def attrSection (e : Str) : Str := (FindStringSubmatch m3uExtInfRE e).getD 2 []

/-- The records of the round-trip property as it is stated without a bound on the
sizes: a duration that is a whole number; attributes as in `attrsSanitized`; a
title with no comma and no line feed that does not end in a carriage return; a
URL with no line feed that does not start with `#` and does not end in a
carriage return. -/
def Record.wellFormed (r : Record) : Bool :=
  r.Duration.isWhole && attrsSanitized r.Attributes &&
    !r.Title.contains ',' && !r.Title.contains '\n' && (r.Title.getLast? != some '\r') &&
    !r.URL.contains '\n' && !isDirective r.URL && (r.URL.getLast? != some '\r')

/-! ## `Read` on records in memory

`Read` works on pointers: the playlist is a slice of `*Record`, the pending
record is a `*Record`, and the attributes of a record are a map, a reference
value.  The definitions below follow `Read` with the records and the maps kept
by address. -/

/-- A `Record` in memory: the struct, with the address of its map in place of the
map. -/
structure Cell where
  Duration : Float64
  Attributes : Nat
  Title : Str
  URL : Str

/-- The memory `Read` works on: the records and the maps by address, and the
next address that is free. -/
structure Heap where
  next : Nat
  cells : Nat → Cell
  maps : Nat → List (Str × Str)

/-- The record at an address, as a value. -/
def Heap.deref (h : Heap) (p : Nat) : Record :=
  ⟨(h.cells p).Duration, h.maps (h.cells p).Attributes, (h.cells p).Title, (h.cells p).URL⟩

/-- Go `NewRecord` in memory: it makes a map and a record that holds it; the
address of the record and the memory afterwards. -/
def NewRecordAt (h : Heap) : Nat × Heap :=
  (h.next + 1,
    { next := h.next + 2,
      cells := fun a => if a = h.next + 1 then ⟨Float64.fin false 0, h.next, [], []⟩
        else h.cells a,
      maps := fun a => if a = h.next then [] else h.maps a })

/-- Go `(*M3U).parseExtInf` in memory: it assigns to the fields `Duration` and
`Title` of the record at `p` and to the keys of the map that record holds. -/
def parseExtInfAt (h : Heap) (p : Nat) (line : Str) : Heap × Option Error :=
  ({ h with
      cells := fun a =>
        if a = p then
          { h.cells p with Duration := (parseExtInf (h.deref p) line).1.Duration,
                           Title := (parseExtInf (h.deref p) line).1.Title }
        else h.cells a,
      maps := fun a =>
        if a = (h.cells p).Attributes then (parseExtInf (h.deref p) line).1.Attributes
        else h.maps a },
    (parseExtInf (h.deref p) line).2)

/-- The loop of `Read` in memory, `m` being the slice of pointers and `p` the
pointer to the pending record. -/
def readLinesAt : Heap → List Nat → Nat → List Str → (Heap × List Nat) × Option Error
  | h, m, _, [] => ((h, m), none)
  | h, m, p, line :: rest =>
    if line = m3uHeader then readLinesAt h m p rest
    else if HasPrefix line "#EXTINF".toList then
      match parseExtInfAt h p line with
      | (h1, some e) => ((h1, m), some e)
      | (h1, none) => readLinesAt h1 m p rest
    else if HasPrefix line "#".toList then
      ((h, m), some (Error.errorf ("m3u: unknown line ".toList ++ line)))
    else
      readLinesAt
        (NewRecordAt { h with cells := fun a =>
          if a = p then { h.cells p with URL := line } else h.cells a }).2
        (m ++ [p])
        (NewRecordAt { h with cells := fun a =>
          if a = p then { h.cells p with URL := line } else h.cells a }).1
        rest

/-- Go `(*M3U).Read` in memory. -/
def ReadAt (h : Heap) (m : List Nat) (input : Str) : (Heap × List Nat) × Option Error :=
  match readLinesAt (NewRecordAt h).2 m (NewRecordAt h).1 (scanLines input).1 with
  | (s, some e) => (s, some e)
  | (s, none) => (s, if (scanLines input).2 then some Error.tooLong else none)

end M3u

set_option exponentiation.threshold 4000
set_option maxRecDepth 100000

namespace M3u

/-! ## Greedy repetition -/

/-- A greedy repetition fails when the continuation fails at every split. -/
theorem greedy_eq_none {α : Type} (p : Char → Bool) (min : Nat) (k : Str → Str → Option α) :
    ∀ (s acc : Str),
      (∀ pre suf, s = pre ++ suf → (∀ c ∈ pre, p c = true) → min ≤ (acc ++ pre).length →
        k (acc ++ pre) suf = none) →
      greedy p min k acc s = none := by
  intro s
  induction s with
  | nil =>
    intro acc h
    simp only [greedy]
    split_ifs with hm
    · simpa using h [] [] rfl (by simp) (by simpa using hm)
    · rfl
  | cons c cs ih =>
    intro acc h
    simp only [greedy]
    split_ifs with hp
    · rw [ih (acc ++ [c])]
      · simpa using h [] (c :: cs) rfl (by simp) (by simpa using ‹min ≤ acc.length›)
      · intro pre suf hs hall hmin
        have := h (c :: pre) suf (by simp [hs])
          (by intro x hx; rcases List.mem_cons.1 hx with rfl | hx; exacts [hp, hall x hx])
          (by simpa using hmin)
        simpa using this
    · rw [ih (acc ++ [c])]
      intro pre suf hs hall hmin
      have := h (c :: pre) suf (by simp [hs])
        (by intro x hx; rcases List.mem_cons.1 hx with rfl | hx; exacts [hp, hall x hx])
        (by simpa using hmin)
      simpa using this
    · simpa using h [] (c :: cs) rfl (by simp) (by simpa using ‹min ≤ acc.length›)
    · rfl

/-- When a greedy repetition fails, the continuation fails at every split. -/
theorem greedy_none_split {α : Type} (p : Char → Bool) (min : Nat) (k : Str → Str → Option α) :
    ∀ (s acc : Str), greedy p min k acc s = none →
      ∀ pre suf, s = pre ++ suf → (∀ c ∈ pre, p c = true) → min ≤ (acc ++ pre).length →
        k (acc ++ pre) suf = none := by
  intro s
  induction s with
  | nil =>
    intro acc h pre suf hs _ hmin
    obtain ⟨rfl, rfl⟩ : pre = [] ∧ suf = [] := by simpa using hs.symm
    simp only [greedy] at h
    simp only [List.append_nil] at hmin ⊢
    simpa [hmin] using h
  | cons c cs ih =>
    intro acc h pre suf hs hall hmin
    simp only [greedy] at h
    cases pre with
    | nil =>
      simp only [List.nil_append] at hs
      subst hs
      simp only [List.append_nil] at hmin ⊢
      split_ifs at h with hp
      · rcases hg : greedy p min k (acc ++ [c]) cs with _ | r
        · rw [hg] at h; simpa [hmin] using h
        · rw [hg] at h; simp at h
      · exact h
    | cons x pre =>
      simp only [List.cons_append, List.cons.injEq] at hs
      obtain ⟨rfl, hs⟩ := hs
      have hpc : p c = true := hall c (List.mem_cons_self _ _)
      rw [if_pos hpc] at h
      rcases hg : greedy p min k (acc ++ [c]) cs with _ | r
      · have := ih (acc ++ [c]) hg pre suf hs (fun y hy => hall y (List.mem_cons_of_mem _ hy))
          (by simpa using hmin)
        simpa using this
      · rw [hg] at h; simp at h

/-- A greedy repetition takes the longest run at which the continuation
succeeds. -/
theorem greedy_longest {α : Type} (p : Char → Bool) (min : Nat) (k : Str → Str → Option α) :
    ∀ (pre acc suf : Str) (r : α),
      (∀ c ∈ pre, p c = true) → min ≤ (acc ++ pre).length → k (acc ++ pre) suf = some r →
      (∀ pre1 suf1, pre ++ suf = pre1 ++ suf1 → pre.length < pre1.length →
        (∀ c ∈ pre1, p c = true) → k (acc ++ pre1) suf1 = none) →
      greedy p min k acc (pre ++ suf) = some r := by
  intro pre
  induction pre with
  | nil =>
    intro acc suf r _ hmin hk hlong
    simp only [List.append_nil] at hmin hk
    simp only [List.nil_append]
    cases suf with
    | nil => simp [greedy, hmin, hk]
    | cons c cs =>
      simp only [greedy]
      split_ifs with hp
      · rw [greedy_eq_none p min k cs (acc ++ [c])]
        · exact hk
        · intro pre1 suf1 hs hall _
          have := hlong (c :: pre1) suf1 (by simp [hs]) (by simp)
            (by intro x hx; rcases List.mem_cons.1 hx with rfl | hx; exacts [hp, hall x hx])
          simpa using this
      · exact hk
  | cons c pre ih =>
    intro acc suf r hall hmin hk hlong
    have hpc : p c = true := hall c (List.mem_cons_self _ _)
    rw [List.cons_append, greedy, if_pos hpc,
      ih (acc ++ [c]) suf r (fun y hy => hall y (List.mem_cons_of_mem _ hy))
        (by simpa using hmin) (by simpa using hk)]
    intro pre1 suf1 hs hlen hall1
    have := hlong (c :: pre1) suf1 (by simp [hs]) (by simpa using hlen)
      (by intro x hx; rcases List.mem_cons.1 hx with rfl | hx; exacts [hpc, hall1 x hx])
    simpa using this

/-- What a successful greedy repetition took: a run of the class, long enough,
at which the continuation gives the result, and no longer run would do. -/
theorem greedy_some {α : Type} (p : Char → Bool) (min : Nat) (k : Str → Str → Option α) :
    ∀ (s acc : Str) (r : α), greedy p min k acc s = some r →
      ∃ pre suf, s = pre ++ suf ∧ (∀ c ∈ pre, p c = true) ∧ min ≤ (acc ++ pre).length ∧
        k (acc ++ pre) suf = some r ∧
        ∀ pre1 suf1, s = pre1 ++ suf1 → pre.length < pre1.length → (∀ c ∈ pre1, p c = true) →
          min ≤ (acc ++ pre1).length → k (acc ++ pre1) suf1 = none := by
  intro s
  induction s with
  | nil =>
    intro acc r h
    simp only [greedy] at h
    split_ifs at h with hm
    refine ⟨[], [], rfl, by simp, by simpa using hm, by simpa using h, ?_⟩
    intro pre1 suf1 hs hlen
    have : pre1 = [] := by
      have := congrArg List.length hs; simp at this; exact List.length_eq_zero.1 (by omega)
    simp [this] at hlen
  | cons c cs ih =>
    intro acc r h
    simp only [greedy] at h
    have hstop : (if min ≤ acc.length then k acc (c :: cs) else none) = some r →
        min ≤ acc.length ∧ k acc (c :: cs) = some r := by
      intro h0
      split_ifs at h0 with hm
      exact ⟨hm, h0⟩
    by_cases hp : p c = true
    · rw [if_pos hp] at h
      rcases hg : greedy p min k (acc ++ [c]) cs with _ | r1
      · rw [hg] at h
        obtain ⟨hm, hk⟩ := hstop h
        refine ⟨[], c :: cs, rfl, by simp, by simpa using hm, by simpa using hk, ?_⟩
        intro pre1 suf1 hs hlen hall hmin
        cases pre1 with
        | nil => simp at hlen
        | cons x pre1 =>
          simp only [List.cons_append, List.cons.injEq] at hs
          obtain ⟨rfl, hs⟩ := hs
          have := greedy_none_split p min k cs (acc ++ [c]) hg pre1 suf1 hs
            (fun y hy => hall y (List.mem_cons_of_mem _ hy)) (by simpa using hmin)
          simpa using this
      · rw [hg] at h
        simp only [Option.some.injEq] at h
        subst h
        obtain ⟨pre, suf, hs, hall, hmin, hk, hlong⟩ := ih (acc ++ [c]) r1 hg
        refine ⟨c :: pre, suf, by simp [hs], ?_, by simpa using hmin, by simpa using hk, ?_⟩
        · intro x hx; rcases List.mem_cons.1 hx with rfl | hx; exacts [hp, hall x hx]
        · intro pre1 suf1 hs1 hlen hall1 hmin1
          cases pre1 with
          | nil => simp at hlen
          | cons x pre1 =>
            simp only [List.cons_append, List.cons.injEq] at hs1
            obtain ⟨rfl, hs1⟩ := hs1
            have := hlong pre1 suf1 hs1 (by simpa using hlen)
              (fun y hy => hall1 y (List.mem_cons_of_mem _ hy)) (by simpa using hmin1)
            simpa using this
    · rw [if_neg hp] at h
      obtain ⟨hm, hk⟩ := hstop h
      refine ⟨[], c :: cs, rfl, by simp, by simpa using hm, by simpa using hk, ?_⟩
      intro pre1 suf1 hs hlen hall _
      cases pre1 with
      | nil => simp at hlen
      | cons x pre1 =>
        simp only [List.cons_append, List.cons.injEq] at hs
        obtain ⟨rfl, _⟩ := hs
        exact absurd (hall c (List.mem_cons_self _ _)) hp

/-! ## Matching a pattern -/

theorem matchHere_rep (p : Char → Bool) (min : Nat) (cap : Bool) (is : List Item) (s : Str) :
    matchHere (Item.rep p min cap :: is) s =
      greedy p min
        (fun m rest =>
          match matchHere is rest with
          | some (g, r) => some (if cap then m :: g else g, r)
          | none => none)
        [] s := by
  cases s <;> rfl

theorem matchHere_lits_append (p : Str) (is : List Item) (t : Str) :
    matchHere (lits p ++ is) (p ++ t) = matchHere is t := by
  induction p with
  | nil => rfl
  | cons c p ih =>
    have : matchHere (lits (c :: p) ++ is) (c :: p ++ t) = matchHere (lits p ++ is) (p ++ t) := by
      show matchHere (Item.lit c :: (lits p ++ is)) (c :: (p ++ t)) = _
      simp [matchHere]
    rw [this, ih]

theorem matchHere_lits_some (p : Str) (is : List Item) :
    ∀ (s : Str) (x : List Str × Str), matchHere (lits p ++ is) s = some x →
      ∃ t, s = p ++ t ∧ matchHere is t = some x := by
  induction p with
  | nil => intro s x h; exact ⟨s, rfl, h⟩
  | cons c p ih =>
    intro s x h
    change matchHere (Item.lit c :: (lits p ++ is)) s = some x at h
    cases s with
    | nil => simp [matchHere] at h
    | cons y ys =>
      simp only [matchHere] at h
      split_ifs at h with hy
      obtain ⟨t, ht, hm⟩ := ih ys x h
      exact ⟨t, by simp [hy, ht], hm⟩

/-- The leftmost match, when there is one, is a match at some position. -/
theorem FindStringSubmatch_ne_nil (re : List Item) :
    ∀ s : Str, FindStringSubmatch re s ≠ [] →
      ∃ u t g rest, s = u ++ t ∧ matchHere re t = some (g, rest) ∧
        FindStringSubmatch re s = matched t rest :: g := by
  intro s
  induction s with
  | nil =>
    intro h
    simp only [FindStringSubmatch] at h ⊢
    rcases hm : matchHere re [] with _ | ⟨g, rest⟩
    · rw [hm] at h; simp at h
    · exact ⟨[], [], g, rest, rfl, hm, by simp⟩
  | cons c cs ih =>
    intro h
    simp only [FindStringSubmatch] at h ⊢
    rcases hm : matchHere re (c :: cs) with _ | ⟨g, rest⟩
    · rw [hm] at h
      simp only at h ⊢
      obtain ⟨u, t, g, rest, hs, hmt, hf⟩ := ih h
      exact ⟨c :: u, t, g, rest, by simp [hs], hmt, hf⟩
    · exact ⟨[], c :: cs, g, rest, rfl, hm, by simp⟩

/-- A match at the start of the text is the leftmost match. -/
theorem FindStringSubmatch_of_matchHere (re : List Item) (s : Str) (g : List Str) (rest : Str)
    (h : matchHere re s = some (g, rest)) :
    FindStringSubmatch re s = matched s rest :: g := by
  cases s <;> simp [FindStringSubmatch, h]

theorem matched_nil (s : Str) : matched s [] = s := by
  simp [matched]

/-! ## The last comma -/

theorem splitLastComma_none : ∀ s : Str, splitLastComma s = none → ',' ∉ s := by
  intro s
  induction s with
  | nil => intro _; simp
  | cons c cs ih =>
    intro h
    simp only [splitLastComma] at h
    rcases hs : splitLastComma cs with _ | ⟨a1, b1⟩
    · rw [hs] at h
      simp only at h
      split_ifs at h with hc
      intro hmem
      rcases List.mem_cons.1 hmem with h1 | h1
      · exact hc h1.symm
      · exact ih hs h1
    · rw [hs] at h; simp at h

theorem splitLastComma_some :
    ∀ (s a b : Str), splitLastComma s = some (a, b) → s = a ++ ',' :: b ∧ ',' ∉ b := by
  intro s
  induction s with
  | nil => intro a b h; simp [splitLastComma] at h
  | cons c cs ih =>
    intro a b h
    simp only [splitLastComma] at h
    rcases hs : splitLastComma cs with _ | ⟨a1, b1⟩
    · rw [hs] at h
      simp only at h
      split_ifs at h with hc
      simp only [Option.some.injEq, Prod.mk.injEq] at h
      obtain ⟨rfl, rfl⟩ := h
      exact ⟨by simp [hc], splitLastComma_none _ hs⟩
    · rw [hs] at h
      simp only [Option.some.injEq, Prod.mk.injEq] at h
      obtain ⟨rfl, rfl⟩ := h
      obtain ⟨h1, h2⟩ := ih a1 b1 hs
      exact ⟨by simp [h1], h2⟩

theorem splitLastComma_of_not_mem : ∀ s : Str, ',' ∉ s → splitLastComma s = none := by
  intro s
  induction s with
  | nil => intro _; rfl
  | cons c cs ih =>
    intro h
    have h1 : ',' ∉ cs := fun hm => h (List.mem_cons_of_mem _ hm)
    have h2 : ¬ c = ',' := fun hc => h (by simp [hc])
    simp [splitLastComma, ih h1, h2]

theorem splitLastComma_append (a b : Str) (hb : ',' ∉ b) :
    splitLastComma (a ++ ',' :: b) = some (a, b) := by
  induction a with
  | nil => simp [splitLastComma, splitLastComma_of_not_mem b hb]
  | cons c a ih => simp [splitLastComma, ih]

theorem afterLastComma_append (a b : Str) (hb : ',' ∉ b) :
    afterLastComma (a ++ ',' :: b) = b := by
  have key : ∀ (l rest : Str), ',' ∉ l →
      (l ++ ',' :: rest).takeWhile (fun c => c != ',') = l := by
    intro l rest hl
    induction l with
    | nil => simp
    | cons x l ih =>
      have hx : x ≠ ',' := fun hc => hl (by simp [hc])
      have hl1 : ',' ∉ l := fun hm => hl (List.mem_cons_of_mem _ hm)
      simp [List.takeWhile_cons, hx, ih hl1]
  unfold afterLastComma
  rw [List.reverse_append, List.reverse_cons, List.append_assoc, List.singleton_append,
    key _ _ (by simpa using hb), List.reverse_reverse]

/-! ## The tail `(.*),(.*)` of `m3uExtInfRE` -/

theorem matchHere_dot_all (s : Str) (h : '\n' ∉ s) :
    matchHere [Item.rep reDot 0 true] s = some ([s], []) := by
  rw [matchHere_rep]
  have := greedy_longest reDot 0
    (fun m rest =>
      match matchHere [] rest with
      | some (g, r) => some (if true = true then m :: g else g, r)
      | none => none) s [] [] ([s], [])
    (by intro c hc; simp only [reDot, Bool.not_eq_true', decide_eq_false_iff_not]
        rintro rfl; exact h hc)
    (by simp) (by simp [matchHere])
    (by intro pre1 suf1 hs hlen
        have := congrArg List.length hs
        simp at this; omega)
  simpa using this

theorem tail_none_of_no_comma (s : Str) (h : ',' ∉ s) :
    matchHere [Item.rep reDot 0 true, Item.lit ',', Item.rep reDot 0 true] s = none := by
  rw [matchHere_rep]
  apply greedy_eq_none
  intro pre suf hs _ _
  have hsuf : ',' ∉ suf := fun hm => h (by rw [hs]; exact List.mem_append_right _ hm)
  cases suf with
  | nil => simp [matchHere]
  | cons x xs =>
    have hx : ¬ x = ',' := fun hc => hsuf (by simp [hc])
    simp [matchHere, hx]

theorem greedy_tail (s : Str) (h : '\n' ∉ s) : ∀ acc : Str,
    greedy reDot 0
        (fun m rest =>
          match matchHere [Item.lit ',', Item.rep reDot 0 true] rest with
          | some (g, r) => some (if true = true then m :: g else g, r)
          | none => none)
        acc s =
      (splitLastComma s).map (fun ab => ([acc ++ ab.1, ab.2], [])) := by
  induction s with
  | nil => intro acc; simp [greedy, matchHere, splitLastComma]
  | cons c cs ih =>
    intro acc
    have hc : ¬ c = '\n' := fun hc => h (by simp [hc])
    have hcs : '\n' ∉ cs := fun hm => h (List.mem_cons_of_mem _ hm)
    have hd : reDot c = true := by simp [reDot, hc]
    rw [greedy, if_pos hd, ih hcs]
    rcases hs : splitLastComma cs with _ | ⟨a, b⟩
    · by_cases hcomma : c = ','
      · subst hcomma
        have hm : matchHere [Item.lit ',', Item.rep reDot 0 true] (',' :: cs) = some ([cs], []) := by
          show (if ',' = ',' then matchHere [Item.rep reDot 0 true] cs else none) = _
          rw [if_pos rfl, matchHere_dot_all cs hcs]
        rw [hm]
        simp [splitLastComma, hs]
      · simp [splitLastComma, hs, matchHere, hcomma]
    · simp [splitLastComma, hs]

theorem matchHere_tail (s : Str) (h : '\n' ∉ s) :
    matchHere [Item.rep reDot 0 true, Item.lit ',', Item.rep reDot 0 true] s =
      (splitLastComma s).map (fun ab => ([ab.1, ab.2], [])) := by
  rw [matchHere_rep]
  have := greedy_tail s h []
  simpa using this

/-! ## The pattern `m3uExtInfRE` -/

/-- The shape of a match of `m3uExtInfRE` in a text without line feed: the
duration field is a run of non-blank runes, the blanks after it are skipped, the
second group ends at the last comma and the third is all that follows. -/
theorem extinf_match_shape (t : Str) (g : List Str) (rest : Str) (hnl : '\n' ∉ t)
    (h : matchHere m3uExtInfRE t = some (g, rest)) :
    ∃ d w a b, t = "#EXTINF:".toList ++ d ++ w ++ a ++ ',' :: b ∧ g = [d, a, b] ∧ rest = [] ∧
      ',' ∉ b ∧ d ≠ [] ∧ (∀ c ∈ d, reNotSpace c = true) ∧ (∀ c ∈ w, reSpace c = true) := by
  have e : m3uExtInfRE = lits "#EXTINF:".toList ++
      (Item.rep reNotSpace 1 true :: Item.rep reSpace 0 false ::
        [Item.rep reDot 0 true, Item.lit ',', Item.rep reDot 0 true]) := rfl
  rw [e] at h
  obtain ⟨t1, ht, h1⟩ := matchHere_lits_some _ _ _ _ h
  rw [matchHere_rep] at h1
  obtain ⟨d, s1, hs1, hd, hmin, hk, -⟩ := greedy_some _ _ _ _ _ _ h1
  simp only [List.nil_append] at hk hmin
  rcases h2 : matchHere (Item.rep reSpace 0 false ::
      [Item.rep reDot 0 true, Item.lit ',', Item.rep reDot 0 true]) s1 with _ | ⟨g1, r1⟩
  · rw [h2] at hk; simp at hk
  rw [h2] at hk
  simp only [if_true, Option.some.injEq, Prod.mk.injEq] at hk
  obtain ⟨hg, hr⟩ := hk
  rw [matchHere_rep] at h2
  obtain ⟨w, s2, hs2, hw, -, hk2, -⟩ := greedy_some _ _ _ _ _ _ h2
  rcases h3 : matchHere [Item.rep reDot 0 true, Item.lit ',', Item.rep reDot 0 true] s2
    with _ | ⟨g2, r2⟩
  · rw [h3] at hk2; simp at hk2
  rw [h3] at hk2
  simp only [Bool.false_eq_true, if_false, Option.some.injEq, Prod.mk.injEq] at hk2
  obtain ⟨hg2, hr2⟩ := hk2
  have hnl2 : '\n' ∉ s2 := by
    intro hm; apply hnl; rw [ht, hs1, hs2]
    exact List.mem_append_right _ (List.mem_append_right _ (List.mem_append_right _ hm))
  rw [matchHere_tail s2 hnl2] at h3
  rcases h4 : splitLastComma s2 with _ | ⟨a, b⟩
  · rw [h4] at h3; simp at h3
  rw [h4] at h3
  simp only [Option.map_some', Option.some.injEq, Prod.mk.injEq] at h3
  obtain ⟨h5, h6⟩ := splitLastComma_some _ _ _ h4
  refine ⟨d, w, a, b, ?_, ?_, ?_, h6, ?_, hd, hw⟩
  · rw [ht, hs1, hs2, h5]; simp
  · rw [← hg, ← hg2, ← h3.1]
  · rw [← hr, ← hr2, ← h3.2]
  · intro hd0; rw [hd0] at hmin; simp at hmin

/-- The shape of the result of `FindStringSubmatch` for `m3uExtInfRE` on a line
that matches. -/
theorem extinf_submatch_shape (line : Str) (hnl : '\n' ∉ line)
    (h : FindStringSubmatch m3uExtInfRE line ≠ []) :
    ∃ u d w a b, line = u ++ ("#EXTINF:".toList ++ d ++ w ++ a ++ ',' :: b) ∧
      FindStringSubmatch m3uExtInfRE line = ["#EXTINF:".toList ++ d ++ w ++ a ++ ',' :: b, d, a, b] ∧
      ',' ∉ b ∧ d ≠ [] ∧ (∀ c ∈ d, reNotSpace c = true) ∧ (∀ c ∈ w, reSpace c = true) := by
  obtain ⟨u, t, g, rest, hs, hm, hf⟩ := FindStringSubmatch_ne_nil _ _ h
  have hnlt : '\n' ∉ t := fun hmem => hnl (by rw [hs]; exact List.mem_append_right _ hmem)
  obtain ⟨d, w, a, b, ht, hg, hr, hb, hd, hdall, hwall⟩ := extinf_match_shape t g rest hnlt hm
  refine ⟨u, d, w, a, b, by rw [hs, ht], ?_, hb, hd, hdall, hwall⟩
  rw [hf, hr, matched_nil, hg, ht]

/-- The title `parseExtInf` stores, when it succeeds on a line without line
feed, is the text after the last comma of the line. -/
theorem parseExtInf_title (r : Record) (line : Str) (r1 : Record) (hnl : '\n' ∉ line)
    (h : parseExtInf r line = (r1, none)) :
    ∃ a, line = a ++ ',' :: r1.Title ∧ ',' ∉ r1.Title := by
  simp only [parseExtInf] at h
  split_ifs at h with hlen
  · simp at h
  have hne : FindStringSubmatch m3uExtInfRE line ≠ [] := by
    intro h0; rw [h0] at hlen; simp at hlen
  clear hlen
  obtain ⟨u, d, w, a, b, hl, hf, hb, -⟩ := extinf_submatch_shape line hnl hne
  rw [hf] at h
  simp only [List.getD_cons_succ, List.getD_cons_zero] at h
  rcases hp : ParseFloat d with ⟨f, _ | e⟩
  · rw [hp] at h
    simp only at h
    rcases ha : attrLoop line { r with Duration := f } (FindAllString m3uAttrRE a) with ⟨r2, _ | e⟩
    · rw [ha] at h
      simp only [Prod.mk.injEq, and_true] at h
      refine ⟨u ++ ("#EXTINF:".toList ++ d ++ w ++ a), ?_, ?_⟩
      · rw [← h, hl]; simp
      · rw [← h]; exact hb
    · rw [ha] at h; simp at h
  · rw [hp] at h; simp at h

/-! ## The line scanner -/

theorem mem_dropCR {c : Char} {s : Str} (h : c ∈ dropCR s) : c ∈ s := by
  unfold dropCR at h
  split_ifs at h
  · exact List.mem_of_mem_dropLast h
  · exact h

/-- The lines the scanner delivers hold no line feed. -/
theorem scanFrom_no_newline : ∀ (s cur : Str), '\n' ∉ cur →
    ∀ l ∈ (scanFrom cur s).1, '\n' ∉ l := by
  intro s
  induction s with
  | nil =>
    intro cur hcur l hl
    simp only [scanFrom] at hl
    split_ifs at hl
    · simp at hl
    · simp at hl
    · simp only [List.mem_singleton] at hl
      subst hl
      exact fun hm => hcur (mem_dropCR hm)
  | cons c cs ih =>
    intro cur hcur l hl
    simp only [scanFrom] at hl
    split_ifs at hl with hc hlong
    · simp at hl
    · simp only [List.mem_cons] at hl
      rcases hl with rfl | hl
      · exact fun hm => hcur (mem_dropCR hm)
      · exact ih [] (by simp) l hl
    · refine ih (cur ++ [c]) ?_ l hl
      intro hm
      rcases List.mem_append.1 hm with h1 | h1
      · exact hcur h1
      · simp only [List.mem_singleton] at h1
        exact hc h1.symm

theorem scanLines_no_newline (input : Str) : ∀ l ∈ (scanLines input).1, '\n' ∉ l :=
  scanFrom_no_newline input [] (by simp)

/-! ## The pattern `m3uAttrRE` on a `key="value"` text -/

theorem split_longer {a b c d : Str} (h : a ++ b = c ++ d) (hlen : a.length < c.length) :
    ∃ x t, c = a ++ x :: t ∧ b = x :: t ++ d := by
  rcases List.append_eq_append_iff.1 h with ⟨a1, h1, h2⟩ | ⟨c1, h1, h2⟩
  · cases a1 with
    | nil => simp [h1] at hlen
    | cons x t => exact ⟨x, t, h1, h2⟩
  · rw [h1] at hlen; simp at hlen

theorem attr_tail_some (s : Str) (x : List Str × Str)
    (h : matchHere [Item.lit '=', Item.lit '"', Item.rep reNotQuote 0 true, Item.lit '"'] s
      = some x) :
    ∃ z w, s = '=' :: '"' :: (z ++ '"' :: w) := by
  match s, h with
  | [], h => simp [matchHere] at h
  | [_], h =>
    simp only [matchHere] at h
    split_ifs at h
  | c0 :: c1 :: t, h =>
    simp only [matchHere] at h
    split_ifs at h with h0 h1
    obtain ⟨z, suf, hs, -, -, hk, -⟩ := greedy_some _ _ _ _ _ _ h
    cases suf with
    | nil => simp [matchHere] at hk
    | cons y w =>
      simp only [matchHere] at hk
      split_ifs at hk with hy
      exact ⟨z, w, by rw [h0, h1, hs, hy]⟩

theorem attr_tail_none_of_count (s : Str) (h : s.count '"' ≤ 1) :
    matchHere [Item.lit '=', Item.lit '"', Item.rep reNotQuote 0 true, Item.lit '"'] s = none := by
  rcases hm : matchHere [Item.lit '=', Item.lit '"', Item.rep reNotQuote 0 true, Item.lit '"'] s
    with _ | x
  · rfl
  · obtain ⟨z, w, hs⟩ := attr_tail_some s x hm
    rw [hs] at h
    simp [List.count_cons, List.count_append] at h

theorem attr_tail_match (v : Str) (hv : '"' ∉ v) :
    matchHere [Item.lit '=', Item.lit '"', Item.rep reNotQuote 0 true, Item.lit '"']
      ('=' :: '"' :: (v ++ ['"'])) = some ([v], []) := by
  have h1 : matchHere [Item.rep reNotQuote 0 true, Item.lit '"'] (v ++ ['"']) = some ([v], []) := by
    rw [matchHere_rep]
    apply greedy_longest
    · intro c hc
      simp only [reNotQuote, Bool.not_eq_true', decide_eq_false_iff_not]
      rintro rfl; exact hv hc
    · simp
    · simp [matchHere]
    · intro pre1 suf1 hs hlen hall
      obtain ⟨x, t, hp, hsuf⟩ := split_longer hs hlen
      simp only [List.cons_append, List.cons.injEq] at hsuf
      have hx : reNotQuote x = true := hall x (by rw [hp]; simp)
      rw [← hsuf.1] at hx
      simp [reNotQuote] at hx
  simp only [matchHere, if_true]
  exact h1

/-- The pattern `m3uAttrRE` matches a text `key="value"` whole, when the key is
not empty and has no line feed and the value has no double quote: its groups are
the key and the value. -/
theorem attr_match (k v : Str) (hk : k ≠ []) (hknl : '\n' ∉ k) (hv : '"' ∉ v) :
    matchHere m3uAttrRE (k ++ '=' :: '"' :: (v ++ ['"'])) = some ([k, v], []) := by
  unfold m3uAttrRE
  rw [matchHere_rep]
  apply greedy_longest
  · intro c hc
    simp only [reDot, Bool.not_eq_true', decide_eq_false_iff_not]
    rintro rfl; exact hknl hc
  · simpa [Nat.succ_le_iff, List.length_pos] using hk
  · simp only [List.nil_append, attr_tail_match v hv, if_true]
  · intro pre1 suf1 hs hlen _
    obtain ⟨x, t, -, hsuf⟩ := split_longer hs hlen
    have hnone : matchHere [Item.lit '=', Item.lit '"', Item.rep reNotQuote 0 true, Item.lit '"']
        suf1 = none := by
      simp only [List.cons_append, List.cons.injEq] at hsuf
      obtain ⟨-, hsuf⟩ := hsuf
      cases t with
      | nil =>
        simp only [List.nil_append] at hsuf
        rw [← hsuf]
        simp [matchHere]
      | cons y t =>
        simp only [List.cons_append, List.cons.injEq] at hsuf
        apply attr_tail_none_of_count
        have hle : suf1.count '"' ≤ (v ++ ['"']).count '"' :=
          List.Sublist.count_le (by rw [hsuf.2]; exact List.sublist_append_right _ _) _
        have hv0 : v.count '"' = 0 := List.count_eq_zero_of_not_mem hv
        simpa [List.count_append, hv0] using hle
    simp [hnone]

theorem findAllFrom_skip (re : List Item) : ∀ (s : Str) (n : Nat), s.length ≤ n →
    findAllFrom re n s = [] := by
  intro s
  induction s with
  | nil => intro n _; cases n <;> rfl
  | cons c cs ih =>
    intro n hn
    cases n with
    | zero => simp at hn
    | succ n => simp only [findAllFrom]; exact ih n (by simpa using hn)

theorem FindAllString_attr (k v : Str) (hk : k ≠ []) (hknl : '\n' ∉ k) (hv : '"' ∉ v) :
    FindAllString m3uAttrRE (k ++ '=' :: '"' :: (v ++ ['"'])) = [k ++ '=' :: '"' :: (v ++ ['"'])] := by
  have hm := attr_match k v hk hknl hv
  cases k with
  | nil => exact absurd rfl hk
  | cons c cs =>
    simp only [List.cons_append] at hm ⊢
    simp only [FindAllString, findAllFrom, hm, matched_nil]
    rw [findAllFrom_skip _ _ _ (by simp)]

theorem FindStringSubmatch_attr (k v : Str) (hk : k ≠ []) (hknl : '\n' ∉ k) (hv : '"' ∉ v) :
    FindStringSubmatch m3uAttrRE (k ++ '=' :: '"' :: (v ++ ['"'])) =
      [k ++ '=' :: '"' :: (v ++ ['"']), k, v] := by
  rw [FindStringSubmatch_of_matchHere _ _ _ _ (attr_match k v hk hknl hv), matched_nil]

theorem TrimSpace_attr (c : Char) (k v : Str) (hc : isSpace c = false) :
    TrimSpace (c :: k ++ '=' :: '"' :: (v ++ ['"'])) = c :: k ++ '=' :: '"' :: (v ++ ['"']) := by
  have e : c :: k ++ '=' :: '"' :: (v ++ ['"']) = (c :: k ++ '=' :: '"' :: v) ++ ['"'] := by simp
  have hq : isSpace '"' = false := by decide
  unfold TrimSpace
  rw [show (c :: k ++ '=' :: '"' :: (v ++ ['"'])) = c :: (k ++ '=' :: '"' :: (v ++ ['"'])) from rfl,
    List.dropWhile_cons_of_neg (by simp [hc])]
  rw [show c :: (k ++ '=' :: '"' :: (v ++ ['"'])) = (c :: k ++ '=' :: '"' :: v) ++ ['"'] by simp,
    List.reverse_append, List.reverse_singleton, List.singleton_append,
    List.dropWhile_cons_of_neg (by simp [hq])]
  simp

/-! ## Decimal digits -/

/-- What the loop of `readFloat` and the patterns see of a decimal digit. -/
theorem digitChar_facts : ∀ d, d < 10 →
    isDigit (digitChar d) = true ∧ digitVal (digitChar d) = d ∧
      digitChar d ≠ '_' ∧ digitChar d ≠ '.' ∧ digitChar d ≠ '+' ∧ digitChar d ≠ '-' ∧
      digitChar d ≠ 'x' ∧ digitChar d ≠ 'X' ∧ digitChar d ≠ 'e' ∧ digitChar d ≠ 'E' ∧
      digitChar d ≠ ',' ∧ digitChar d ≠ '\n' ∧ reNotSpace (digitChar d) = true ∧
      lowerASCII (digitChar d) ≠ 'i' ∧ lowerASCII (digitChar d) ≠ 'n' ∧
      (digitChar d = '0' ↔ d = 0) := by
  decide

theorem natDigitsAux_dec : ∀ (fuel n : Nat), ∀ c ∈ natDigitsAux fuel n, IsDec c := by
  intro fuel
  induction fuel with
  | zero => intro n c hc; simp [natDigitsAux] at hc
  | succ fuel ih =>
    intro n c hc
    simp only [natDigitsAux] at hc
    split_ifs at hc with hn
    · simp only [List.mem_singleton] at hc
      exact ⟨n, hn, hc⟩
    · rcases List.mem_append.1 hc with h1 | h1
      · exact ih _ c h1
      · simp only [List.mem_singleton] at h1
        exact ⟨n % 10, Nat.mod_lt _ (by norm_num), h1⟩

theorem natDigits_dec (n : Nat) : ∀ c ∈ natDigits n, IsDec c := natDigitsAux_dec _ _

theorem natDigits_ne_nil (n : Nat) : natDigits n ≠ [] := by
  unfold natDigits
  simp only [natDigitsAux]
  split_ifs <;> simp

/-- The mantissa loop of `readFloat` on the decimal rendering of `n`: the
mantissa is `n`, and the point stays where it is. -/
theorem mantLoop_natDigitsAux : ∀ (fuel n : Nat), n < 10 ^ (fuel + 1) →
    ∃ nd : Nat, (n ≠ 0 → nd ≠ 0) ∧ ∀ rest : Str,
      mantLoop false ⟨false, false, 0, 0, 0, false⟩ (natDigitsAux (fuel + 1) n ++ rest) =
        mantLoop false ⟨false, true, nd, if n = 0 then -1 else 0, n, false⟩ rest := by
  intro fuel
  induction fuel with
  | zero =>
    intro n hn
    have hn10 : n < 10 := by simpa using hn
    obtain ⟨h1, h2, h3, h4, -, -, -, -, -, -, -, -, -, -, -, h5⟩ := digitChar_facts n hn10
    by_cases h0 : n = 0
    · subst h0
      refine ⟨0, by simp, fun rest => ?_⟩
      simp [natDigitsAux, mantLoop, h1, h3, h4, h5]
    · refine ⟨1, by simp, fun rest => ?_⟩
      simp [natDigitsAux, hn10, mantLoop, h1, h2, h3, h4, h5, h0]
  | succ fuel ih =>
    intro n hn
    by_cases hn10 : n < 10
    · obtain ⟨h1, h2, h3, h4, -, -, -, -, -, -, -, -, -, -, -, h5⟩ := digitChar_facts n hn10
      by_cases h0 : n = 0
      · subst h0
        refine ⟨0, by simp, fun rest => ?_⟩
        simp [natDigitsAux, mantLoop, h1, h3, h4, h5]
      · refine ⟨1, by simp, fun rest => ?_⟩
        simp [natDigitsAux, hn10, mantLoop, h1, h2, h3, h4, h5, h0]
    · have hq : n / 10 < 10 ^ (fuel + 1) := by
        apply Nat.div_lt_of_lt_mul
        calc n < 10 ^ (fuel + 1 + 1) := hn
          _ = 10 * 10 ^ (fuel + 1) := by ring
      have hq0 : n / 10 ≠ 0 := by
        have : 1 ≤ n / 10 := (Nat.le_div_iff_mul_le (by norm_num)).2 (by omega)
        omega
      have hn0 : n ≠ 0 := by omega
      obtain ⟨nd, hnd, hrest⟩ := ih (n / 10) hq
      obtain ⟨h1, h2, h3, h4, -, -, -, -, -, -, -, -, -, -, -, h5⟩ :=
        digitChar_facts (n % 10) (Nat.mod_lt _ (by norm_num))
      refine ⟨nd + 1, by simp, fun rest => ?_⟩
      have hnd0 : nd ≠ 0 := hnd hq0
      have hval : n / 10 * 10 + n % 10 = n := by omega
      rw [natDigitsAux, if_neg hn10, List.append_assoc, hrest]
      simp [mantLoop, h1, h2, h3, h4, hnd0, hq0, hn0, hval]

theorem lt_ten_pow_succ (n : Nat) : n < 10 ^ (n + 1) :=
  calc n < 10 ^ n := Nat.lt_pow_self (by norm_num) n
    _ ≤ 10 ^ (n + 1) := Nat.pow_le_pow_right (by norm_num) (Nat.le_succ n)

theorem mantLoop_natDigits (n : Nat) :
    ∃ nd : Nat, mantLoop false ⟨false, false, 0, 0, 0, false⟩ (natDigits n) =
      (⟨false, true, nd, if n = 0 then -1 else 0, n, false⟩, []) := by
  obtain ⟨nd, -, h⟩ := mantLoop_natDigitsAux n n (lt_ten_pow_succ n)
  refine ⟨nd, ?_⟩
  have := h []
  simpa [natDigits, mantLoop] using this

theorem stripSign_digits (neg : Bool) (ds : Str) (hne : ds ≠ []) (hd : ∀ c ∈ ds, IsDec c) :
    stripSign (signText neg ++ ds) = (neg, ds) := by
  cases neg with
  | true => simp [signText, stripSign]
  | false =>
    cases ds with
    | nil => exact absurd rfl hne
    | cons c cs =>
      obtain ⟨d, hd10, rfl⟩ := hd c (List.mem_cons_self _ _)
      obtain ⟨-, -, -, -, h5, h6, -⟩ := digitChar_facts d hd10
      simp [signText, stripSign, h5, h6]

theorem stripHex_digits (ds : Str) (hd : ∀ c ∈ ds, IsDec c) : stripHex ds = (false, ds) := by
  match ds, hd with
  | [], _ => rfl
  | [_], _ => rfl
  | [_, _], _ => rfl
  | c0 :: c1 :: c2 :: t, hd =>
    obtain ⟨d, hd10, rfl⟩ := hd c1 (by simp)
    obtain ⟨-, -, -, -, -, -, h7, h8, -⟩ := digitChar_facts d hd10
    simp [stripHex, h7, h8]

theorem special_digits (neg : Bool) (ds : Str) (hne : ds ≠ []) (hd : ∀ c ∈ ds, IsDec c) :
    special (signText neg ++ ds) = none := by
  cases ds with
  | nil => exact absurd rfl hne
  | cons c cs =>
    obtain ⟨d, hd10, rfl⟩ := hd c (List.mem_cons_self _ _)
    obtain ⟨-, -, -, -, h5, h6, -, -, -, -, -, -, -, h14, h15, -⟩ := digitChar_facts d hd10
    have hinf : isInfWord (digitChar d :: cs) = false := by
      simp [isInfWord, h14]
    cases neg with
    | true => simp [signText, special, hinf]
    | false => simp [signText, special, hinf, h5, h6, h15]

theorem readFloat_digits (neg : Bool) (n : Nat) :
    readFloat (signText neg ++ natDigits n) = some (neg, n, 0, false) := by
  obtain ⟨nd, hm⟩ := mantLoop_natDigits n
  simp only [readFloat, stripSign_digits neg _ (natDigits_ne_nil n) (natDigits_dec n),
    stripHex_digits _ (natDigits_dec n), hm]
  simp [readExponent, readFloatEnd]

/-! ## Whole numbers through `%.0f` and `ParseFloat` -/

theorem rne_of_dvd (a b : Nat) (hb : 0 < b) (h : a % b = 0) : rne a b = a / b := by
  simp [rne, h, hb]

/-- Rounding gives back a magnitude that is that of a `float64`. -/
theorem roundToF64_exact (n k : Nat) (hk : isF64Magnitude k = true) (hn : k = n * 2 ^ 1074) :
    roundToF64 n 1 = some k := by
  simp only [isF64Magnitude, Bool.and_eq_true, decide_eq_true_eq] at hk
  obtain ⟨hlim, hmod⟩ := hk
  have hpos : 0 < 2 ^ binadeShift 2098 k := Nat.pow_pos (by norm_num)
  have hdvd : 2 ^ binadeShift 2098 k ∣ k := Nat.dvd_of_mod_eq_zero hmod
  simp only [roundToF64, ← hn, Nat.div_one, one_mul]
  rw [if_neg (by omega), rne_of_dvd k _ hpos hmod, Nat.div_mul_cancel hdvd, if_neg (by omega)]

/-- A whole number is its sign and a natural number. -/
theorem isWhole_iff (d : Float64) (h : d.isWhole = true) :
    ∃ neg n, d = Float64.fin neg (n * 2 ^ 1074) ∧ isF64Magnitude (n * 2 ^ 1074) = true := by
  cases d with
  | fin neg k =>
    simp only [Float64.isWhole, Bool.and_eq_true, decide_eq_true_eq] at h
    obtain ⟨h1, h2⟩ := h
    have hk : k = k / 2 ^ 1074 * 2 ^ 1074 :=
      (Nat.div_mul_cancel (Nat.dvd_of_mod_eq_zero h2)).symm
    exact ⟨neg, k / 2 ^ 1074, by rw [← hk], by rw [← hk]; exact h1⟩
  | inf neg => simp [Float64.isWhole] at h
  | nan => simp [Float64.isWhole] at h

theorem fmtF0_whole (neg : Bool) (n : Nat) :
    fmtF0 (Float64.fin neg (n * 2 ^ 1074)) = signText neg ++ natDigits n := by
  have hpos : 0 < 2 ^ 1074 := Nat.pow_pos (by norm_num)
  simp only [fmtF0, signText]
  rw [rne_of_dvd _ _ hpos (Nat.mul_mod_left _ _), Nat.mul_div_cancel _ hpos]

/-- A whole number printed with `%.0f` is read back by `ParseFloat` as the same
number. -/
theorem ParseFloat_fmtF0 (d : Float64) (h : d.isWhole = true) :
    ParseFloat (fmtF0 d) = (d, none) := by
  obtain ⟨neg, n, rfl, hk⟩ := isWhole_iff d h
  rw [fmtF0_whole]
  simp only [ParseFloat, special_digits neg _ (natDigits_ne_nil n) (natDigits_dec n),
    readFloat_digits]
  simp [roundToF64_exact n _ hk rfl]

/-- The text of a whole number printed with `%.0f`: not empty, and made of runes
that are neither blank, nor a comma, nor a line feed. -/
theorem fmtF0_text (d : Float64) (h : d.isWhole = true) :
    fmtF0 d ≠ [] ∧ ∀ c ∈ fmtF0 d, reNotSpace c = true ∧ c ≠ ',' ∧ c ≠ '\n' := by
  obtain ⟨neg, n, rfl, -⟩ := isWhole_iff d h
  rw [fmtF0_whole]
  refine ⟨by simp [natDigits_ne_nil], ?_⟩
  intro c hc
  rcases List.mem_append.1 hc with h1 | h1
  · cases neg with
    | true =>
      simp only [signText, if_true, List.mem_singleton] at h1
      subst h1; decide
    | false => simp [signText] at h1
  · obtain ⟨d, hd10, rfl⟩ := natDigits_dec n c h1
    obtain ⟨-, -, -, -, -, -, -, -, -, -, h11, h12, h13, -⟩ := digitChar_facts d hd10
    exact ⟨h13, h11, h12⟩

/-! ## The pattern `m3uExtInfRE` on the lines `Write` emits -/

theorem ws_tail_none (s : Str) (h : ',' ∉ s) :
    matchHere (Item.rep reSpace 0 false ::
      [Item.rep reDot 0 true, Item.lit ',', Item.rep reDot 0 true]) s = none := by
  rw [matchHere_rep]
  apply greedy_eq_none
  intro pre suf hs _ _
  have hsuf : ',' ∉ suf := fun hm => h (by rw [hs]; exact List.mem_append_right _ hm)
  simp [tail_none_of_no_comma suf hsuf]

theorem extinf_RE_eq : m3uExtInfRE = lits "#EXTINF:".toList ++
    (Item.rep reNotSpace 1 true :: Item.rep reSpace 0 false ::
      [Item.rep reDot 0 true, Item.lit ',', Item.rep reDot 0 true]) := rfl

/-- The match of `m3uExtInfRE` on a line with no attribute. -/
theorem extinf_match_plain (D T : Str) (hD : D ≠ []) (hDs : ∀ c ∈ D, reNotSpace c = true)
    (hT : ',' ∉ T) (hTnl : '\n' ∉ T) :
    matchHere m3uExtInfRE ("#EXTINF:".toList ++ (D ++ ',' :: T)) = some ([D, [], T], []) := by
  rw [extinf_RE_eq, matchHere_lits_append, matchHere_rep]
  apply greedy_longest
  · exact hDs
  · simpa [Nat.succ_le_iff, List.length_pos] using hD
  · have h1 : matchHere (Item.rep reSpace 0 false ::
        [Item.rep reDot 0 true, Item.lit ',', Item.rep reDot 0 true]) (',' :: T)
        = some ([[], T], []) := by
      have hnl : '\n' ∉ ',' :: T := by
        intro hm
        rcases List.mem_cons.1 hm with h0 | h0
        · revert h0; decide
        · exact hTnl h0
      have h2 := matchHere_tail (',' :: T) hnl
      rw [show (',' :: T) = [] ++ ',' :: T from rfl, splitLastComma_append [] T hT] at h2
      rw [matchHere_rep, greedy, if_neg (by decide)]
      simp only [List.nil_append] at h2
      simp [h2]
    simp only [List.nil_append, h1, if_true]
  · intro pre1 suf1 hs hlen _
    obtain ⟨x, t, -, hsuf⟩ := split_longer hs hlen
    simp only [List.cons_append, List.cons.injEq] at hsuf
    have hc : ',' ∉ suf1 := fun hm => hT (by rw [hsuf.2]; exact List.mem_append_right _ hm)
    simp [ws_tail_none suf1 hc]

/-- The match of `m3uExtInfRE` on a line with one attribute text `A` that does
not begin with a blank. -/
theorem extinf_match_attr (D A T : Str) (c : Char) (t : Str) (hD : D ≠ [])
    (hDs : ∀ c ∈ D, reNotSpace c = true) (hA : A = c :: t) (hc : reSpace c = false)
    (hAnl : '\n' ∉ A) (hT : ',' ∉ T) (hTnl : '\n' ∉ T) :
    matchHere m3uExtInfRE ("#EXTINF:".toList ++ (D ++ ' ' :: (A ++ ',' :: T))) =
      some ([D, A, T], []) := by
  rw [extinf_RE_eq, matchHere_lits_append, matchHere_rep]
  apply greedy_longest
  · exact hDs
  · simpa [Nat.succ_le_iff, List.length_pos] using hD
  · have h1 : matchHere (Item.rep reSpace 0 false ::
        [Item.rep reDot 0 true, Item.lit ',', Item.rep reDot 0 true]) ([' '] ++ (A ++ ',' :: T))
        = some ([A, T], []) := by
      rw [matchHere_rep]
      apply greedy_longest
      · intro x hx
        simp only [List.mem_singleton] at hx
        subst hx; decide
      · simp
      · have hnl : '\n' ∉ A ++ ',' :: T := by
          intro hm
          rcases List.mem_append.1 hm with h0 | h0
          · exact hAnl h0
          · rcases List.mem_cons.1 h0 with h0 | h0
            · revert h0; decide
            · exact hTnl h0
        simp [matchHere_tail _ hnl, splitLastComma_append A T hT]
      · intro pre1 suf1 hs hlen hall
        obtain ⟨x, u, hp, hsuf⟩ := split_longer hs hlen
        rw [hA] at hsuf
        simp only [List.cons_append, List.cons.injEq] at hsuf
        have hx : reSpace x = true := hall x (by rw [hp]; simp)
        rw [← hsuf.1, hc] at hx
        exact absurd hx (by simp)
    simp only [List.nil_append, List.singleton_append] at h1 ⊢
    simp only [h1, if_true]
  · intro pre1 suf1 hs hlen hall
    obtain ⟨x, u, hp, hsuf⟩ := split_longer hs hlen
    simp only [List.cons_append, List.cons.injEq] at hsuf
    have hx : reNotSpace x = true := hall x (by rw [hp]; simp)
    rw [← hsuf.1] at hx
    exact absurd hx (by decide)

theorem reSpace_isSpace (c : Char) (h : isSpace c = false) : reSpace c = false := by
  by_contra hne
  have hs : reSpace c = true := by simpa using hne
  simp only [reSpace, Bool.or_eq_true, decide_eq_true_eq] at hs
  have : isSpace c = true := by
    rcases hs with (((rfl | rfl) | rfl) | rfl) | rfl <;> decide
  rw [h] at this
  exact absurd this (by simp)

/-! ## `parseExtInf` on the lines `Write` emits -/

theorem parseExtInf_plain (r0 : Record) (d : Float64) (T : Str) (hd : d.isWhole = true)
    (hT : ',' ∉ T) (hTnl : '\n' ∉ T) :
    parseExtInf r0 ("#EXTINF:".toList ++ (fmtF0 d ++ ',' :: T)) =
      ({ r0 with Duration := d, Title := T }, none) := by
  obtain ⟨h1, h2⟩ := fmtF0_text d hd
  have hm := extinf_match_plain (fmtF0 d) T h1 (fun c hc => (h2 c hc).1) hT hTnl
  have hf := FindStringSubmatch_of_matchHere _ _ _ _ hm
  rw [matched_nil] at hf
  simp only [parseExtInf, hf, List.length_cons, List.length_nil, List.getD_cons_succ,
    List.getD_cons_zero, ParseFloat_fmtF0 d hd]
  simp [FindAllString, findAllFrom, attrLoop]

theorem parseExtInf_attr (r0 : Record) (d : Float64) (c : Char) (k v T : Str)
    (hd : d.isWhole = true) (hc : isSpace c = false) (hk : '\n' ∉ c :: k) (hv : '"' ∉ v)
    (hvnl : '\n' ∉ v) (hT : ',' ∉ T) (hTnl : '\n' ∉ T) :
    parseExtInf r0 ("#EXTINF:".toList ++
        (fmtF0 d ++ ' ' :: ((c :: k ++ '=' :: '"' :: (v ++ ['"'])) ++ ',' :: T))) =
      ({ r0 with Duration := d, Attributes := setAttr r0.Attributes (c :: k) v, Title := T },
        none) := by
  obtain ⟨h1, h2⟩ := fmtF0_text d hd
  have hAnl : '\n' ∉ c :: k ++ '=' :: '"' :: (v ++ ['"']) := by
    intro hm
    rcases List.mem_append.1 hm with h0 | h0
    · exact hk h0
    · simp only [List.mem_cons, List.mem_append, List.mem_singleton] at h0
      rcases h0 with h0 | h0 | h0 | h0
      · revert h0; decide
      · revert h0; decide
      · exact hvnl h0
      · rcases h0 with h0 | h0
        · revert h0; decide
        · exact absurd h0 (List.not_mem_nil _)
  have hm := extinf_match_attr (fmtF0 d) (c :: k ++ '=' :: '"' :: (v ++ ['"'])) T c
    (k ++ '=' :: '"' :: (v ++ ['"'])) h1 (fun c hc => (h2 c hc).1) rfl (reSpace_isSpace c hc)
    hAnl hT hTnl
  have hf := FindStringSubmatch_of_matchHere _ _ _ _ hm
  rw [matched_nil] at hf
  simp only [parseExtInf, hf, List.length_cons, List.length_nil, List.getD_cons_succ,
    List.getD_cons_zero, ParseFloat_fmtF0 d hd,
    FindAllString_attr (c :: k) v (by simp) hk hv, attrLoop, TrimSpace_attr c k v hc,
    FindStringSubmatch_attr (c :: k) v (by simp) hk hv]
  simp

/-! ## The line scanner on the text `Write` emits -/

theorem byteLen_append (a b : Str) : byteLen (a ++ b) = byteLen a + byteLen b := by
  simp [byteLen]

theorem scanFrom_append_line (rest : Str) : ∀ (l cur : Str), '\n' ∉ l →
    scanFrom cur (l ++ '\n' :: rest) =
      if maxScanTokenSize ≤ byteLen (cur ++ l) then ([], true)
      else (dropCR (cur ++ l) :: (scanFrom [] rest).1, (scanFrom [] rest).2) := by
  intro l
  induction l with
  | nil => intro cur _; simp [scanFrom]
  | cons c l ih =>
    intro cur hl
    have hc : ¬ c = '\n' := fun h => hl (by simp [h])
    have hl1 : '\n' ∉ l := fun hm => hl (List.mem_cons_of_mem _ hm)
    rw [List.cons_append, scanFrom, if_neg hc, ih (cur ++ [c]) hl1]
    simp

theorem dropCR_eq (s : Str) (h : s.getLast? ≠ some '\r') : dropCR s = s := by
  simp [dropCR, h]

/-- A line that fits in the buffer of the scanner, has no line feed and does not
end in a carriage return is delivered as it is. -/
theorem scanFrom_line (l rest : Str) (hnl : '\n' ∉ l) (hcr : l.getLast? ≠ some '\r')
    (hlen : byteLen l < maxScanTokenSize) :
    scanFrom [] (l ++ '\n' :: rest) = (l :: (scanFrom [] rest).1, (scanFrom [] rest).2) := by
  rw [scanFrom_append_line rest l [] hnl, List.nil_append, if_neg (by omega), dropCR_eq l hcr]

/-! ## Sanitized records -/

theorem getLast?_comma_title (X T : Str) (h : T.getLast? ≠ some '\r') :
    (X ++ ',' :: T).getLast? ≠ some '\r' := by
  cases T with
  | nil =>
    rw [List.getLast?_concat]
    decide
  | cons t ts =>
    rw [List.getLast?_append, List.getLast?_cons_cons]
    obtain ⟨y, hy⟩ : ∃ y, (t :: ts).getLast? = some y :=
      ⟨_, List.getLast?_eq_getLast _ (by simp)⟩
    rw [hy] at h ⊢
    simpa using h

/-- What `Write` emits for a sanitized record and what `parseExtInf` makes of
it: the EXTINF line is `#EXTINF:`, a body without line feed, a comma and the
title, and parsing it into a new record gives the record but for its URL. -/
theorem sanitized_line (r : Record) (h : r.sanitized = true) :
    ∃ body : Str, extInfLine r = ("#EXTINF:".toList ++ (body ++ ',' :: r.Title)) ++ ['\n'] ∧
      '\n' ∉ body ∧
      parseExtInf NewRecord ("#EXTINF:".toList ++ (body ++ ',' :: r.Title)) =
        ({ r with URL := [] }, none) := by
  rcases r with ⟨d, attrs, T, u⟩
  simp only [Record.sanitized, Bool.and_eq_true, Bool.not_eq_true', List.contains_eq_any_beq,
    List.any_eq_false, beq_iff_eq, bne_iff_ne, ne_eq, decide_eq_true_eq] at h
  obtain ⟨⟨⟨⟨⟨⟨⟨⟨⟨hd, ha⟩, hT⟩, hTnl⟩, -⟩, -⟩, -⟩, -⟩, -⟩, -⟩ := h
  have hT' : ',' ∉ T := fun hm => hT _ hm rfl
  have hTnl' : '\n' ∉ T := fun hm => hTnl _ hm rfl
  obtain ⟨hne, htext⟩ := fmtF0_text d hd
  have hdnl : '\n' ∉ fmtF0 d := fun hm => (htext _ hm).2.2 rfl
  match attrs, ha with
  | [], _ =>
    refine ⟨fmtF0 d, by simp [extInfLine, newLine], hdnl, ?_⟩
    rw [parseExtInf_plain NewRecord d T hd hT' hTnl']
    rfl
  | [([], v)], ha => simp [attrsSanitized] at ha
  | [(c :: k, v)], ha =>
    simp only [attrsSanitized, Bool.and_eq_true, Bool.not_eq_true', List.contains_eq_any_beq,
      List.any_eq_false, beq_iff_eq] at ha
    obtain ⟨⟨⟨hc, hk⟩, hv⟩, hvnl⟩ := ha
    have hk' : '\n' ∉ c :: k := fun hm => hk _ hm rfl
    have hv' : '"' ∉ v := fun hm => hv _ hm rfl
    have hvnl' : '\n' ∉ v := fun hm => hvnl _ hm rfl
    refine ⟨fmtF0 d ++ ' ' :: (c :: k ++ '=' :: '"' :: (v ++ ['"'])), ?_, ?_, ?_⟩
    · simp [extInfLine, newLine]
    · intro hm
      rcases List.mem_append.1 hm with h0 | h0
      · exact hdnl h0
      · simp only [List.mem_cons, List.mem_append, List.mem_singleton] at h0
        rcases h0 with h0 | h0
        · revert h0; decide
        · rcases h0 with h0 | h0
          · exact hk' (List.mem_cons.2 h0)
          · rcases h0 with h0 | h0 | h0 | h0
            · revert h0; decide
            · revert h0; decide
            · exact hvnl' h0
            · rcases h0 with h0 | h0
              · revert h0; decide
              · exact absurd h0 (List.not_mem_nil _)
    · have := parseExtInf_attr NewRecord d c k v T hd hc hk' hv' hvnl' hT' hTnl'
      simp only [List.append_assoc, List.cons_append] at this ⊢
      rw [this]
      rfl

/-! ## The loop of `Read` -/

theorem hasPrefix_hash_of_header {l : Str} (h : l = m3uHeader) :
    HasPrefix l "#".toList = true := by
  subst h; decide

theorem hasPrefix_hash_of_extinf {l : Str} (h : HasPrefix l "#EXTINF".toList = true) :
    HasPrefix l "#".toList = true := by
  unfold HasPrefix at *
  rw [List.isPrefixOf_iff_prefix] at *
  exact List.IsPrefix.trans (by decide) h

/-- Reading a sequence of lines in two parts. -/
theorem readLines_append (m : M3U) (r : Record) (pre post : List Str) :
    readLines m r (pre ++ post) =
      match readLines m r pre with
      | (m1, some e) => (m1, some e)
      | (m1, none) => readLines m1 (pendingAfter r pre) post := by
  induction pre generalizing m r with
  | nil => simp [readLines, pendingAfter]
  | cons l pre ih =>
    simp only [List.cons_append, readLines, pendingAfter]
    split_ifs with h1 h2 h3
    · exact ih m r
    · rcases hp : parseExtInf r l with ⟨r1, _ | e⟩
      · simp only []; exact ih m r1
      · simp only []
    · rfl
    · exact ih _ _

/-- The playlist `Read` leaves extends the one it was given, and the URLs of
the records added are the lines read that do not start with `#`, as long as no
error occurs. -/
theorem readLines_urls (m : M3U) (r : Record) (lines : List Str) (m1 : M3U)
    (h : readLines m r lines = (m1, none)) :
    ∃ t, m1 = m ++ t ∧ t.map Record.URL = lines.filter (fun l => !isDirective l) := by
  induction lines generalizing m r with
  | nil =>
    simp only [readLines, Prod.mk.injEq, and_true] at h
    exact ⟨[], by simp [h]⟩
  | cons l lines ih =>
    simp only [readLines] at h
    split_ifs at h with h1 h2 h3
    · obtain ⟨t, ht, hu⟩ := ih m r h
      refine ⟨t, ht, ?_⟩
      have : isDirective l = true := hasPrefix_hash_of_header h1
      simp [List.filter_cons, this, hu]
    · rcases hp : parseExtInf r l with ⟨r1, _ | e⟩
      · rw [hp] at h
        obtain ⟨t, ht, hu⟩ := ih m r1 h
        refine ⟨t, ht, ?_⟩
        have : isDirective l = true := hasPrefix_hash_of_extinf h2
        simp [List.filter_cons, this, hu]
      · rw [hp] at h; simp at h
    · simp at h
    · obtain ⟨t, ht, hu⟩ := ih _ _ h
      refine ⟨{ r with URL := l } :: t, by simp [ht], ?_⟩
      have : isDirective l = false := by simpa [isDirective] using h3
      simp [List.filter_cons, this, hu]

/-- Whatever happens, `Read` only appends to the playlist. -/
theorem readLines_extends (m : M3U) (r : Record) (lines : List Str) :
    ∃ t, (readLines m r lines).1 = m ++ t := by
  induction lines generalizing m r with
  | nil => exact ⟨[], by simp [readLines]⟩
  | cons l lines ih =>
    simp only [readLines]
    split_ifs with h1 h2 h3
    · exact ih m r
    · rcases hp : parseExtInf r l with ⟨r1, _ | e⟩
      · exact ih m r1
      · exact ⟨[], by simp⟩
    · exact ⟨[], by simp⟩
    · obtain ⟨t, ht⟩ := ih (m ++ [{ r with URL := l }]) NewRecord
      exact ⟨{ r with URL := l } :: t, by simp [ht]⟩

/-- When the loop of `Read` fails, it fails at a line: the lines before it were
read without error and gave the playlist that is left. -/
theorem readLines_error_split (m : M3U) (r : Record) (lines : List Str) (m1 : M3U) (e : Error)
    (h : readLines m r lines = (m1, some e)) :
    ∃ pre bad post, lines = pre ++ bad :: post ∧ readLines m r pre = (m1, none) ∧
      (readLines m1 (pendingAfter r pre) [bad]).2 = some e := by
  induction lines generalizing m r with
  | nil => simp [readLines] at h
  | cons l lines ih =>
    simp only [readLines] at h
    split_ifs at h with h1 h2 h3
    · obtain ⟨pre, bad, post, hl, hr, hb⟩ := ih m r h
      refine ⟨l :: pre, bad, post, by simp [hl], ?_, ?_⟩
      · simp only [readLines, h1, if_true]; exact hr
      · simp only [pendingAfter, h1, if_true]; exact hb
    · rcases hp : parseExtInf r l with ⟨r1, _ | e1⟩
      · rw [hp] at h
        obtain ⟨pre, bad, post, hl, hr, hb⟩ := ih m r1 h
        refine ⟨l :: pre, bad, post, by simp [hl], ?_, ?_⟩
        · simp only [readLines, if_neg h1, if_pos h2, hp]; exact hr
        · simp only [pendingAfter, if_neg h1, if_pos h2, hp]; exact hb
      · rw [hp] at h
        simp only [Prod.mk.injEq, Option.some.injEq] at h
        obtain ⟨rfl, rfl⟩ := h
        refine ⟨[], l, lines, rfl, by simp [readLines], ?_⟩
        simp only [readLines, pendingAfter, if_neg h1, if_pos h2, hp]
    · simp only [Prod.mk.injEq, Option.some.injEq] at h
      obtain ⟨rfl, rfl⟩ := h
      refine ⟨[], l, lines, rfl, by simp [readLines], ?_⟩
      simp only [readLines, pendingAfter, if_neg h1, if_neg h2, if_pos h3]
    · obtain ⟨pre, bad, post, hl, hr, hb⟩ := ih _ _ h
      refine ⟨l :: pre, bad, post, by simp [hl], ?_, ?_⟩
      · simp only [readLines, if_neg h1, if_neg h2, if_neg h3]; exact hr
      · simp only [pendingAfter, if_neg h1, if_neg h2, if_neg h3]; exact hb

/-! ## `Write` -/

theorem recordText_eq_spec (r : Record) (h : r.Attributes.length ≤ 1) :
    extInfLine r ++ (r.URL ++ newLine) = specRecordText r := by
  rcases r with ⟨d, attrs, t, u⟩
  match attrs, h with
  | [], _ => simp [extInfLine, specRecordText, newLine]
  | [a], _ => simp [extInfLine, specRecordText, newLine]

theorem writeRecords_buffer (m : M3U) (out : Str) (h : ∀ r ∈ m, r.Attributes.length ≤ 1) :
    writeRecords bufferWriter out m = (out ++ (m.map specRecordText).flatten, none) := by
  induction m generalizing out with
  | nil => simp [writeRecords]
  | cons r m ih =>
    have hr := recordText_eq_spec r (h r (List.mem_cons_self _ _))
    simp only [writeRecords, bufferWriter]
    rw [show writeRecords ⟨fun s b => (s ++ b, none)⟩ = writeRecords bufferWriter from rfl,
      ih _ (fun q hq => h q (List.mem_cons_of_mem _ hq))]
    simp [← hr]

theorem writeRecords_chunks {σ ε : Type} (wr : Writer σ ε)
    (hw : ∀ s b, (wr.write s b).2 = none) (m : M3U) : ∀ s : σ,
    writeRecords wr s m =
      ((m.flatMap (fun r => [extInfLine r, r.URL ++ newLine])).foldl
        (fun t b => (wr.write t b).1) s, none) := by
  induction m with
  | nil => intro s; simp [writeRecords]
  | cons r m ih =>
    intro s
    simp only [writeRecords, List.flatMap_cons, List.foldl_append, List.foldl_cons,
      List.foldl_nil]
    rcases h1 : wr.write s (extInfLine r) with ⟨s1, _ | e⟩
    · rcases h2 : wr.write s1 (r.URL ++ newLine) with ⟨s2, _ | e⟩
      · simp only [h2]; exact ih s2
      · have := hw s1 (r.URL ++ newLine); rw [h2] at this; simp at this
    · have := hw s (extInfLine r); rw [h1] at this; simp at this

/-! ## Writing a playlist and reading it back -/

theorem writeRecords_buffer_text (m : M3U) : ∀ out : Str,
    writeRecords bufferWriter out m =
      (out ++ (m.map (fun r => extInfLine r ++ (r.URL ++ newLine))).flatten, none) := by
  induction m with
  | nil => intro out; simp [writeRecords]
  | cons r m ih =>
    intro out
    simp only [writeRecords, bufferWriter]
    rw [show writeRecords ⟨fun s b => (s ++ b, none)⟩ = writeRecords bufferWriter from rfl, ih]
    simp

theorem Write_buffer_text (m : M3U) :
    Write bufferWriter [] m =
      (m3uHeader ++ '\n' :: (m.map (fun r => extInfLine r ++ (r.URL ++ newLine))).flatten,
        none) := by
  simp only [Write, bufferWriter]
  rw [show writeRecords ⟨fun s b => (s ++ b, none)⟩ = writeRecords bufferWriter from rfl,
    writeRecords_buffer_text]
  simp [newLine]

/-- Scanning and reading the text `Write` emits for sanitized records appends
the records to the playlist. -/
theorem read_written_records (m : M3U) (h : ∀ r ∈ m, r.sanitized = true) : ∀ acc : M3U,
    readLines acc NewRecord
        (scanFrom [] (m.map (fun r => extInfLine r ++ (r.URL ++ newLine))).flatten).1 =
      (acc ++ m, none) ∧
    (scanFrom [] (m.map (fun r => extInfLine r ++ (r.URL ++ newLine))).flatten).2 = false := by
  induction m with
  | nil => intro acc; simp [scanFrom, readLines]
  | cons r m ih =>
    intro acc
    have hr := h r (List.mem_cons_self _ _)
    obtain ⟨body, hline, hbody, hparse⟩ := sanitized_line r hr
    simp only [Record.sanitized, Bool.and_eq_true, Bool.not_eq_true', List.contains_eq_any_beq,
      List.any_eq_false, beq_iff_eq, bne_iff_ne, ne_eq, decide_eq_true_eq] at hr
    obtain ⟨⟨⟨⟨⟨⟨⟨⟨⟨-, -⟩, -⟩, hTnl⟩, hTcr⟩, hUnl⟩, hUdir⟩, hUcr⟩, hLlen⟩, hUlen⟩ := hr
    have hTnl' : '\n' ∉ r.Title := fun hm => hTnl _ hm rfl
    have hUnl' : '\n' ∉ r.URL := fun hm => hUnl _ hm rfl
    -- the EXTINF line
    have hlnl : '\n' ∉ "#EXTINF:".toList ++ (body ++ ',' :: r.Title) := by
      intro hm
      rcases List.mem_append.1 hm with h0 | h0
      · revert h0; decide
      · rcases List.mem_append.1 h0 with h0 | h0
        · exact hbody h0
        · rcases List.mem_cons.1 h0 with h0 | h0
          · revert h0; decide
          · exact hTnl' h0
    have hlcr : ("#EXTINF:".toList ++ (body ++ ',' :: r.Title)).getLast? ≠ some '\r' := by
      rw [← List.append_assoc]
      exact getLast?_comma_title _ _ hTcr
    have hllen : byteLen ("#EXTINF:".toList ++ (body ++ ',' :: r.Title)) < maxScanTokenSize := by
      rw [hline, byteLen_append] at hLlen
      have : byteLen ['\n'] = 1 := by decide
      omega
    have hpre : HasPrefix ("#EXTINF:".toList ++ (body ++ ',' :: r.Title)) "#EXTINF".toList
        = true := rfl
    have hnh : "#EXTINF:".toList ++ (body ++ ',' :: r.Title) ≠ m3uHeader := by
      intro h0
      have h1 : HasPrefix m3uHeader "#EXTINF".toList = true := by rw [← h0]; exact hpre
      revert h1; decide
    -- the URL line
    have hu3 : ¬ HasPrefix r.URL "#".toList = true := by
      simpa [isDirective] using hUdir
    have hu2 : ¬ HasPrefix r.URL "#EXTINF".toList = true :=
      fun hp => hu3 (hasPrefix_hash_of_extinf hp)
    have hu1 : r.URL ≠ m3uHeader := fun h0 => hu3 (hasPrefix_hash_of_header h0)
    obtain ⟨ih1, ih2⟩ := ih (fun q hq => h q (List.mem_cons_of_mem _ hq)) (acc ++ [r])
    have htext : (List.map (fun r => extInfLine r ++ (r.URL ++ newLine)) (r :: m)).flatten =
        ("#EXTINF:".toList ++ (body ++ ',' :: r.Title)) ++ '\n' ::
          (r.URL ++ '\n' :: (List.map (fun r => extInfLine r ++ (r.URL ++ newLine)) m).flatten) := by
      simp only [List.map_cons, List.flatten_cons, hline, newLine]
      simp
    rw [htext, scanFrom_line _ _ hlnl hlcr hllen, scanFrom_line _ _ hUnl' hUcr hUlen]
    refine ⟨?_, ih2⟩
    simp only [readLines, if_neg hnh, if_pos hpre, hparse, if_neg hu1, if_neg hu2, if_neg hu3]
    rw [show ({ ({ r with URL := [] } : Record) with URL := r.URL } : Record) = r from rfl, ih1]
    simp

/-! ## The properties of the specification -/

/-- C1, as stated, fails: a record with a whole-number duration, no attribute,
an empty title and the URL `#x` (no line break anywhere) is written as
`#EXTINF:0,` and `#x`, and `Read` rejects the second line as an unknown
directive. -/
theorem Read_Write_counterexample :
    (Float64.ofNat 0).isWhole = true ∧
      Write bufferWriter [] [⟨Float64.ofNat 0, [], [], "#x".toList⟩] =
        ("#EXTM3U\n#EXTINF:0,\n#x\n".toList, none) ∧
      Read [] "#EXTM3U\n#EXTINF:0,\n#x\n".toList =
        ([], some (Error.errorf "m3u: unknown line #x".toList)) := by
  refine ⟨by decide, by decide, by decide⟩

/-- C1, amended: for every playlist of sanitized records (whole-number duration;
no attribute, or one whose key is not empty, does not begin with white space and
has no line feed and whose value has no double quote and no line feed; a title
with no comma and no line feed that does not end in a carriage return; a URL
with no line feed that does not start with `#` and does not end in a carriage
return; an EXTINF line and a URL that fit in the 64 KiB buffer of the scanner),
`Write` to a buffer succeeds and `Read` of the text written, into an empty
playlist, succeeds and yields the original playlist. -/
theorem Read_Write_sanitized (m : M3U) (h : ∀ r ∈ m, r.sanitized = true) :
    (Write bufferWriter [] m).2 = none ∧ Read [] (Write bufferWriter [] m).1 = (m, none) := by
  rw [Write_buffer_text]
  refine ⟨rfl, ?_⟩
  obtain ⟨h1, h2⟩ := read_written_records m h []
  have hs := scanFrom_line m3uHeader
    (m.map (fun r => extInfLine r ++ (r.URL ++ newLine))).flatten (by decide) (by decide)
    (by decide)
  unfold Read scanLines
  rw [hs]
  simp only [readLines, if_true]
  rw [h1, h2]
  simp

theorem Read_Write_sanitized_witness :
    (∀ r ∈ [(⟨Float64.ofNat 5, [("tvg-id".toList, "a b".toList)], "Song A".toList,
          "http://a".toList⟩ : Record), ⟨Float64.fin true 0, [], [], []⟩],
        r.sanitized = true) ∧
      (Write bufferWriter [] [(⟨Float64.ofNat 5, [("tvg-id".toList, "a b".toList)],
          "Song A".toList, "http://a".toList⟩ : Record), ⟨Float64.fin true 0, [], [], []⟩]).2
        = none ∧
      Read [] (Write bufferWriter [] [(⟨Float64.ofNat 5, [("tvg-id".toList, "a b".toList)],
          "Song A".toList, "http://a".toList⟩ : Record), ⟨Float64.fin true 0, [], [], []⟩]).1 =
        ([⟨Float64.ofNat 5, [("tvg-id".toList, "a b".toList)], "Song A".toList,
          "http://a".toList⟩, ⟨Float64.fin true 0, [], [], []⟩], none) :=
  ⟨by decide, Read_Write_sanitized _ (by decide)⟩

/-- C2 (the code departs from the claim): on the line
`#EXTINF:5 tvg-id="1" tvg-name="Foo",Bar` followed by a URL line, `Read` stores a
single attribute, whose key is `tvg-id="1" tvg-name` and whose value is `Foo`. -/
theorem Read_two_attributes :
    Read [] "#EXTINF:5 tvg-id=\"1\" tvg-name=\"Foo\",Bar\nhttp://a\n".toList =
      ([⟨Float64.ofNat 5, [("tvg-id=\"1\" tvg-name".toList, "Foo".toList)], "Bar".toList,
        "http://a".toList⟩], none) := by
  decide

/-- C3, as stated, fails on its own examples: the line `#EXTINF:5 a="b",x,y`
followed by a URL line yields the title `y`, not `x,y`; and the line
`#EXTINF:10,Song, A` is rejected, the duration field being `10,Song`. -/
theorem Read_title_counterexample :
    Read [] "#EXTINF:5 a=\"b\",x,y\nhttp://a\n".toList =
        ([⟨Float64.ofNat 5, [("a".toList, "b".toList)], "y".toList, "http://a".toList⟩], none) ∧
      Read [] "#EXTINF:10,Song, A\nhttp://a\n".toList =
        ([], some (Error.numError "ParseFloat".toList "10,Song".toList NumErr.syntaxErr)) := by
  constructor <;> decide

/-- C3, amended: when the scanner delivers an EXTINF line and a URL line and
`Read` accepts them, the title of the record is the text after the last comma of
the EXTINF line, taken verbatim; a parsed title holds no comma. -/
theorem Read_title_after_last_comma (input e u : Str) (m1 : M3U)
    (hs : (scanLines input).1 = [e, u]) (he : HasPrefix e "#EXTINF".toList = true)
    (hu : isDirective u = false) (h : Read [] input = (m1, none)) :
    ∃ r, m1 = [r] ∧ r.Title = afterLastComma e ∧ ',' ∉ r.Title ∧ r.URL = u := by
  have hnl : '\n' ∉ e := scanLines_no_newline input e (by rw [hs]; simp)
  have he1 : e ≠ m3uHeader := by
    rintro rfl; revert he; decide
  have hu1 : u ≠ m3uHeader := by
    rintro rfl; revert hu; decide
  have hu3 : ¬ HasPrefix u "#".toList = true := by
    simpa [isDirective] using hu
  have hu2 : ¬ HasPrefix u "#EXTINF".toList = true := fun hp => hu3 (hasPrefix_hash_of_extinf hp)
  simp only [Read, hs, readLines, if_neg he1, if_pos he, if_neg hu1, if_neg hu2, if_neg hu3] at h
  rcases hp : parseExtInf NewRecord e with ⟨r1, _ | err⟩
  · rw [hp] at h
    simp only [List.nil_append, Prod.mk.injEq] at h
    obtain ⟨a, ha, hc⟩ := parseExtInf_title NewRecord e r1 hnl hp
    refine ⟨{ r1 with URL := u }, h.1.symm, ?_, hc, rfl⟩
    show r1.Title = afterLastComma e
    conv_rhs => rw [ha]
    exact (afterLastComma_append a r1.Title hc).symm
  · rw [hp] at h; simp at h

theorem Read_title_after_last_comma_witness :
    (scanLines "#EXTINF:5 a=\"b\",x,y\nhttp://a\n".toList).1 =
        ["#EXTINF:5 a=\"b\",x,y".toList, "http://a".toList] ∧
      Read [] "#EXTINF:5 a=\"b\",x,y\nhttp://a\n".toList =
        ([⟨Float64.ofNat 5, [("a".toList, "b".toList)], "y".toList, "http://a".toList⟩], none) ∧
      ∃ r, [(⟨Float64.ofNat 5, [("a".toList, "b".toList)], "y".toList, "http://a".toList⟩ : Record)]
          = [r] ∧
        r.Title = afterLastComma "#EXTINF:5 a=\"b\",x,y".toList ∧ ',' ∉ r.Title ∧
        r.URL = "http://a".toList :=
  ⟨by decide, by decide,
    Read_title_after_last_comma "#EXTINF:5 a=\"b\",x,y\nhttp://a\n".toList
      "#EXTINF:5 a=\"b\",x,y".toList "http://a".toList _ (by decide) (by decide) (by decide)
      (by decide)⟩

/-- C4 (the code departs from the claim): on the line `#EXTINF:5 badattr,Title`
followed by a URL line, `Read` returns no error; the token `badattr` is ignored. -/
theorem Read_malformed_attribute :
    Read [] "#EXTINF:5 badattr,Title\nhttp://a\n".toList =
      ([⟨Float64.ofNat 5, [], "Title".toList, "http://a".toList⟩], none) := by
  decide

/-- C5, amended: if the line scanner delivers a line that starts with `#`, is not
the header and does not start with `#EXTINF`, then `Read` returns an error; and if
the lines delivered before it are read without error, that error is the
unknown-line error with the text of the line. -/
theorem Read_unknown_directive (m : M3U) (input : Str) (pre post : List Str) (l : Str)
    (hs : (scanLines input).1 = pre ++ l :: post)
    (h1 : HasPrefix l "#".toList = true) (h2 : l ≠ m3uHeader)
    (h3 : HasPrefix l "#EXTINF".toList = false) :
    (Read m input).2 ≠ none ∧
      ((readLines m NewRecord pre).2 = none →
        (Read m input).2 = some (Error.errorf ("m3u: unknown line ".toList ++ l))) := by
  have hl : ∀ m1 r, readLines m1 r (l :: post) =
      (m1, some (Error.errorf ("m3u: unknown line ".toList ++ l))) := by
    intro m1 r
    simp only [readLines, if_neg h2, h3, h1, if_true]
    rfl
  simp only [Read, hs, readLines_append]
  rcases hp : readLines m NewRecord pre with ⟨m1, _ | e⟩
  · simp [hl]
  · simp

theorem Read_unknown_directive_witness :
    (scanLines "#EXTM3U\n#FOO bar\nhttp://a\n".toList).1 =
        ["#EXTM3U".toList] ++ "#FOO bar".toList :: ["http://a".toList] ∧
      (Read [] "#EXTM3U\n#FOO bar\nhttp://a\n".toList).2 ≠ none ∧
      ((readLines [] NewRecord ["#EXTM3U".toList]).2 = none →
        (Read [] "#EXTM3U\n#FOO bar\nhttp://a\n".toList).2 =
          some (Error.errorf ("m3u: unknown line ".toList ++ "#FOO bar".toList))) :=
  ⟨by decide, Read_unknown_directive [] "#EXTM3U\n#FOO bar\nhttp://a\n".toList
    ["#EXTM3U".toList] ["http://a".toList] "#FOO bar".toList (by decide) (by decide) (by decide)
    (by decide)⟩

/-- C6, as stated, fails: reading `http://a`, then `#FOO bar`, into an empty
playlist returns the unknown-line error and leaves the record of the first line
in the playlist. -/
theorem Read_partial_counterexample :
    Read [] "http://a\n#FOO bar\n".toList =
      ([⟨Float64.fin false 0, [], [], "http://a".toList⟩],
        some (Error.errorf "m3u: unknown line #FOO bar".toList)) ∧
      (Read [] "http://a\n#FOO bar\n".toList).1 ≠ [] := by
  constructor <;> decide

/-- C6, amended: when `Read` returns a parse error, the playlist is left with
the records it held before the call followed by exactly the records that
reading the lines before the bad line produces (one per URL line, in order);
nothing is added for the bad line or for the lines after it. -/
theorem Read_error_keeps_committed (m : M3U) (input : Str) (e : Error)
    (h : (Read m input).2 = some e) (hne : e ≠ Error.tooLong) :
    ∃ pre bad post, (scanLines input).1 = pre ++ bad :: post ∧
      readLines m NewRecord pre = ((Read m input).1, none) ∧
      (readLines (Read m input).1 (pendingAfter NewRecord pre) [bad]).2 = some e ∧
      ∃ t, (Read m input).1 = m ++ t ∧
        t.map Record.URL = pre.filter (fun l => !isDirective l) := by
  simp only [Read] at h ⊢
  rcases hp : readLines m NewRecord (scanLines input).1 with ⟨m1, _ | e1⟩
  · rw [hp] at h
    simp only at h
    split_ifs at h
    · exact absurd (Option.some.inj h).symm hne
  · rw [hp] at h
    simp only [Option.some.injEq] at h
    subst h
    obtain ⟨pre, bad, post, hl, hr, hb⟩ := readLines_error_split _ _ _ _ _ hp
    refine ⟨pre, bad, post, hl, hr, hb, ?_⟩
    exact readLines_urls _ _ _ _ hr

theorem Read_error_keeps_committed_witness :
    (Read [] "http://a\n#FOO bar\n".toList).2 =
        some (Error.errorf "m3u: unknown line #FOO bar".toList) ∧
      ∃ pre bad post, (scanLines "http://a\n#FOO bar\n".toList).1 = pre ++ bad :: post ∧
        readLines [] NewRecord pre = ((Read [] "http://a\n#FOO bar\n".toList).1, none) ∧
        (readLines (Read [] "http://a\n#FOO bar\n".toList).1 (pendingAfter NewRecord pre)
          [bad]).2 = some (Error.errorf "m3u: unknown line #FOO bar".toList) ∧
        ∃ t, (Read [] "http://a\n#FOO bar\n".toList).1 = [] ++ t ∧
          t.map Record.URL = pre.filter (fun l => !isDirective l) :=
  ⟨by decide, Read_error_keeps_committed [] "http://a\n#FOO bar\n".toList
    (Error.errorf "m3u: unknown line #FOO bar".toList) (by decide) (by decide)⟩

/-- C7, as stated, fails: reading a single empty line into an empty playlist
succeeds and yields a record whose URL is the empty string. -/
theorem Read_empty_url_counterexample :
    Read [] "\n".toList = ([⟨Float64.fin false 0, [], [], []⟩], none) ∧
      ∃ r ∈ (Read [] "\n".toList).1, r.URL = [] := by
  constructor
  · decide
  · exact ⟨⟨Float64.fin false 0, [], [], []⟩, by decide, rfl⟩

/-- C7, amended: when `Read` succeeds on an empty playlist and none of the lines
the scanner delivered is empty, every record of the playlist has a URL that is
not the empty string. -/
theorem Read_url_nonempty (input : Str) (m1 : M3U) (h : Read [] input = (m1, none))
    (hne : ∀ l ∈ (scanLines input).1, l ≠ []) : ∀ r ∈ m1, r.URL ≠ [] := by
  intro r hr
  have hm : r.URL ∈ m1.map Record.URL := List.mem_map_of_mem _ hr
  simp only [Read] at h
  rcases hp : readLines [] NewRecord (scanLines input).1 with ⟨m2, _ | e⟩
  · rw [hp] at h
    simp only [Prod.mk.injEq] at h
    obtain ⟨t, ht, hu⟩ := readLines_urls _ _ _ _ hp
    rw [← h.1, ht, List.nil_append, hu] at hm
    exact hne _ (List.mem_filter.1 hm).1
  · rw [hp] at h; simp at h

theorem Read_url_nonempty_witness :
    Read [] "#EXTM3U\n#EXTINF:5,a\nhttp://a\n".toList =
        ([⟨Float64.ofNat 5, [], "a".toList, "http://a".toList⟩], none) ∧
      (∀ l ∈ (scanLines "#EXTM3U\n#EXTINF:5,a\nhttp://a\n".toList).1, l ≠ []) ∧
      ∀ r ∈ [(⟨Float64.ofNat 5, [], "a".toList, "http://a".toList⟩ : Record)], r.URL ≠ [] :=
  ⟨by decide, by decide,
    Read_url_nonempty "#EXTM3U\n#EXTINF:5,a\nhttp://a\n".toList _ (by decide) (by decide)⟩

/-- C8: for a playlist whose records have at most one attribute each and a
writer that never fails, `Write` returns no error, makes exactly the calls of
`writeChunks`, and the bytes of these calls are together exactly the text the
specification prescribes (header line, then per record the EXTINF line with the
duration at zero decimals, the attribute if any, the title, and the URL line);
on a buffer, that text is what is appended.  The playlist is an argument that
`Write` only reads. -/
theorem Write_format (m : M3U) (h : ∀ r ∈ m, r.Attributes.length ≤ 1) :
    (∀ (σ ε : Type) (wr : Writer σ ε) (s : σ), (∀ s b, (wr.write s b).2 = none) →
      Write wr s m = ((writeChunks m).foldl (fun t b => (wr.write t b).1) s, none)) ∧
    (writeChunks m).flatten = specText m ∧
    (∀ out : Str, Write bufferWriter out m = (out ++ specText m, none)) := by
  refine ⟨?_, ?_, ?_⟩
  · intro σ ε wr s hw
    simp only [Write, writeChunks, List.foldl_cons]
    rcases h1 : wr.write s (m3uHeader ++ newLine) with ⟨s1, _ | e⟩
    · exact writeRecords_chunks wr hw m s1
    · have := hw s (m3uHeader ++ newLine); rw [h1] at this; simp at this
  · have key : (m.flatMap (fun r => [extInfLine r, r.URL ++ newLine])).flatten =
        (m.map specRecordText).flatten := by
      induction m with
      | nil => rfl
      | cons r m ih =>
        have hr := recordText_eq_spec r (h r (List.mem_cons_self _ _))
        simp only [List.flatMap_cons, List.flatten_append, List.map_cons, List.flatten_cons,
          ih (fun q hq => h q (List.mem_cons_of_mem _ hq)), ← hr]
        simp
    simp only [writeChunks, List.flatten_cons, key, specText]
    rfl
  · intro out
    have := writeRecords_buffer m (out ++ (m3uHeader ++ newLine)) h
    simp only [Write, bufferWriter]
    rw [show writeRecords ⟨fun s b => (s ++ b, none)⟩ = writeRecords bufferWriter from rfl, this]
    simp [specText, m3uHeader, newLine]

theorem Write_format_witness :
    (∀ r ∈ [(⟨Float64.ofNat 5, [("a".toList, "b".toList)], "y".toList, "http://a".toList⟩ : Record)],
        r.Attributes.length ≤ 1) ∧
      Write bufferWriter [] [⟨Float64.ofNat 5, [("a".toList, "b".toList)], "y".toList, "http://a".toList⟩]
        = ("#EXTM3U\n#EXTINF:5 a=\"b\",y\nhttp://a\n".toList, none) :=
  ⟨by decide, by
    have h := (Write_format [⟨Float64.ofNat 5, [("a".toList, "b".toList)], "y".toList,
      "http://a".toList⟩] (by decide)).2.2 []
    rw [h]; decide⟩

/-- C9: writing the empty playlist to a buffer that never fails produces exactly
the header line, and reading that text into an empty playlist succeeds and
leaves the playlist empty. -/
theorem empty_playlist :
    Write bufferWriter [] [] = ("#EXTM3U\n".toList, none) ∧
      Read [] "#EXTM3U\n".toList = ([], none) := by
  constructor <;> decide

/-- C10: when `Read` succeeds on an empty playlist, the URLs of the records of
the playlist are, in order, exactly the lines the scanner delivered that do not
start with `#`, each taken whole. -/
theorem Read_urls (input : Str) (m1 : M3U) (h : Read [] input = (m1, none)) :
    m1.map Record.URL = (scanLines input).1.filter (fun l => !isDirective l) := by
  simp only [Read] at h
  rcases hp : readLines [] NewRecord (scanLines input).1 with ⟨m2, _ | e⟩
  · rw [hp] at h
    simp only [Prod.mk.injEq] at h
    obtain ⟨t, ht, hu⟩ := readLines_urls _ _ _ _ hp
    rw [← h.1, ht]; simpa using hu
  · rw [hp] at h; simp at h

theorem Read_urls_witness :
    Read [] "#EXTM3U\n#EXTINF:5,a\n http://a \nb\n".toList =
        ([⟨Float64.ofNat 5, [], "a".toList, " http://a ".toList⟩,
          ⟨Float64.fin false 0, [], [], "b".toList⟩], none) ∧
      List.map Record.URL [(⟨Float64.ofNat 5, [], "a".toList, " http://a ".toList⟩ : Record),
          ⟨Float64.fin false 0, [], [], "b".toList⟩] =
        (scanLines "#EXTM3U\n#EXTINF:5,a\n http://a \nb\n".toList).1.filter
          (fun l => !isDirective l) :=
  ⟨by decide, Read_urls "#EXTM3U\n#EXTINF:5,a\n http://a \nb\n".toList _ (by decide)⟩

/-! ## The error of `parseExtInf` does not depend on the record -/

theorem attrLoop_error_indep (line : Str) : ∀ (as : List Str) (r r' : Record),
    (attrLoop line r as).2 = (attrLoop line r' as).2 := by
  intro as
  induction as with
  | nil => intro r r'; rfl
  | cons a as ih =>
    intro r r'
    simp only [attrLoop]
    split_ifs
    · exact ih _ _
    · rfl
    · exact ih _ _
    · exact ih _ _

theorem parseExtInf_error_indep (r r' : Record) (e : Str) :
    (parseExtInf r e).2 = (parseExtInf r' e).2 := by
  simp only [parseExtInf]
  split_ifs
  · rfl
  · rcases hp : ParseFloat ((FindStringSubmatch m3uExtInfRE e).getD 1 []) with ⟨f, _ | err⟩
    · simp only []
      have h := attrLoop_error_indep e
        (FindAllString m3uAttrRE ((FindStringSubmatch m3uExtInfRE e).getD 2 []))
        { r with Duration := f } { r' with Duration := f }
      rcases h1 : attrLoop e { r with Duration := f }
        (FindAllString m3uAttrRE ((FindStringSubmatch m3uExtInfRE e).getD 2 [])) with ⟨a1, _ | e1⟩ <;>
      rcases h2 : attrLoop e { r' with Duration := f }
        (FindAllString m3uAttrRE ((FindStringSubmatch m3uExtInfRE e).getD 2 [])) with ⟨a2, _ | e2⟩ <;>
      rw [h1, h2] at h <;> simp_all
    · rfl

/-- An EXTINF line that parses, read last, leaves the playlist as it is. -/
theorem readLines_extinf_last (m : M3U) (r : Record) (e : Str)
    (he : HasPrefix e "#EXTINF".toList = true) (hp : (parseExtInf NewRecord e).2 = none) :
    readLines m r [e] = (m, none) := by
  have he1 : e ≠ m3uHeader := by
    rintro rfl; revert he; decide
  have hp' : (parseExtInf r e).2 = none := by rw [parseExtInf_error_indep r NewRecord e, hp]
  simp only [readLines, if_neg he1, if_pos he]
  rcases hq : parseExtInf r e with ⟨r1, _ | err⟩
  · rfl
  · rw [hq] at hp'; simp at hp'

/-! ## Header lines -/

theorem readLines_filter_header : ∀ (lines : List Str) (m : M3U) (r : Record),
    readLines m r lines = readLines m r (lines.filter (fun l => l != m3uHeader)) := by
  intro lines
  induction lines with
  | nil => intro m r; rfl
  | cons l lines ih =>
    intro m r
    by_cases h1 : l = m3uHeader
    · have hf : List.filter (fun l => l != m3uHeader) (l :: lines) =
          List.filter (fun l => l != m3uHeader) lines := by
        simp [List.filter_cons, h1]
      rw [hf, readLines, if_pos h1]
      exact ih m r
    · have hf : List.filter (fun l => l != m3uHeader) (l :: lines) =
          l :: List.filter (fun l => l != m3uHeader) lines := by
        simp [List.filter_cons, h1]
      rw [hf]
      simp only [readLines, if_neg h1]
      split_ifs
      · rcases parseExtInf r l with ⟨r1, _ | err⟩
        · exact ih m r1
        · rfl
      · rfl
      · exact ih _ _

/-! ## Titles -/

theorem readLines_titles : ∀ (lines : List Str) (m : M3U) (r : Record) (m1 : M3U),
    (∀ x ∈ m, ',' ∉ x.Title) → ',' ∉ r.Title → (∀ l ∈ lines, '\n' ∉ l) →
    readLines m r lines = (m1, none) → ∀ x ∈ m1, ',' ∉ x.Title := by
  intro lines
  induction lines with
  | nil =>
    intro m r m1 hm _ _ h
    simp only [readLines, Prod.mk.injEq, and_true] at h
    rw [← h]; exact hm
  | cons l lines ih =>
    intro m r m1 hm hr hl h
    have hl0 : '\n' ∉ l := hl l (List.mem_cons_self _ _)
    have hl1 : ∀ x ∈ lines, '\n' ∉ x := fun x hx => hl x (List.mem_cons_of_mem _ hx)
    simp only [readLines] at h
    split_ifs at h with h1 h2 h3
    · exact ih m r m1 hm hr hl1 h
    · rcases hp : parseExtInf r l with ⟨r1, _ | err⟩
      · rw [hp] at h
        obtain ⟨_, _, hc⟩ := parseExtInf_title r l r1 hl0 hp
        exact ih m r1 m1 hm hc hl1 h
      · rw [hp] at h; simp at h
    · simp at h
    · refine ih _ NewRecord m1 ?_ (by decide) hl1 h
      intro x hx
      rcases List.mem_append.1 hx with h0 | h0
      · exact hm x h0
      · simp only [List.mem_singleton] at h0
        subst h0; exact hr

/-! ## Carriage returns -/

theorem dropCR_append_cr (l : Str) : dropCR (l ++ ['\r']) = l := by
  simp [dropCR]

theorem scanFrom_joinLines_lf : ∀ ls : List Str,
    (∀ l ∈ ls, '\n' ∉ l ∧ l.getLast? ≠ some '\r' ∧ byteLen l + 1 < maxScanTokenSize) →
    scanFrom [] (joinLines "\n".toList ls) = (ls, false) := by
  intro ls
  induction ls with
  | nil => intro _; simp [joinLines, scanFrom]
  | cons l ls ih =>
    intro h
    obtain ⟨h1, h2, h3⟩ := h l (List.mem_cons_self _ _)
    have e : joinLines "\n".toList (l :: ls) = l ++ '\n' :: joinLines "\n".toList ls := by
      simp [joinLines]
    rw [e, scanFrom_line l _ h1 h2 (by omega), ih (fun x hx => h x (List.mem_cons_of_mem _ hx))]

theorem scanFrom_joinLines_crlf : ∀ ls : List Str,
    (∀ l ∈ ls, '\n' ∉ l ∧ l.getLast? ≠ some '\r' ∧ byteLen l + 1 < maxScanTokenSize) →
    scanFrom [] (joinLines "\r\n".toList ls) = (ls, false) := by
  intro ls
  induction ls with
  | nil => intro _; simp [joinLines, scanFrom]
  | cons l ls ih =>
    intro h
    obtain ⟨h1, h2, h3⟩ := h l (List.mem_cons_self _ _)
    have e : joinLines "\r\n".toList (l :: ls) =
        (l ++ ['\r']) ++ '\n' :: joinLines "\r\n".toList ls := by
      simp [joinLines]
    have hnl : '\n' ∉ l ++ ['\r'] := by
      intro hm
      rcases List.mem_append.1 hm with h0 | h0
      · exact h1 h0
      · revert h0; decide
    have hlen : byteLen (l ++ ['\r']) < maxScanTokenSize := by
      rw [byteLen_append]
      have : byteLen ['\r'] = 1 := by decide
      omega
    rw [e, scanFrom_append_line _ _ [] hnl, List.nil_append, if_neg (by omega),
      dropCR_append_cr, ih (fun x hx => h x (List.mem_cons_of_mem _ hx))]

/-! ## The properties of the specification, continued -/

/-- C11, amended: if `Read` succeeds on an input, and for a second input the line
scanner delivers the same lines followed by one more line `e`, and ends the same
way, where `e` is an EXTINF line which parses without error, then `Read` succeeds
on the second input too and leaves exactly the same playlist: no record is added
for the EXTINF line that has no URL line after it. -/
theorem Read_dangling_extinf (m : M3U) (input input2 e : Str) (m1 : M3U)
    (hs1 : (scanLines input2).1 = (scanLines input).1 ++ [e])
    (hs2 : (scanLines input2).2 = (scanLines input).2)
    (he : HasPrefix e "#EXTINF".toList = true) (hp : (parseExtInf NewRecord e).2 = none)
    (h : Read m input = (m1, none)) : Read m input2 = (m1, none) := by
  simp only [Read] at h ⊢
  rw [hs1, hs2, readLines_append]
  rcases hr : readLines m NewRecord (scanLines input).1 with ⟨m2, _ | err⟩
  · rw [hr] at h
    simp only [readLines_extinf_last m2 _ e he hp]
    exact h
  · rw [hr] at h; simp at h

theorem Read_dangling_extinf_witness :
    (scanLines "#EXTINF:1,a\nhttp://a\n#EXTINF:5 k=\"v\",T\n".toList).1 =
        (scanLines "#EXTINF:1,a\nhttp://a\n".toList).1 ++ ["#EXTINF:5 k=\"v\",T".toList] ∧
      Read [] "#EXTINF:1,a\nhttp://a\n".toList =
        ([⟨Float64.ofNat 1, [], "a".toList, "http://a".toList⟩], none) ∧
      Read [] "#EXTINF:1,a\nhttp://a\n#EXTINF:5 k=\"v\",T\n".toList =
        ([⟨Float64.ofNat 1, [], "a".toList, "http://a".toList⟩], none) :=
  ⟨by decide, by decide,
    Read_dangling_extinf [] "#EXTINF:1,a\nhttp://a\n".toList
      "#EXTINF:1,a\nhttp://a\n#EXTINF:5 k=\"v\",T\n".toList "#EXTINF:5 k=\"v\",T".toList _
      (by decide) (by decide) (by decide) (by decide) (by decide)⟩

/-- C15, as stated, fails: reading `#EXTINF:10,Song A\r\nhttp://a\r\n` yields the
title `Song A` and the URL `http://a`, without carriage return. -/
theorem Read_crlf_counterexample :
    Read [] "#EXTINF:10,Song A\r\nhttp://a\r\n".toList =
      ([⟨Float64.ofNat 10, [], "Song A".toList, "http://a".toList⟩], none) := by
  decide

/-- C15, amended: the line scanner drops a carriage return that stands before the
line feed.  For lines without line feed that do not end in a carriage return
themselves and are shorter than 65535 bytes, the text with `\r\n` after each
line is scanned into these very lines and `Read` gives on it the result it
gives on the text with `\n` after each line. -/
theorem Read_crlf (m : M3U) (ls : List Str)
    (h : ∀ l ∈ ls, '\n' ∉ l ∧ l.getLast? ≠ some '\r' ∧ byteLen l + 1 < maxScanTokenSize) :
    scanLines (joinLines "\r\n".toList ls) = (ls, false) ∧
      Read m (joinLines "\r\n".toList ls) = Read m (joinLines "\n".toList ls) := by
  have h1 := scanFrom_joinLines_crlf ls h
  have h2 := scanFrom_joinLines_lf ls h
  refine ⟨h1, ?_⟩
  simp only [Read, scanLines, h1, h2]

theorem Read_crlf_witness :
    (∀ l ∈ ["#EXTINF:10,Song A".toList, "http://a".toList],
        '\n' ∉ l ∧ l.getLast? ≠ some '\r' ∧ byteLen l + 1 < maxScanTokenSize) ∧
      joinLines "\r\n".toList ["#EXTINF:10,Song A".toList, "http://a".toList] =
        "#EXTINF:10,Song A\r\nhttp://a\r\n".toList ∧
      scanLines (joinLines "\r\n".toList ["#EXTINF:10,Song A".toList, "http://a".toList]) =
        (["#EXTINF:10,Song A".toList, "http://a".toList], false) ∧
      Read [] (joinLines "\r\n".toList ["#EXTINF:10,Song A".toList, "http://a".toList]) =
        Read [] (joinLines "\n".toList ["#EXTINF:10,Song A".toList, "http://a".toList]) :=
  ⟨by decide, by decide,
    Read_crlf [] ["#EXTINF:10,Song A".toList, "http://a".toList] (by decide)⟩

/-- C16: two inputs whose lines differ only by lines equal to `#EXTM3U`, inserted
or removed at any positions, give the same result of `Read` (playlist and
error); and `#EXTM3U`, `#EXTINF:10,Song A`, `http://a` is read as one record with
duration 10, title `Song A`, URL `http://a` and no attribute. -/
theorem Read_header_skipped (m : M3U) (i1 i2 : Str)
    (hf : (scanLines i1).1.filter (fun l => l != m3uHeader) =
      (scanLines i2).1.filter (fun l => l != m3uHeader))
    (hflag : (scanLines i1).2 = (scanLines i2).2) :
    Read m i1 = Read m i2 ∧
      Read [] "#EXTM3U\n#EXTINF:10,Song A\nhttp://a\n".toList =
        ([⟨Float64.ofNat 10, [], "Song A".toList, "http://a".toList⟩], none) := by
  refine ⟨?_, by decide⟩
  simp only [Read]
  rw [readLines_filter_header (scanLines i1).1, readLines_filter_header (scanLines i2).1, hf,
    hflag]

theorem Read_header_skipped_witness :
    (scanLines "#EXTINF:10,Song A\n#EXTM3U\nhttp://a\n#EXTM3U\n".toList).1.filter
        (fun l => l != m3uHeader) =
      (scanLines "#EXTM3U\n#EXTINF:10,Song A\nhttp://a\n".toList).1.filter
        (fun l => l != m3uHeader) ∧
      Read [] "#EXTINF:10,Song A\n#EXTM3U\nhttp://a\n#EXTM3U\n".toList =
        Read [] "#EXTM3U\n#EXTINF:10,Song A\nhttp://a\n".toList ∧
      Read [] "#EXTM3U\n#EXTINF:10,Song A\nhttp://a\n".toList =
        ([⟨Float64.ofNat 10, [], "Song A".toList, "http://a".toList⟩], none) :=
  ⟨by decide,
    Read_header_skipped [] "#EXTINF:10,Song A\n#EXTM3U\nhttp://a\n#EXTM3U\n".toList
      "#EXTM3U\n#EXTINF:10,Song A\nhttp://a\n".toList (by decide) (by decide)⟩

/-- C20: when `parseExtInf` succeeds on a line without line feed, the title it
stores is exactly the text after the last comma of the line; and after a
successful `Read` into an empty playlist no record has a title with a comma. -/
theorem titles_have_no_comma :
    (∀ (r : Record) (line : Str) (r1 : Record), '\n' ∉ line →
      parseExtInf r line = (r1, none) → r1.Title = afterLastComma line ∧ ',' ∉ r1.Title) ∧
    (∀ (input : Str) (m1 : M3U), Read [] input = (m1, none) → ∀ x ∈ m1, ',' ∉ x.Title) := by
  constructor
  · intro r line r1 hnl h
    obtain ⟨a, ha, hc⟩ := parseExtInf_title r line r1 hnl h
    refine ⟨?_, hc⟩
    conv_rhs => rw [ha]
    exact (afterLastComma_append a r1.Title hc).symm
  · intro input m1 h x hx
    simp only [Read] at h
    rcases hr : readLines [] NewRecord (scanLines input).1 with ⟨m2, _ | err⟩
    · rw [hr] at h
      simp only [Prod.mk.injEq] at h
      rw [← h.1] at hx
      exact readLines_titles _ [] NewRecord m2 (by simp) (by decide)
        (scanLines_no_newline input) hr x hx
    · rw [hr] at h; simp at h

theorem titles_have_no_comma_witness :
    parseExtInf NewRecord "#EXTINF:5 a=\"b\",x,y".toList =
        (⟨Float64.ofNat 5, [("a".toList, "b".toList)], "y".toList, []⟩, none) ∧
      "y".toList = afterLastComma "#EXTINF:5 a=\"b\",x,y".toList ∧ ',' ∉ "y".toList :=
  ⟨by decide,
    titles_have_no_comma.1 NewRecord "#EXTINF:5 a=\"b\",x,y".toList
      ⟨Float64.ofNat 5, [("a".toList, "b".toList)], "y".toList, []⟩ (by decide) (by decide)⟩

/-- C12 (the code departs from the claim): on the line `#EXTINF:abc,Title` `Read`
returns the error of `strconv.ParseFloat` as it is; its message is
`strconv.ParseFloat: parsing "abc": invalid syntax`, which does not hold the
line.  The other error paths do put the line in the message, as on `#EXTINF:`
and on `#FOO bar`. -/
theorem Read_bad_duration_message (tbl : Char → Bool) :
    Read [] "#EXTINF:abc,Title\nhttp://a\n".toList =
        ([], some (Error.numError "ParseFloat".toList "abc".toList NumErr.syntaxErr)) ∧
      (Error.numError "ParseFloat".toList "abc".toList NumErr.syntaxErr).message tbl =
        "strconv.ParseFloat: parsing \"abc\": invalid syntax".toList ∧
      ¬ ("#EXTINF:abc,Title".toList <:+:
        "strconv.ParseFloat: parsing \"abc\": invalid syntax".toList) ∧
      (Read [] "#EXTINF:\nhttp://a\n".toList).2 =
        some (Error.errorf "m3u: wrongly-formatted line: #EXTINF:".toList) ∧
      (Read [] "#FOO bar\n".toList).2 =
        some (Error.errorf "m3u: unknown line #FOO bar".toList) := by
  refine ⟨by decide, ?_, by decide, by decide, by decide⟩
  rfl

/-! ## Durations that are not whole numbers -/

theorem binadeShift_div_lt : ∀ (fuel q : Nat), q < 2 ^ (53 + fuel) →
    q / 2 ^ binadeShift fuel q < 2 ^ 53 := by
  intro fuel
  induction fuel with
  | zero => intro q h; simpa [binadeShift] using h
  | succ fuel ih =>
    intro q h
    simp only [binadeShift]
    split_ifs with h53
    · simpa using h53
    · have hq : q / 2 < 2 ^ (53 + fuel) := by
        apply Nat.div_lt_of_lt_mul
        calc q < 2 ^ (53 + (fuel + 1)) := h
          _ = 2 * 2 ^ (53 + fuel) := by ring
      have := ih (q / 2) hq
      rwa [Nat.div_div_eq_div_mul, ← pow_succ'] at this

theorem binadeShift_le : ∀ (fuel q j : Nat), q < 2 ^ (53 + j) → binadeShift fuel q ≤ j := by
  intro fuel
  induction fuel with
  | zero => intro q j _; simp [binadeShift]
  | succ fuel ih =>
    intro q j h
    simp only [binadeShift]
    split_ifs with h53
    · exact Nat.zero_le _
    · cases j with
      | zero => exact absurd (by simpa using h) h53
      | succ j =>
        have hq : q / 2 < 2 ^ (53 + j) := by
          apply Nat.div_lt_of_lt_mul
          calc q < 2 ^ (53 + (j + 1)) := h
            _ = 2 * 2 ^ (53 + j) := by ring
        exact Nat.succ_le_succ (ih (q / 2) j hq)

theorem rne_le_succ (a b : Nat) : rne a b ≤ a / b + 1 := by
  unfold rne
  split_ifs
  · omega
  · omega
  · have := Nat.mod_lt (a / b) (by norm_num : 0 < 2)
    omega

/-- The whole number nearest to a `float64` is a `float64`. -/
theorem isF64Magnitude_round (k : Nat) (hk : isF64Magnitude k = true) :
    isF64Magnitude (rne k (2 ^ 1074) * 2 ^ 1074) = true := by
  have hU : 0 < 2 ^ 1074 := Nat.pow_pos (by norm_num)
  by_cases hmod : k % 2 ^ 1074 = 0
  · rw [rne_of_dvd k _ hU hmod, Nat.div_mul_cancel (Nat.dvd_of_mod_eq_zero hmod)]
    exact hk
  · simp only [isF64Magnitude, Bool.and_eq_true, decide_eq_true_eq] at hk ⊢
    obtain ⟨hlim, hal⟩ := hk
    have hsh : binadeShift 2098 k < 1074 := by
      by_contra hge
      have h1 : 2 ^ 1074 ∣ 2 ^ binadeShift 2098 k := Nat.pow_dvd_pow 2 (by omega)
      exact hmod (Nat.mod_eq_zero_of_dvd (dvd_trans h1 (Nat.dvd_of_mod_eq_zero hal)))
    have hdiv := binadeShift_div_lt 2098 k
      (lt_of_lt_of_le hlim (by unfold f64Limit; exact Nat.pow_le_pow_right (by norm_num) (by norm_num)))
    have hk1 : k < 2 ^ 53 * 2 ^ binadeShift 2098 k :=
      (Nat.div_lt_iff_lt_mul (Nat.pow_pos (by norm_num))).1 hdiv
    have hk2 : k < 2 ^ 52 * 2 ^ 1074 := by
      calc k < 2 ^ 53 * 2 ^ binadeShift 2098 k := hk1
        _ ≤ 2 ^ 53 * 2 ^ 1073 :=
          Nat.mul_le_mul_left _ (Nat.pow_le_pow_right (by norm_num) (by omega))
        _ = 2 ^ 52 * 2 ^ 1074 := by rw [← pow_add, ← pow_add]
    have hq : k / 2 ^ 1074 < 2 ^ 52 := (Nat.div_lt_iff_lt_mul hU).2 hk2
    have hn : rne k (2 ^ 1074) ≤ 2 ^ 52 := le_trans (rne_le_succ _ _) hq
    have hnU : rne k (2 ^ 1074) * 2 ^ 1074 ≤ 2 ^ 52 * 2 ^ 1074 := Nat.mul_le_mul_right _ hn
    have h1126 : 2 ^ 52 * 2 ^ 1074 < 2 ^ (53 + 1074) := by
      rw [← pow_add]; exact Nat.pow_lt_pow_right (by norm_num) (by norm_num)
    refine ⟨?_, ?_⟩
    · calc rne k (2 ^ 1074) * 2 ^ 1074 < 2 ^ (53 + 1074) := lt_of_le_of_lt hnU h1126
        _ ≤ f64Limit := by
          unfold f64Limit; exact Nat.pow_le_pow_right (by norm_num) (by norm_num)
    · have hle := binadeShift_le 2098 (rne k (2 ^ 1074) * 2 ^ 1074) 1074
        (lt_of_le_of_lt hnU h1126)
      exact Nat.mod_eq_zero_of_dvd
        (dvd_trans (Nat.pow_dvd_pow 2 hle) (Nat.dvd_mul_left _ _))

/-- The number `%.0f` prints is a nearest whole number: it is at most one half
away from the value. -/
theorem rne_nearest (a b : Nat) (hb : 0 < b) :
    2 * (a - rne a b * b) ≤ b ∧ 2 * (rne a b * b - a) ≤ b := by
  have hd : b * (a / b) + a % b = a := Nat.div_add_mod a b
  have hr : a % b < b := Nat.mod_lt a hb
  have h1 : (a / b + 1) * b = b * (a / b) + b := by ring
  have h0 : a / b * b = b * (a / b) := by ring
  unfold rne
  split_ifs with c1 c2
  · rw [h0]; omega
  · rw [h1]; omega
  · rcases Nat.mod_two_eq_zero_or_one (a / b) with h2 | h2
    · rw [h2, Nat.add_zero, h0]; omega
    · rw [h2, h1]; omega

/-- A finite duration printed with `%.0f` is read back by `ParseFloat` as the
whole number nearest to it. -/
theorem ParseFloat_fmtF0_finite (d : Float64) (h : d.isFinite = true) :
    ParseFloat (fmtF0 d) = (d.rounded, none) := by
  cases d with
  | fin neg k =>
    simp only [Float64.isFinite] at h
    have e := roundToF64_exact _ _ (isF64Magnitude_round k h) rfl
    simp only [fmtF0, Float64.rounded, ParseFloat,
      special_digits neg _ (natDigits_ne_nil _) (natDigits_dec _), readFloat_digits]
    simp [-Nat.reducePow, e]
  | inf neg => simp [Float64.isFinite] at h
  | nan => simp [Float64.isFinite] at h

theorem rounded_isWhole (d : Float64) (h : d.isFinite = true) : d.rounded.isWhole = true := by
  cases d with
  | fin neg k =>
    simp only [Float64.isFinite] at h
    simp only [Float64.rounded, Float64.isWhole, isF64Magnitude_round k h, Nat.mul_mod_left,
      decide_True, Bool.and_self]
  | inf neg => simp [Float64.isFinite] at h
  | nan => simp [Float64.isFinite] at h

theorem fmtF0_rounded (d : Float64) : fmtF0 d.rounded = fmtF0 d := by
  cases d with
  | fin neg k =>
    simp only [Float64.rounded, fmtF0_whole]
    rfl
  | inf neg => rfl
  | nan => rfl

theorem sanitized_eq (r : Record) :
    r.sanitized = (r.Duration.isWhole && r.fieldsSanitized) := by
  simp [Record.sanitized, Record.fieldsSanitized, Bool.and_assoc]

theorem extInfLine_rounded (r : Record) :
    extInfLine { r with Duration := r.Duration.rounded } = extInfLine r := by
  simp only [extInfLine, fmtF0_rounded]

/-- Writing a playlist of sanitized records and reading the text back gives the
playlist. -/
theorem read_write_of_sanitized (m : M3U) (h : ∀ r ∈ m, r.sanitized = true) :
    Read [] (Write bufferWriter [] m).1 = (m, none) := by
  rw [Write_buffer_text]
  obtain ⟨h1, h2⟩ := read_written_records m h []
  have hs := scanFrom_line m3uHeader
    (m.map (fun r => extInfLine r ++ (r.URL ++ newLine))).flatten (by decide) (by decide)
    (by decide)
  unfold Read scanLines
  rw [hs]
  simp only [readLines, if_true]
  rw [h1, h2]
  simp

theorem Write_rounded (m : M3U) :
    Write bufferWriter [] (m.map (fun r => { r with Duration := r.Duration.rounded })) =
      Write bufferWriter [] m := by
  have e : ((fun r => extInfLine r ++ (r.URL ++ newLine)) ∘
      fun r : Record => { r with Duration := r.Duration.rounded }) =
      fun r => extInfLine r ++ (r.URL ++ newLine) := by
    funext r
    simp only [Function.comp, extInfLine_rounded]
  rw [Write_buffer_text, Write_buffer_text, List.map_map, e]

/-- C13: for every playlist of records with a finite duration and otherwise
sanitized fields, `Read` of the text `Write` produces, into an empty playlist,
succeeds and yields the records with each duration replaced by the whole number
nearest to it (ties to even) and every other field unchanged; that number is at
most one half away from the duration; and 12.6 comes back as 13. -/
theorem Read_Write_rounds (m : M3U)
    (h : ∀ r ∈ m, r.Duration.isFinite = true ∧ r.fieldsSanitized = true) :
    Read [] (Write bufferWriter [] m).1 =
        (m.map (fun r => { r with Duration := r.Duration.rounded }), none) ∧
      (∀ k : Nat, 2 * (k - rne k (2 ^ 1074) * 2 ^ 1074) ≤ 2 ^ 1074 ∧
        2 * (rne k (2 ^ 1074) * 2 ^ 1074 - k) ≤ 2 ^ 1074) ∧
      ParseFloat "12.6".toList = (Float64.fin false (7093169413108531 * 2 ^ 1025), none) ∧
      (Float64.fin false (7093169413108531 * 2 ^ 1025)).rounded = Float64.ofNat 13 := by
  refine ⟨?_, fun k => rne_nearest k _ (Nat.pow_pos (by norm_num)), by decide, by decide⟩
  rw [← Write_rounded]
  apply read_write_of_sanitized
  intro r' hr'
  obtain ⟨r, hr, rfl⟩ := List.mem_map.1 hr'
  obtain ⟨hfin, hfields⟩ := h r hr
  rw [sanitized_eq]
  simp only [Bool.and_eq_true]
  refine ⟨rounded_isWhole _ hfin, ?_⟩
  simpa only [Record.fieldsSanitized, extInfLine_rounded] using hfields

theorem Read_Write_rounds_witness :
    (∀ r ∈ [(⟨Float64.fin false (7093169413108531 * 2 ^ 1025), [("k".toList, "v".toList)],
          "T".toList, "http://a".toList⟩ : Record)],
        r.Duration.isFinite = true ∧ r.fieldsSanitized = true) ∧
      Read [] (Write bufferWriter [] [(⟨Float64.fin false (7093169413108531 * 2 ^ 1025),
          [("k".toList, "v".toList)], "T".toList, "http://a".toList⟩ : Record)]).1 =
        ([⟨Float64.ofNat 13, [("k".toList, "v".toList)], "T".toList, "http://a".toList⟩],
          none) :=
  ⟨by decide, by
    have h := (Read_Write_rounds [(⟨Float64.fin false (7093169413108531 * 2 ^ 1025),
      [("k".toList, "v".toList)], "T".toList, "http://a".toList⟩ : Record)] (by decide)).1
    rw [h]; decide⟩

/-! ## The matches of `m3uAttrRE` in a text without line feed -/

theorem exists_first_split (c : Char) : ∀ l : Str, c ∈ l → ∃ a b, l = a ++ c :: b ∧ c ∉ a := by
  intro l
  induction l with
  | nil => intro h; simp at h
  | cons x l ih =>
    intro h
    by_cases hx : x = c
    · exact ⟨[], l, by simp [hx], by simp⟩
    · have hl : c ∈ l := by
        rcases List.mem_cons.1 h with h0 | h0
        · exact absurd h0.symm hx
        · exact h0
      obtain ⟨a, b, hab, hni⟩ := ih hl
      refine ⟨x :: a, b, by simp [hab], ?_⟩
      intro hm
      rcases List.mem_cons.1 hm with h0 | h0
      · exact hx h0.symm
      · exact hni h0

theorem attr_tail_shape (s : Str) (g : List Str) (rest : Str)
    (h : matchHere [Item.lit '=', Item.lit '"', Item.rep reNotQuote 0 true, Item.lit '"'] s
      = some (g, rest)) :
    ∃ v, s = '=' :: '"' :: (v ++ '"' :: rest) ∧ g = [v] ∧ '"' ∉ v := by
  match s, h with
  | [], h => simp [matchHere] at h
  | [_], h =>
    simp only [matchHere] at h
    split_ifs at h
  | c0 :: c1 :: t, h =>
    simp only [matchHere] at h
    split_ifs at h with h0 h1
    obtain ⟨z, suf, hs, hz, -, hk, -⟩ := greedy_some _ _ _ _ _ _ h
    cases suf with
    | nil => simp [matchHere] at hk
    | cons y w =>
      simp only [matchHere] at hk
      split_ifs at hk with hy
      simp only [List.nil_append, Option.some.injEq, Prod.mk.injEq] at hk
      refine ⟨z, by rw [h0, h1, hs, hy, hk.2], hk.1.symm, ?_⟩
      intro hm
      have := hz _ hm
      simp [reNotQuote] at this

theorem attr_tail_match_rest (v rest : Str) (hv : '"' ∉ v) :
    matchHere [Item.lit '=', Item.lit '"', Item.rep reNotQuote 0 true, Item.lit '"']
      ('=' :: '"' :: (v ++ '"' :: rest)) = some ([v], rest) := by
  have h1 : matchHere [Item.rep reNotQuote 0 true, Item.lit '"'] (v ++ '"' :: rest)
      = some ([v], rest) := by
    rw [matchHere_rep]
    apply greedy_longest
    · intro c hc
      simp only [reNotQuote, Bool.not_eq_true', decide_eq_false_iff_not]
      rintro rfl; exact hv hc
    · simp
    · simp [matchHere]
    · intro pre1 suf1 hs hlen hall
      obtain ⟨x, t, hp, hsuf⟩ := split_longer hs hlen
      simp only [List.cons_append, List.cons.injEq] at hsuf
      have hx : reNotQuote x = true := hall x (by rw [hp]; simp)
      rw [← hsuf.1] at hx
      simp [reNotQuote] at hx
  simp only [matchHere, if_true]
  exact h1

theorem attr_tail_of_closes (s : Str) (h : closesQuote s) :
    matchHere [Item.lit '=', Item.lit '"', Item.rep reNotQuote 0 true, Item.lit '"'] s ≠ none := by
  obtain ⟨z, w, rfl⟩ := h
  obtain ⟨a, b, hab, hni⟩ := exists_first_split '"' (z ++ '"' :: w) (by simp)
  rw [hab, attr_tail_match_rest a b hni]
  simp

/-- The shape of a match of `m3uAttrRE`: a key that is not empty, `="`, a value
without `"`, and `"`; the key is the longest that can be, among the prefixes
without line feed. -/
theorem attr_match_shape (t : Str) (g : List Str) (rest : Str)
    (h : matchHere m3uAttrRE t = some (g, rest)) :
    ∃ pre v, t = pre ++ '=' :: '"' :: (v ++ '"' :: rest) ∧ g = [pre, v] ∧ pre ≠ [] ∧ '"' ∉ v ∧
      ∀ p1 s1, t = p1 ++ s1 → pre.length < p1.length → (∀ c ∈ p1, reDot c = true) →
        ¬ closesQuote s1 := by
  unfold m3uAttrRE at h
  rw [matchHere_rep] at h
  obtain ⟨pre, suf, hs, -, hmin, hk, hlong⟩ := greedy_some _ _ _ _ _ _ h
  simp only [List.nil_append] at hk hmin hlong
  rcases h2 : matchHere
      [Item.lit '=', Item.lit '"', Item.rep reNotQuote 0 true, Item.lit '"'] suf with _ | ⟨g1, r1⟩
  · rw [h2] at hk; simp at hk
  rw [h2] at hk
  simp only [if_true, Option.some.injEq, Prod.mk.injEq] at hk
  obtain ⟨hg, hr⟩ := hk
  subst hr
  obtain ⟨v, hsuf, hg1, hv⟩ := attr_tail_shape suf g1 r1 h2
  refine ⟨pre, v, by rw [hs, hsuf], by rw [← hg, hg1], ?_, hv, ?_⟩
  · intro h0; rw [h0] at hmin; simp at hmin
  · intro p1 s1 hp hlen hall hc
    have hnone := hlong p1 s1 hp hlen hall (by omega)
    have := attr_tail_of_closes s1 hc
    rcases h3 : matchHere
        [Item.lit '=', Item.lit '"', Item.rep reNotQuote 0 true, Item.lit '"'] s1 with _ | x
    · exact this h3
    · rw [h3] at hnone; simp at hnone

theorem reDot_of_not_mem {t : Str} (h : '\n' ∉ t) : ∀ c ∈ t, reDot c = true := by
  intro c hc
  simp only [reDot, Bool.not_eq_true', decide_eq_false_iff_not]
  rintro rfl; exact h hc

/-- After a match of `m3uAttrRE` in a text without line feed there is no other
match. -/
theorem attr_no_later_match (t : Str) (g : List Str) (rest : Str) (hnl : '\n' ∉ t)
    (h : matchHere m3uAttrRE t = some (g, rest)) :
    ∀ y x, rest = y ++ x → matchHere m3uAttrRE x = none := by
  intro y x hyx
  obtain ⟨pre, v, ht, -, -, -, hmax⟩ := attr_match_shape t g rest h
  rcases hx : matchHere m3uAttrRE x with _ | ⟨g2, r2⟩
  · rfl
  · exfalso
    obtain ⟨pre2, v2, hx2, -, -, -, -⟩ := attr_match_shape x g2 r2 hx
    have hsplit : t = (pre ++ '=' :: '"' :: (v ++ '"' :: (y ++ pre2))) ++
        ('=' :: '"' :: (v2 ++ '"' :: r2)) := by
      rw [ht, hyx, hx2]; simp
    refine hmax _ _ hsplit (by simp) ?_ ⟨v2, r2, rfl⟩
    intro c hc
    exact reDot_of_not_mem hnl c (by rw [hsplit]; exact List.mem_append_left _ hc)

/-- When `m3uAttrRE` does not match at the start of a text without line feed, it
matches nowhere in it. -/
theorem attr_no_match_anywhere (t : Str) (hnl : '\n' ∉ t)
    (h : matchHere m3uAttrRE t = none) :
    ∀ y x, t = y ++ x → matchHere m3uAttrRE x = none := by
  intro y x hyx
  rcases hx : matchHere m3uAttrRE x with _ | ⟨g2, r2⟩
  · rfl
  · exfalso
    obtain ⟨pre2, v2, hx2, -, hne, -, -⟩ := attr_match_shape x g2 r2 hx
    unfold m3uAttrRE at h
    rw [matchHere_rep] at h
    have hsplit : t = (y ++ pre2) ++ ('=' :: '"' :: (v2 ++ '"' :: r2)) := by
      rw [hyx, hx2]; simp
    have hnone := greedy_none_split _ _ _ _ _ h (y ++ pre2) _ hsplit
      (fun c hc => reDot_of_not_mem hnl c (by rw [hsplit]; exact List.mem_append_left _ hc))
      (by
        have : 0 < pre2.length := List.length_pos.2 hne
        simp; omega)
    have hsome := attr_tail_of_closes ('=' :: '"' :: (v2 ++ '"' :: r2)) ⟨v2, r2, rfl⟩
    rcases h3 : matchHere
        [Item.lit '=', Item.lit '"', Item.rep reNotQuote 0 true, Item.lit '"']
        ('=' :: '"' :: (v2 ++ '"' :: r2)) with _ | z
    · exact hsome h3
    · rw [h3] at hnone; simp at hnone

theorem findAllFrom_eq_nil (re : List Item) : ∀ s : Str,
    (∀ y x, s = y ++ x → matchHere re x = none) → findAllFrom re 0 s = [] := by
  intro s
  induction s with
  | nil => intro _; rfl
  | cons c cs ih =>
    intro h
    simp only [findAllFrom, h [] (c :: cs) rfl]
    exact ih (fun y x hyx => h (c :: y) x (by simp [hyx]))

theorem findAllFrom_drop (re : List Item) : ∀ (s : Str) (n : Nat), n ≤ s.length →
    findAllFrom re n s = findAllFrom re 0 (s.drop n) := by
  intro s
  induction s with
  | nil => intro n _; cases n <;> rfl
  | cons c cs ih =>
    intro n hn
    cases n with
    | zero => rfl
    | succ n =>
      simp only [findAllFrom, List.drop_succ_cons]
      exact ih n (by simpa using hn)

/-- In a text without line feed `FindAllString` finds at most one match of
`m3uAttrRE`, and it starts the text. -/
theorem FindAllString_attr_cases (a : Str) (hnl : '\n' ∉ a) :
    FindAllString m3uAttrRE a = [] ∨
      ∃ pre v rest, a = pre ++ '=' :: '"' :: (v ++ '"' :: rest) ∧
        FindAllString m3uAttrRE a = [pre ++ '=' :: '"' :: (v ++ ['"'])] ∧ pre ≠ [] ∧ '"' ∉ v ∧
        ∀ p1 s1, a = p1 ++ s1 → pre.length < p1.length → ¬ closesQuote s1 := by
  cases a with
  | nil => left; rfl
  | cons c cs =>
    rcases hm : matchHere m3uAttrRE (c :: cs) with _ | ⟨g, rest⟩
    · left
      simp only [FindAllString, findAllFrom, hm]
      apply findAllFrom_eq_nil
      intro y x hyx
      exact attr_no_match_anywhere (c :: cs) hnl hm (c :: y) x (by simp [hyx])
    · right
      obtain ⟨pre, v, ht, -, hne, hv, hmax⟩ := attr_match_shape _ g rest hm
      refine ⟨pre, v, rest, ht, ?_, hne, hv, ?_⟩
      · have hM : matched (c :: cs) rest = pre ++ '=' :: '"' :: (v ++ ['"']) := by
          have e : c :: cs = (pre ++ '=' :: '"' :: (v ++ ['"'])) ++ rest := by rw [ht]; simp
          unfold matched
          rw [e, List.length_append, Nat.add_sub_cancel, List.take_left']
          rfl
        have hdrop : cs.drop ((pre ++ '=' :: '"' :: (v ++ ['"'])).length - 1) = rest := by
          have e : c :: cs = (pre ++ '=' :: '"' :: (v ++ ['"'])) ++ rest := by rw [ht]; simp
          have hpos : 0 < (pre ++ '=' :: '"' :: (v ++ ['"'])).length := by simp
          have h1 : (c :: cs).drop (pre ++ '=' :: '"' :: (v ++ ['"'])).length = rest := by
            rw [e, List.drop_left']
            rfl
          rw [← h1]
          obtain ⟨n, hn⟩ : ∃ n, (pre ++ '=' :: '"' :: (v ++ ['"'])).length = n + 1 :=
            ⟨_, (Nat.succ_pred_eq_of_pos hpos).symm⟩
          rw [hn, List.drop_succ_cons]
          rfl
        simp only [FindAllString, findAllFrom, hm, hM]
        rw [findAllFrom_drop _ _ _ (by
          have e := congrArg List.length ht
          simp at e ⊢; omega), hdrop,
          findAllFrom_eq_nil _ _ (attr_no_later_match _ g rest hnl hm)]
      · intro p1 s1 hp hlen
        exact hmax p1 s1 hp hlen
          (fun x hx => reDot_of_not_mem hnl x (by rw [hp]; exact List.mem_append_left _ hx))

/-! ## What `parseExtInf` does with a line without line feed -/

theorem dropWhile_append_stop (p : Char → Bool) (x : Char) (t : Str) (hx : p x = false) :
    ∀ l : Str, (l ++ x :: t).dropWhile p = l.dropWhile p ++ x :: t := by
  intro l
  induction l with
  | nil => simp [List.dropWhile_cons, hx]
  | cons a l ih =>
    by_cases ha : p a = true
    · simp only [List.cons_append, List.dropWhile_cons, ha, if_true]
      exact ih
    · simp [List.dropWhile_cons, ha]

theorem head_dropWhile (p : Char → Bool) : ∀ (l : Str) (c : Char),
    (l.dropWhile p).head? = some c → p c = false := by
  intro l
  induction l with
  | nil => intro c h; simp at h
  | cons a l ih =>
    intro c h
    by_cases ha : p a = true
    · simp only [List.dropWhile_cons, ha, if_true] at h
      exact ih c h
    · simp only [List.dropWhile_cons, ha] at h
      simp only [Bool.false_eq_true, if_false, List.head?_cons, Option.some.injEq] at h
      rw [← h]; simpa using ha

theorem mem_takeWhile (p : Char → Bool) : ∀ (l : Str), ∀ c ∈ l.takeWhile p, p c = true := by
  intro l
  induction l with
  | nil => intro c h; simp at h
  | cons a l ih =>
    intro c h
    by_cases ha : p a = true
    · simp only [List.takeWhile_cons, ha, if_true, List.mem_cons] at h
      rcases h with rfl | h
      · exact ha
      · exact ih c h
    · simp [List.takeWhile_cons, ha] at h

/-- The text of a match of `m3uAttrRE`, trimmed: only white space before the key
goes. -/
theorem TrimSpace_match (pre v : Str) :
    TrimSpace (pre ++ '=' :: '"' :: (v ++ ['"'])) =
      pre.dropWhile isSpace ++ '=' :: '"' :: (v ++ ['"']) := by
  have hq : isSpace '"' = false := by decide
  unfold TrimSpace
  rw [dropWhile_append_stop isSpace '=' _ (by decide) pre,
    show pre.dropWhile isSpace ++ '=' :: '"' :: (v ++ ['"']) =
      (pre.dropWhile isSpace ++ '=' :: '"' :: v) ++ ['"'] by simp,
    List.reverse_append, List.reverse_singleton, List.singleton_append,
    List.dropWhile_cons_of_neg (by simp [hq])]
  simp

/-- Without a key before `="`, the pattern `m3uAttrRE` does not match. -/
theorem FindStringSubmatch_no_key (v : Str) (hv : '"' ∉ v) :
    FindStringSubmatch m3uAttrRE ('=' :: '"' :: (v ++ ['"'])) = [] := by
  by_contra h
  obtain ⟨u, t, g, rest, hs, hm, -⟩ := FindStringSubmatch_ne_nil _ _ h
  obtain ⟨pre, v2, ht, -, hne, -, -⟩ := attr_match_shape t g rest hm
  have hv0 : v.count '"' = 0 := List.count_eq_zero_of_not_mem hv
  have hc := congrArg (List.count '"') hs
  rw [ht] at hc
  simp only [List.count_cons, List.count_append, List.count_nil, hv0] at hc
  simp only [beq_self_eq_true, if_true] at hc
  have hq : ('=' == '"') = false := by decide
  simp only [hq] at hc
  have hu0 : u.count '"' = 0 := by simp at hc; omega
  have hp0 : pre.count '"' = 0 := by simp at hc; omega
  rw [ht] at hs
  match u, hs, hu0 with
  | [], hs, _ =>
    match pre, hne, hs, hp0 with
    | [c], _, hs, _ =>
      simp only [List.nil_append, List.cons_append, List.cons.injEq] at hs
      exact absurd hs.2.1 (by decide)
    | c :: d :: p, _, hs, hp0 =>
      simp only [List.nil_append, List.cons_append, List.cons.injEq] at hs
      rw [← hs.2.1] at hp0
      simp [List.count_cons] at hp0
  | [a], hs, _ =>
    match pre, hne, hs, hp0 with
    | c :: p, _, hs, hp0 =>
      simp only [List.cons_append, List.nil_append, List.cons.injEq] at hs
      rw [← hs.2.1] at hp0
      simp [List.count_cons] at hp0
  | a :: b :: u, hs, hu0 =>
    simp only [List.cons_append, List.cons.injEq] at hs
    rw [← hs.2.1] at hu0
    simp [List.count_cons] at hu0

/-- What `parseExtInf` does with a line without line feed, whatever the record:
it fails, or it sets the duration and the title, or it sets the duration, one
attribute and the title. -/
theorem parseExtInf_cases (e : Str) (hnl : '\n' ∉ e) :
    (∃ err, ∀ r, (parseExtInf r e).2 = some err) ∨
    (∃ d T, ∀ r, parseExtInf r e = ({ r with Duration := d, Title := T }, none)) ∨
    (∃ d T k v,
      (∀ r, parseExtInf r e =
        ({ r with Duration := d, Attributes := setAttr r.Attributes k v, Title := T }, none)) ∧
      AttrAt (attrSection e) k v) := by
  by_cases hne : FindStringSubmatch m3uExtInfRE e = []
  · left
    exact ⟨Error.errorf ("m3u: wrongly-formatted line: ".toList ++ e), fun r => by
      simp [parseExtInf, hne]⟩
  obtain ⟨u, dt, w, a, T, hl, hf, -, -, -, -⟩ := extinf_submatch_shape e hnl hne
  have hanl : '\n' ∉ a := by
    intro hm; apply hnl; rw [hl]
    exact List.mem_append_right _ (List.mem_append_left _ (List.mem_append_right _ hm))
  rcases hp : ParseFloat dt with ⟨f, _ | err⟩
  · rcases FindAllString_attr_cases a hanl with hnil | ⟨pre, v, rest, ha, hfa, hpne, hv, hmax⟩
    · right; left
      refine ⟨f, T, fun r => ?_⟩
      simp only [parseExtInf, hf, List.length_cons, List.length_nil, List.getD_cons_succ,
        List.getD_cons_zero, hp, hnil, attrLoop]
      simp
    · by_cases hk : pre.dropWhile isSpace = []
      · left
        refine ⟨Error.errorf ("m3u: wrongly-formatted attribute '".toList ++
          ('=' :: '"' :: (v ++ ['"'])) ++ "' on the line '".toList ++ e ++ "'".toList),
          fun r => ?_⟩
        simp only [parseExtInf, hf, List.length_cons, List.length_nil, List.getD_cons_succ,
          List.getD_cons_zero, hp, hfa, attrLoop, TrimSpace_match, hk, List.nil_append,
          FindStringSubmatch_no_key v hv]
        simp
      · right; right
        have hknl : '\n' ∉ pre.dropWhile isSpace := by
          intro hm
          have h1 : '\n' ∈ pre := (List.dropWhile_sublist _).subset hm
          exact hanl (by rw [ha]; exact List.mem_append_left _ h1)
        have hsec : attrSection e = a := by simp [attrSection, hf]
        rw [hsec]
        refine ⟨f, T, pre.dropWhile isSpace, v, fun r => ?_, ?_⟩
        · simp only [parseExtInf, hf, List.length_cons, List.length_nil, List.getD_cons_succ,
            List.getD_cons_zero, hp, hfa, attrLoop, TrimSpace_match,
            FindStringSubmatch_attr _ v hk hknl hv]
          simp [hk]
        · refine ⟨pre.takeWhile isSpace, rest, ?_, mem_takeWhile isSpace pre, hk,
            head_dropWhile isSpace pre, hv, ?_⟩
          · rw [List.takeWhile_append_dropWhile]; exact ha
          · intro p s hps hlen
            rw [List.takeWhile_append_dropWhile] at hlen
            exact hmax p s hps hlen
  · left
    exact ⟨Error.numError "ParseFloat".toList dt err, fun r => by
      simp [parseExtInf, hf, hp]⟩

/-- C19 (the claim fails on this input): the attribute section of the line
`#EXTINF:5 k="v" x=",T` is `k="v" x="`, whose last `="` comes after `k="v" x`, but
the one attribute `Read` stores has the key `k`. -/
theorem parseExtInf_key_counterexample :
    Read [] "#EXTINF:5 k=\"v\" x=\",T\nhttp://a\n".toList =
        ([⟨Float64.ofNat 5, [("k".toList, "v".toList)], "T".toList, "http://a".toList⟩], none) ∧
      attrSection "#EXTINF:5 k=\"v\" x=\",T".toList = "k=\"v\" x=\"".toList ∧
      "k=\"v\" x=\"".toList = "k=\"v\" x".toList ++ "=\"".toList ∧
      "k".toList ≠ "k=\"v\" x".toList := by
  decide

/-- C19, amended: a successful `parseExtInf` on a line without line break leaves
the attribute map as it was or sets one key in it; a record committed after one
EXTINF line on a fresh pending record has at most one attribute; and when a key is
set, the attribute section reads white space, the key, `="`, the value, `"` and a
rest, where the key is not empty and does not begin with white space, the value
has no double quote, and the `="` after the key is the last `="` of the section
that has a double quote somewhere after it. -/
theorem parseExtInf_one_attribute (e : Str) (r r1 : Record) (hnl : '\n' ∉ e)
    (h : parseExtInf r e = (r1, none)) :
    (r1.Attributes = r.Attributes ∨
        ∃ k v, r1.Attributes = setAttr r.Attributes k v ∧ AttrAt (attrSection e) k v) ∧
      ∀ (m : M3U) (input u : Str), scanLines input = ([e, u], false) →
        HasPrefix e "#EXTINF".toList = true → isDirective u = false →
        ∃ rec, Read m input = (m ++ [rec], none) ∧
          (rec.Attributes = [] ∨
            ∃ k v, rec.Attributes = [(k, v)] ∧ AttrAt (attrSection e) k v) := by
  have key : ∀ r0 : Record, ∃ r2, parseExtInf r0 e = (r2, none) ∧
      (r2.Attributes = r0.Attributes ∨
        ∃ k v, r2.Attributes = setAttr r0.Attributes k v ∧ AttrAt (attrSection e) k v) := by
    intro r0
    rcases parseExtInf_cases e hnl with ⟨err, he⟩ | ⟨d, T, hc⟩ | ⟨d, T, k, v, hc, hat⟩
    · have := he r; rw [h] at this; simp at this
    · exact ⟨_, hc r0, Or.inl rfl⟩
    · exact ⟨_, hc r0, Or.inr ⟨k, v, rfl, hat⟩⟩
  constructor
  · obtain ⟨r2, h2, hr⟩ := key r
    rw [h] at h2
    simp only [Prod.mk.injEq, and_true] at h2
    rw [h2]; exact hr
  · intro m input u hs he hu
    have he1 : e ≠ m3uHeader := by
      rintro rfl; revert he; decide
    have hu1 : u ≠ m3uHeader := by
      rintro rfl; revert hu; decide
    have hu3 : ¬ HasPrefix u "#".toList = true := by
      simpa [isDirective] using hu
    have hu2 : ¬ HasPrefix u "#EXTINF".toList = true :=
      fun hp => hu3 (hasPrefix_hash_of_extinf hp)
    obtain ⟨r2, h2, hr⟩ := key NewRecord
    refine ⟨{ r2 with URL := u }, ?_, ?_⟩
    · simp only [Read, hs, readLines, if_neg he1, if_pos he, if_neg hu1, if_neg hu2, if_neg hu3,
        h2]
      simp
    · rcases hr with hr | ⟨k, v, hr, hat⟩
      · left; exact hr
      · right; exact ⟨k, v, hr, hat⟩

theorem parseExtInf_one_attribute_witness :
    '\n' ∉ "#EXTINF:5 k=\"v\" x=\",T".toList ∧
      parseExtInf NewRecord "#EXTINF:5 k=\"v\" x=\",T".toList =
        (⟨Float64.ofNat 5, [("k".toList, "v".toList)], "T".toList, []⟩, none) ∧
      (([("k".toList, "v".toList)] : List (Str × Str)) = NewRecord.Attributes ∨
        ∃ k v, ([("k".toList, "v".toList)] : List (Str × Str)) =
            setAttr NewRecord.Attributes k v ∧
          AttrAt (attrSection "#EXTINF:5 k=\"v\" x=\",T".toList) k v) :=
  ⟨by decide, by decide,
    (parseExtInf_one_attribute "#EXTINF:5 k=\"v\" x=\",T".toList NewRecord
      ⟨Float64.ofNat 5, [("k".toList, "v".toList)], "T".toList, []⟩ (by decide) (by decide)).1⟩

/-- C14, amended: when the line scanner delivers exactly two EXTINF lines that
each parse without error and then a URL line, and ends without error, `Read`
appends one record; its duration and
title are those of the second EXTINF line, and its attribute map is the map of
the first EXTINF line with the attribute of the second line (if it has one) set
over it; so it is the record of the second EXTINF line and the URL line alone
when the first EXTINF line has no attribute. -/
theorem Read_second_extinf (m : M3U) (input e1 e2 u : Str) (r1 r2 : Record)
    (hs : scanLines input = ([e1, e2, u], false))
    (h1 : HasPrefix e1 "#EXTINF".toList = true) (h2 : HasPrefix e2 "#EXTINF".toList = true)
    (hu : isDirective u = false)
    (hp1 : parseExtInf NewRecord e1 = (r1, none))
    (hp2 : parseExtInf NewRecord e2 = (r2, none)) :
    Read m input =
        (m ++ [{ Duration := r2.Duration,
                 Attributes := r2.Attributes.foldl (fun acc kv => setAttr acc kv.1 kv.2)
                   r1.Attributes,
                 Title := r2.Title, URL := u }], none) ∧
      (r1.Attributes = [] → Read m input = (m ++ [{ r2 with URL := u }], none)) := by
  have hnl : '\n' ∉ e2 := scanLines_no_newline input e2 (by rw [hs]; simp)
  have he1 : e1 ≠ m3uHeader := by
    rintro rfl; revert h1; decide
  have he2 : e2 ≠ m3uHeader := by
    rintro rfl; revert h2; decide
  have hu1 : u ≠ m3uHeader := by
    rintro rfl; revert hu; decide
  have hu3 : ¬ HasPrefix u "#".toList = true := by
    simpa [isDirective] using hu
  have hu2 : ¬ HasPrefix u "#EXTINF".toList = true :=
    fun hp => hu3 (hasPrefix_hash_of_extinf hp)
  have hread : ∀ r3, parseExtInf r1 e2 = (r3, none) →
      Read m input = (m ++ [{ r3 with URL := u }], none) := by
    intro r3 h3
    simp only [Read, hs, readLines, if_neg he1, if_pos h1, if_neg he2, if_pos h2, if_neg hu1,
      if_neg hu2, if_neg hu3, hp1, h3]
    simp
  rcases parseExtInf_cases e2 hnl with ⟨err, he⟩ | ⟨d, T, hc⟩ | ⟨d, T, k, v, hc, -⟩
  · have := he NewRecord; rw [hp2] at this; simp at this
  · have e2r := hc NewRecord
    rw [hp2] at e2r
    simp only [Prod.mk.injEq, and_true] at e2r
    subst e2r
    constructor
    · rw [hread _ (hc r1)]; rfl
    · intro h0
      rw [hread _ (hc r1)]
      simp [NewRecord, h0]
  · have e2r := hc NewRecord
    rw [hp2] at e2r
    simp only [Prod.mk.injEq, and_true] at e2r
    subst e2r
    constructor
    · rw [hread _ (hc r1)]; rfl
    · intro h0
      rw [hread _ (hc r1)]
      simp [NewRecord, h0, setAttr]

theorem Read_second_extinf_witness :
    scanLines "#EXTINF:1 a=\"x\",T1\n#EXTINF:2 b=\"y\",T2\nhttp://a\n".toList =
        (["#EXTINF:1 a=\"x\",T1".toList, "#EXTINF:2 b=\"y\",T2".toList, "http://a".toList],
          false) ∧
      Read [] "#EXTINF:1 a=\"x\",T1\n#EXTINF:2 b=\"y\",T2\nhttp://a\n".toList =
        ([⟨Float64.ofNat 2, [("a".toList, "x".toList), ("b".toList, "y".toList)], "T2".toList,
            "http://a".toList⟩], none) :=
  ⟨by decide,
    (Read_second_extinf [] "#EXTINF:1 a=\"x\",T1\n#EXTINF:2 b=\"y\",T2\nhttp://a\n".toList
      "#EXTINF:1 a=\"x\",T1".toList "#EXTINF:2 b=\"y\",T2".toList "http://a".toList
      ⟨Float64.ofNat 1, [("a".toList, "x".toList)], "T1".toList, []⟩
      ⟨Float64.ofNat 2, [("b".toList, "y".toList)], "T2".toList, []⟩
      (by decide) (by decide) (by decide) (by decide) (by decide) (by decide)).1⟩

/-! ## Lines that do not fit in the buffer of the scanner -/

theorem sanitized_iff (r : Record) :
    r.sanitized = true ↔
      r.wellFormed = true ∧ byteLen (extInfLine r) ≤ maxScanTokenSize ∧
        byteLen r.URL < maxScanTokenSize := by
  simp [Record.sanitized, Record.wellFormed, and_assoc]

/-- The EXTINF line `Write` builds for a well-formed record ends with the only
line feed it holds, and the URL holds none. -/
theorem written_line (r : Record) (h : r.wellFormed = true) :
    ∃ X : Str, extInfLine r = X ++ ['\n'] ∧ '\n' ∉ X ∧ '\n' ∉ r.URL := by
  rcases r with ⟨d, attrs, T, u⟩
  simp only [Record.wellFormed, Bool.and_eq_true, Bool.not_eq_true', List.contains_eq_any_beq,
    List.any_eq_false, beq_iff_eq, bne_iff_ne, ne_eq] at h
  obtain ⟨⟨⟨⟨⟨⟨⟨hd, ha⟩, -⟩, hTnl⟩, -⟩, hUnl⟩, -⟩, -⟩ := h
  have hTnl' : '\n' ∉ T := fun hm => hTnl _ hm rfl
  have hUnl' : '\n' ∉ u := fun hm => hUnl _ hm rfl
  obtain ⟨-, htext⟩ := fmtF0_text d hd
  have hdnl : '\n' ∉ fmtF0 d := fun hm => (htext _ hm).2.2 rfl
  have hpre : '\n' ∉ "#EXTINF:".toList := by decide
  match attrs, ha with
  | [], _ =>
    refine ⟨"#EXTINF:".toList ++ fmtF0 d ++ ',' :: T, by simp [extInfLine, newLine], ?_, hUnl'⟩
    intro hm
    rcases List.mem_append.1 hm with h0 | h0
    · rcases List.mem_append.1 h0 with h0 | h0
      · exact hpre h0
      · exact hdnl h0
    · rcases List.mem_cons.1 h0 with h0 | h0
      · revert h0; decide
      · exact hTnl' h0
  | [([], v)], ha => simp [attrsSanitized] at ha
  | [(c :: k, v)], ha =>
    simp only [attrsSanitized, Bool.and_eq_true, Bool.not_eq_true', List.contains_eq_any_beq,
      List.any_eq_false, beq_iff_eq] at ha
    obtain ⟨⟨⟨-, hk⟩, -⟩, hvnl⟩ := ha
    have hk' : '\n' ∉ c :: k := fun hm => hk _ hm rfl
    have hvnl' : '\n' ∉ v := fun hm => hvnl _ hm rfl
    refine ⟨"#EXTINF:".toList ++ fmtF0 d ++ ' ' :: (c :: k ++ '=' :: '"' :: (v ++ ['"'])) ++ ',' :: T,
      by simp [extInfLine, newLine], ?_, hUnl'⟩
    intro hm
    rcases List.mem_append.1 hm with h0 | h0
    · rcases List.mem_append.1 h0 with h0 | h0
      · rcases List.mem_append.1 h0 with h0 | h0
        · exact hpre h0
        · exact hdnl h0
      · rcases List.mem_cons.1 h0 with h0 | h0
        · revert h0; decide
        · rcases List.mem_append.1 h0 with h0 | h0
          · exact hk' h0
          · rcases List.mem_cons.1 h0 with h0 | h0
            · revert h0; decide
            · rcases List.mem_cons.1 h0 with h0 | h0
              · revert h0; decide
              · rcases List.mem_append.1 h0 with h0 | h0
                · exact hvnl' h0
                · rcases List.mem_singleton.1 h0 with h0
                  revert h0; decide
    · rcases List.mem_cons.1 h0 with h0 | h0
      · revert h0; decide
      · exact hTnl' h0

/-- When a line of the text written for well-formed records does not fit in the
buffer, the scanner stops with `bufio.ErrTooLong`. -/
theorem scan_flag_written (m : M3U) (h : ∀ r ∈ m, r.wellFormed = true)
    (hl : ∃ r ∈ m, ¬ (byteLen (extInfLine r) ≤ maxScanTokenSize ∧
      byteLen r.URL < maxScanTokenSize)) :
    (scanFrom [] (m.map (fun r => extInfLine r ++ (r.URL ++ newLine))).flatten).2 = true := by
  induction m with
  | nil => obtain ⟨r, hr, -⟩ := hl; simp at hr
  | cons r m ih =>
    obtain ⟨X, hX, hXnl, hUnl⟩ := written_line r (h r (List.mem_cons_self _ _))
    have htext : (List.map (fun r => extInfLine r ++ (r.URL ++ newLine)) (r :: m)).flatten =
        X ++ '\n' ::
          (r.URL ++ '\n' :: (List.map (fun r => extInfLine r ++ (r.URL ++ newLine)) m).flatten) := by
      simp only [List.map_cons, List.flatten_cons, hX, newLine]
      simp
    have hlen : byteLen (extInfLine r) = byteLen X + 1 := by
      rw [hX, byteLen_append]; rfl
    rw [htext, scanFrom_append_line _ X [] hXnl, List.nil_append]
    by_cases h1 : maxScanTokenSize ≤ byteLen X
    · rw [if_pos h1]
    · rw [if_neg h1]
      simp only []
      rw [scanFrom_append_line _ r.URL [] hUnl, List.nil_append]
      by_cases h2 : maxScanTokenSize ≤ byteLen r.URL
      · rw [if_pos h2]
      · rw [if_neg h2]
        simp only []
        apply ih (fun q hq => h q (List.mem_cons_of_mem _ hq))
        obtain ⟨q, hq, hbad⟩ := hl
        rcases List.mem_cons.1 hq with rfl | hq
        · exact absurd ⟨by omega, by omega⟩ hbad
        · exact ⟨q, hq, hbad⟩

/-- When the scanner stops with `bufio.ErrTooLong`, `Read` returns an error. -/
theorem Read_error_of_flag (m : M3U) (input : Str) (h : (scanLines input).2 = true) :
    (Read m input).2 ≠ none := by
  simp only [Read, h]
  rcases readLines m NewRecord (scanLines input).1 with ⟨m1, _ | e⟩ <;> simp

theorem byteLen_replicate (n : Nat) : byteLen (List.replicate n 'a') = n := by
  induction n with
  | zero => rfl
  | succ n ih =>
    rw [List.replicate_succ, show 'a' :: List.replicate n 'a' = ['a'] ++ List.replicate n 'a' from rfl,
      byteLen_append, ih, show byteLen ['a'] = 1 from rfl]
    omega

/-- A record with the title `a…a`, the duration 0 and the URL `http://a` is
well-formed. -/
theorem wellFormed_long (n : Nat) :
    (⟨Float64.ofNat 0, [], List.replicate n 'a', "http://a".toList⟩ : Record).wellFormed
      = true := by
  have hmem : ∀ x ∈ List.replicate n 'a', x = 'a' := fun x hx => List.eq_of_mem_replicate hx
  have h0 : (Float64.ofNat 0).isWhole = true := by decide
  have h1 : (List.replicate n 'a').contains ',' = false := by
    simp only [List.contains_eq_any_beq, List.any_eq_false, beq_iff_eq]
    intro x hx; rw [hmem x hx]; decide
  have h2 : (List.replicate n 'a').contains '\n' = false := by
    simp only [List.contains_eq_any_beq, List.any_eq_false, beq_iff_eq]
    intro x hx; rw [hmem x hx]; decide
  have h3 : ((List.replicate n 'a').getLast? != some '\r') = true := by
    rw [bne_iff_ne]
    intro h
    have := hmem _ (List.mem_of_mem_getLast? (Option.mem_def.2 h))
    revert this; decide
  have h4 : ("http://a".toList.contains '\n') = false := by decide
  have h5 : isDirective "http://a".toList = false := by decide
  have h6 : ("http://a".toList.getLast? != some '\r') = true := by decide
  simp only [Record.wellFormed, h0, h1, h2, h3, h4, h5, h6, attrsSanitized, Bool.not_false,
    Bool.and_self]

/-- Reading the text written for one record whose title does not fit in the
buffer of the scanner: the scanner fails and nothing is read. -/
theorem read_long_line (T : Str) (hT : '\n' ∉ T) (hlen : maxScanTokenSize ≤ byteLen T) :
    Read [] (Write bufferWriter [] [⟨Float64.ofNat 0, [], T, "http://a".toList⟩]).1 =
      ([], some Error.tooLong) := by
  rw [Write_buffer_text]
  have hline : extInfLine ⟨Float64.ofNat 0, [], T, "http://a".toList⟩ =
      ("#EXTINF:0,".toList ++ T) ++ ['\n'] := by
    have hf : fmtF0 (Float64.ofNat 0) = "0".toList := by decide
    simp [extInfLine, newLine, hf]
  have hnl : '\n' ∉ "#EXTINF:0,".toList ++ T := by
    intro hm
    rcases List.mem_append.1 hm with h0 | h0
    · revert h0; decide
    · exact hT h0
  have hbig : maxScanTokenSize ≤ byteLen ([] ++ ("#EXTINF:0,".toList ++ T)) := by
    rw [List.nil_append, byteLen_append]; omega
  have htext : (List.map (fun r => extInfLine r ++ (r.URL ++ newLine))
      [(⟨Float64.ofNat 0, [], T, "http://a".toList⟩ : Record)]).flatten =
      ("#EXTINF:0,".toList ++ T) ++ '\n' :: "http://a\n".toList := by
    simp only [List.map_cons, List.map_nil, List.flatten_cons, List.flatten_nil, hline, newLine]
    simp
  have hs := scanFrom_line m3uHeader (("#EXTINF:0,".toList ++ T) ++ '\n' :: "http://a\n".toList)
    (by decide) (by decide) (by decide)
  rw [scanFrom_append_line _ _ [] hnl, if_pos hbig] at hs
  unfold Read scanLines
  rw [htext, hs]
  simp [readLines]

/-- C18 (the claim fails on this input): a record with the duration 0, no
attribute, a title of 65536 letters `a` and the URL `http://a` meets every
condition of the claim, but the EXTINF line written for it does not fit in the
64 KiB buffer of the line scanner: `Read` of the text written returns
`bufio.ErrTooLong` and no record. -/
theorem Read_Write_long_counterexample :
    (⟨Float64.ofNat 0, [], List.replicate 65536 'a', "http://a".toList⟩ : Record).wellFormed
        = true ∧
      Read [] (Write bufferWriter []
          [⟨Float64.ofNat 0, [], List.replicate 65536 'a', "http://a".toList⟩]).1 =
        ([], some Error.tooLong) :=
  ⟨wellFormed_long 65536,
    read_long_line (List.replicate 65536 'a')
      (fun h => absurd (List.eq_of_mem_replicate h) (by decide))
      (by rw [byteLen_replicate]; decide)⟩

/-- C18, amended: for every playlist of well-formed records (a whole-number
duration; no attribute, or one whose key is not empty, does not begin with white
space and has no line feed and whose value has no double quote and no line feed;
a title with no comma and no line feed that does not end in a carriage return; a
URL with no line feed that does not start with `#` and does not end in a
carriage return), `Read` of the text `Write` produces, into an empty playlist,
succeeds and yields the original playlist if, and only if, every EXTINF line
written and every URL fits in the 64 KiB buffer of the line scanner. -/
theorem Read_Write_wellFormed (m : M3U) (h : ∀ r ∈ m, r.wellFormed = true) :
    (∀ r ∈ m, byteLen (extInfLine r) ≤ maxScanTokenSize ∧ byteLen r.URL < maxScanTokenSize) ↔
      Read [] (Write bufferWriter [] m).1 = (m, none) := by
  constructor
  · intro hfit
    exact read_write_of_sanitized m
      (fun r hr => (sanitized_iff r).2 ⟨h r hr, hfit r hr⟩)
  · intro hread r hr
    by_contra hbad
    have hflag := scan_flag_written m h ⟨r, hr, hbad⟩
    rw [Write_buffer_text] at hread
    have hs := scanFrom_line m3uHeader
      (m.map (fun r => extInfLine r ++ (r.URL ++ newLine))).flatten (by decide) (by decide)
      (by decide)
    have h2 : (scanLines (m3uHeader ++
        '\n' :: (m.map (fun r => extInfLine r ++ (r.URL ++ newLine))).flatten)).2 = true := by
      unfold scanLines; rw [hs]; exact hflag
    have := Read_error_of_flag [] _ h2
    rw [hread] at this
    exact this rfl

theorem Read_Write_wellFormed_witness :
    (∀ r ∈ [(⟨Float64.ofNat 7, [("id".toList, "x y".toList)], "Song".toList,
          "http://b".toList⟩ : Record)], r.wellFormed = true) ∧
      (∀ r ∈ [(⟨Float64.ofNat 7, [("id".toList, "x y".toList)], "Song".toList,
          "http://b".toList⟩ : Record)],
        byteLen (extInfLine r) ≤ maxScanTokenSize ∧ byteLen r.URL < maxScanTokenSize) ∧
      Read [] (Write bufferWriter [] [(⟨Float64.ofNat 7, [("id".toList, "x y".toList)],
          "Song".toList, "http://b".toList⟩ : Record)]).1 =
        ([⟨Float64.ofNat 7, [("id".toList, "x y".toList)], "Song".toList, "http://b".toList⟩],
          none) :=
  ⟨by decide, by decide,
    (Read_Write_wellFormed [⟨Float64.ofNat 7, [("id".toList, "x y".toList)], "Song".toList,
      "http://b".toList⟩] (by decide)).1 (by decide)⟩

/-! ## The records `Read` commits, in memory -/

theorem attrLoop_URL (line : Str) : ∀ (l : List Str) (r : Record),
    (attrLoop line r l).1.URL = r.URL := by
  intro l
  induction l with
  | nil => intro r; rfl
  | cons a l ih =>
    intro r
    simp only [attrLoop]
    split_ifs
    · exact ih r
    · rfl
    · rw [ih]
    · rw [ih]

theorem parseExtInf_URL (r : Record) (e : Str) : (parseExtInf r e).1.URL = r.URL := by
  simp only [parseExtInf]
  split_ifs
  · rfl
  · rcases hp : ParseFloat ((FindStringSubmatch m3uExtInfRE e).getD 1 []) with ⟨f, _ | err⟩
    · simp only []
      have h := attrLoop_URL e
        (FindAllString m3uAttrRE ((FindStringSubmatch m3uExtInfRE e).getD 2 []))
        { r with Duration := f }
      rcases h1 : attrLoop e { r with Duration := f }
        (FindAllString m3uAttrRE ((FindStringSubmatch m3uExtInfRE e).getD 2 [])) with ⟨a1, _ | e1⟩ <;>
      rw [h1] at h <;> simpa using h
    · rfl

/-- The record at `p` after `parseExtInfAt` is the record `parseExtInf` makes of
the record at `p`. -/
theorem parseExtInfAt_deref (h : Heap) (p : Nat) (line : Str) :
    (parseExtInfAt h p line).1.deref p = (parseExtInf (h.deref p) line).1 := by
  have hu : (parseExtInf (h.deref p) line).1.URL = (h.cells p).URL :=
    parseExtInf_URL (h.deref p) line
  have e : ∀ r : Record, r.URL = (h.cells p).URL →
      (⟨r.Duration, r.Attributes, r.Title, (h.cells p).URL⟩ : Record) = r := by
    rintro ⟨d, a, t, u⟩ hu
    simp only at hu
    rw [hu]
  have e2 : (parseExtInfAt h p line).1.deref p =
      ⟨(parseExtInf (h.deref p) line).1.Duration, (parseExtInf (h.deref p) line).1.Attributes,
        (parseExtInf (h.deref p) line).1.Title, (h.cells p).URL⟩ := by
    simp only [parseExtInfAt, Heap.deref, if_true]
  rw [e2]
  exact e _ hu

theorem parseExtInfAt_deref_other (h : Heap) (p a : Nat) (line : Str) (h1 : a ≠ p)
    (h2 : (h.cells a).Attributes ≠ (h.cells p).Attributes) :
    (parseExtInfAt h p line).1.deref a = h.deref a := by
  simp only [parseExtInfAt, Heap.deref, if_neg h1, if_neg h2]

theorem parseExtInfAt_attr (h : Heap) (p a : Nat) (line : Str) :
    ((parseExtInfAt h p line).1.cells a).Attributes = (h.cells a).Attributes := by
  simp only [parseExtInfAt]
  split_ifs with h1
  · rw [h1]
  · rfl

/-- The loop of `Read` in memory and the loop on values agree, the appended
addresses are increasing, and so are the addresses of their maps. -/
theorem readLinesAt_spec : ∀ (lines : List Str) (h : Heap) (m : List Nat) (p : Nat),
    p < h.next → (h.cells p).Attributes < h.next →
    (∀ a ∈ m, a < p ∧ (h.cells a).Attributes < (h.cells p).Attributes) →
    ∃ new, (readLinesAt h m p lines).1.2 = m ++ new ∧
      ((readLinesAt h m p lines).1.2.map (readLinesAt h m p lines).1.1.deref,
          (readLinesAt h m p lines).2) = readLines (m.map h.deref) (h.deref p) lines ∧
      (∀ a, a < h.next →
        ((readLinesAt h m p lines).1.1.cells a).Attributes = (h.cells a).Attributes) ∧
      new.Pairwise (· < ·) ∧ (∀ a ∈ new, p ≤ a) ∧
      (new.map (fun a => ((readLinesAt h m p lines).1.1.cells a).Attributes)).Pairwise (· < ·) ∧
      (∀ a ∈ new,
        (h.cells p).Attributes ≤ ((readLinesAt h m p lines).1.1.cells a).Attributes) := by
  intro lines
  induction lines with
  | nil =>
    intro h m p _ _ _
    exact ⟨[], by simp [readLinesAt], by simp [readLinesAt, readLines], fun a _ => rfl,
      List.Pairwise.nil, by simp, by simp, by simp⟩
  | cons line rest ih =>
    intro h m p hp hpa hm
    by_cases c1 : line = m3uHeader
    · have hF : readLinesAt h m p (line :: rest) = readLinesAt h m p rest := by
        simp only [readLinesAt, if_pos c1]
      have hV : readLines (m.map h.deref) (h.deref p) (line :: rest) =
          readLines (m.map h.deref) (h.deref p) rest := by
        simp only [readLines, if_pos c1]
      rw [hF, hV]
      exact ih h m p hp hpa hm
    by_cases c2 : HasPrefix line "#EXTINF".toList = true
    · have hmap : m.map (parseExtInfAt h p line).1.deref = m.map h.deref := by
        apply List.map_congr_left
        intro a ha
        exact parseExtInfAt_deref_other h p a line (by have := (hm a ha).1; omega)
          (by have := (hm a ha).2; omega)
      rcases hpe : (parseExtInf (h.deref p) line).2 with _ | e
      · have hF : readLinesAt h m p (line :: rest) =
            readLinesAt (parseExtInfAt h p line).1 m p rest := by
          have : parseExtInfAt h p line = ((parseExtInfAt h p line).1, none) := by
            rw [← hpe]; rfl
          simp only [readLinesAt, if_neg c1, if_pos c2]
          rw [this]
        have hV : readLines (m.map h.deref) (h.deref p) (line :: rest) =
            readLines (m.map h.deref) (parseExtInf (h.deref p) line).1 rest := by
          have : parseExtInf (h.deref p) line = ((parseExtInf (h.deref p) line).1, none) := by
            rw [← hpe]
          simp only [readLines, if_neg c1, if_pos c2]
          rw [this]
        rw [hF, hV]
        obtain ⟨new, i1, i2, i3, i4, i5, i6, i7⟩ := ih (parseExtInfAt h p line).1 m p hp
          (by rw [parseExtInfAt_attr]; exact hpa)
          (fun a ha => by rw [parseExtInfAt_attr, parseExtInfAt_attr]; exact hm a ha)
        refine ⟨new, i1, ?_, ?_, i4, i5, i6, ?_⟩
        · rw [i2, hmap, parseExtInfAt_deref]
        · intro a ha
          rw [i3 a ha, parseExtInfAt_attr]
        · intro a ha
          have := i7 a ha
          rw [parseExtInfAt_attr] at this
          exact this
      · have hF : readLinesAt h m p (line :: rest) = (((parseExtInfAt h p line).1, m), some e) := by
          have : parseExtInfAt h p line = ((parseExtInfAt h p line).1, some e) := by
            rw [← hpe]; rfl
          simp only [readLinesAt, if_neg c1, if_pos c2]
          rw [this]
        have hV : readLines (m.map h.deref) (h.deref p) (line :: rest) =
            (m.map h.deref, some e) := by
          have : parseExtInf (h.deref p) line = ((parseExtInf (h.deref p) line).1, some e) := by
            rw [← hpe]
          simp only [readLines, if_neg c1, if_pos c2]
          rw [this]
        rw [hF, hV]
        exact ⟨[], by simp, by simp [hmap], fun a _ => parseExtInfAt_attr h p a line,
          List.Pairwise.nil, by simp, by simp, by simp⟩
    by_cases c3 : HasPrefix line "#".toList = true
    · have hF : readLinesAt h m p (line :: rest) =
          ((h, m), some (Error.errorf ("m3u: unknown line ".toList ++ line))) := by
        simp only [readLinesAt, if_neg c1, if_neg c2, if_pos c3]
      have hV : readLines (m.map h.deref) (h.deref p) (line :: rest) =
          (m.map h.deref, some (Error.errorf ("m3u: unknown line ".toList ++ line))) := by
        simp only [readLines, if_neg c1, if_neg c2, if_pos c3]
      rw [hF, hV]
      exact ⟨[], by simp, by simp, fun a _ => rfl, List.Pairwise.nil, by simp, by simp, by simp⟩
    · obtain ⟨h2, hh2⟩ : ∃ h2 : Heap, h2 = (NewRecordAt { h with cells := fun a =>
          if a = p then { h.cells p with URL := line } else h.cells a }).2 := ⟨_, rfl⟩
      have hF : readLinesAt h m p (line :: rest) = readLinesAt h2 (m ++ [p]) (h.next + 1) rest := by
        simp only [readLinesAt, if_neg c1, if_neg c2, if_neg c3]
        rw [hh2]; rfl
      have hV : readLines (m.map h.deref) (h.deref p) (line :: rest) =
          readLines (m.map h.deref ++ [{ h.deref p with URL := line }]) NewRecord rest := by
        simp only [readLines, if_neg c1, if_neg c2, if_neg c3]
      have hnext : h2.next = h.next + 2 := by rw [hh2]; rfl
      have hq : (h2.cells (h.next + 1)).Attributes = h.next := by
        rw [hh2]; simp [NewRecordAt]
      have hcell : ∀ a, a < h.next → (h2.cells a).Attributes = (h.cells a).Attributes := by
        intro a ha
        rw [hh2]
        have ha1 : a ≠ h.next + 1 := by omega
        simp only [NewRecordAt, if_neg ha1]
        split_ifs with hap
        · rw [hap]
        · rfl
      have hder : ∀ a, a < h.next → a ≠ p → (h.cells a).Attributes < h.next →
          h2.deref a = h.deref a := by
        intro a ha hap haa
        rw [hh2]
        have ha1 : a ≠ h.next + 1 := by omega
        have ha2 : (h.cells a).Attributes ≠ h.next := by omega
        simp only [NewRecordAt, Heap.deref, if_neg ha1, if_neg hap, if_neg ha2]
      have hderp : h2.deref p = { h.deref p with URL := line } := by
        rw [hh2]
        have ha1 : p ≠ h.next + 1 := by omega
        have ha2 : (h.cells p).Attributes ≠ h.next := by omega
        simp only [NewRecordAt, Heap.deref, if_neg ha1, if_true, if_neg ha2]
      have hderq : h2.deref (h.next + 1) = NewRecord := by
        rw [hh2]
        simp [NewRecordAt, Heap.deref, NewRecord]
      have hmap : (m ++ [p]).map h2.deref = m.map h.deref ++ [{ h.deref p with URL := line }] := by
        rw [List.map_append, List.map_singleton, hderp]
        congr 1
        apply List.map_congr_left
        intro a ha
        have := hm a ha
        exact hder a (by omega) (by omega) (by omega)
      obtain ⟨new, i1, i2, i3, i4, i5, i6, i7⟩ := ih h2 (m ++ [p]) (h.next + 1)
        (by omega) (by omega)
        (fun a ha => by
          rw [hq]
          rcases List.mem_append.1 ha with ha | ha
          · have := hm a ha
            rw [hcell a (by omega)]
            omega
          · rw [List.mem_singleton.1 ha, hcell p hp]
            omega)
      rw [hF, hV]
      have hpF : ((readLinesAt h2 (m ++ [p]) (h.next + 1) rest).1.1.cells p).Attributes =
          (h.cells p).Attributes := by
        rw [i3 p (by omega), hcell p hp]
      refine ⟨p :: new, by rw [i1]; simp, ?_, ?_, ?_, ?_, ?_, ?_⟩
      · rw [i2, hmap, hderq]
      · intro a ha
        rw [i3 a (by omega), hcell a ha]
      · refine List.Pairwise.cons ?_ i4
        intro a ha
        have := i5 a ha
        omega
      · intro a ha
        rcases List.mem_cons.1 ha with rfl | ha
        · exact le_refl _
        · have := i5 a ha
          omega
      · rw [List.map_cons]
        refine List.Pairwise.cons ?_ i6
        intro b hb
        obtain ⟨a, ha, rfl⟩ := List.mem_map.1 hb
        have := i7 a ha
        rw [hq] at this
        rw [hpF]
        omega
      · intro a ha
        rcases List.mem_cons.1 ha with rfl | ha
        · rw [hpF]
        · have := i7 a ha
          rw [hq] at this
          omega

/-! ## The pending record after a commit -/

/-- Lines that all start with `#` add no record. -/
theorem readLines_directives : ∀ (seg : List Str) (m : M3U) (r : Record),
    (∀ l ∈ seg, isDirective l = true) → (readLines m r seg).1 = m := by
  intro seg
  induction seg with
  | nil => intro m r _; rfl
  | cons l seg ih =>
    intro m r h
    have hl : HasPrefix l "#".toList = true := by
      simpa [isDirective] using h l (List.mem_cons_self _ _)
    have hrest : ∀ x ∈ seg, isDirective x = true := fun x hx => h x (List.mem_cons_of_mem _ hx)
    simp only [readLines]
    split_ifs with h1 h2
    · exact ih m r hrest
    · rcases hp : parseExtInf r l with ⟨r1, _ | e⟩
      · exact ih m r1 hrest
      · rfl
    · rfl

/-- Directive lines none of which is an EXTINF line leave the pending record as
it is. -/
theorem pendingAfter_no_extinf : ∀ (seg : List Str) (r : Record),
    (∀ l ∈ seg, isDirective l = true) → (∀ l ∈ seg, HasPrefix l "#EXTINF".toList = false) →
    pendingAfter r seg = r := by
  intro seg
  induction seg with
  | nil => intro r _ _; rfl
  | cons l seg ih =>
    intro r h h'
    have hl : HasPrefix l "#".toList = true := by
      simpa [isDirective] using h l (List.mem_cons_self _ _)
    have hl' : ¬ HasPrefix l "#EXTINF".toList = true := by
      rw [h' l (List.mem_cons_self _ _)]; simp
    simp only [pendingAfter, if_neg hl', if_pos hl]
    split_ifs
    · exact ih r (fun x hx => h x (List.mem_cons_of_mem _ hx))
        (fun x hx => h' x (List.mem_cons_of_mem _ hx))
    · rfl

/-- After a URL line that was read, the pending record is a new record. -/
theorem pendingAfter_url : ∀ (p : List Str) (m : M3U) (r : Record) (v : Str) (m1 : M3U),
    readLines m r (p ++ [v]) = (m1, none) → isDirective v = false →
    pendingAfter r (p ++ [v]) = NewRecord := by
  intro p
  induction p with
  | nil =>
    intro m r v m1 _ hv
    have hv3 : ¬ HasPrefix v "#".toList = true := by simpa [isDirective] using hv
    have hv2 : ¬ HasPrefix v "#EXTINF".toList = true :=
      fun hp => hv3 (hasPrefix_hash_of_extinf hp)
    have hv1 : v ≠ m3uHeader := fun h0 => hv3 (hasPrefix_hash_of_header h0)
    simp only [List.nil_append, pendingAfter, if_neg hv1, if_neg hv2, if_neg hv3]
  | cons l p ih =>
    intro m r v m1 h hv
    simp only [List.cons_append, readLines] at h
    simp only [List.cons_append, pendingAfter]
    split_ifs at h ⊢ with h1 h2 h3
    · exact ih m r v m1 h hv
    · rcases hp : parseExtInf r l with ⟨r1, _ | e⟩
      · rw [hp] at h
        exact ih m r1 v m1 h hv
      · rw [hp] at h; simp at h
    · simp at h
    · exact ih _ NewRecord v m1 h hv

/-- The record `Read` commits at a URL line is made of the lines since the URL
line before it, or since the start. -/
theorem readLines_commit (m : M3U) (pre seg post : List Str) (u : Str) (m1 : M3U)
    (hpre : pre = [] ∨ ∃ p v, pre = p ++ [v] ∧ isDirective v = false)
    (hseg : ∀ l ∈ seg, isDirective l = true) (hu : isDirective u = false)
    (h : readLines m NewRecord (pre ++ seg ++ u :: post) = (m1, none)) :
    m1[m.length + (pre.filter (fun l => !isDirective l)).length]? =
      some { pendingAfter NewRecord seg with URL := u } := by
  have hu3 : ¬ HasPrefix u "#".toList = true := by simpa [isDirective] using hu
  have hu2 : ¬ HasPrefix u "#EXTINF".toList = true :=
    fun hp => hu3 (hasPrefix_hash_of_extinf hp)
  have hu1 : u ≠ m3uHeader := fun h0 => hu3 (hasPrefix_hash_of_header h0)
  rw [List.append_assoc, readLines_append] at h
  rcases h1 : readLines m NewRecord pre with ⟨ma, _ | e⟩
  · rw [h1] at h
    simp only [] at h
    obtain ⟨t, hma, ht⟩ := readLines_urls m NewRecord pre ma h1
    have hlen : ma.length = m.length + (pre.filter (fun l => !isDirective l)).length := by
      rw [hma, List.length_append, ← ht, List.length_map]
    have hpend : pendingAfter NewRecord pre = NewRecord := by
      rcases hpre with rfl | ⟨p, v, rfl, hv⟩
      · rfl
      · exact pendingAfter_url p m NewRecord v ma h1 hv
    rw [hpend, readLines_append] at h
    have hsame := readLines_directives seg ma NewRecord hseg
    rcases h2 : readLines ma NewRecord seg with ⟨mb, _ | e⟩
    · rw [h2] at h hsame
      simp only [] at h hsame
      subst hsame
      simp only [readLines, if_neg hu1, if_neg hu2, if_neg hu3] at h
      obtain ⟨t2, ht2⟩ := readLines_extends
        (mb ++ [{ pendingAfter NewRecord seg with URL := u }]) NewRecord post
      rw [h] at ht2
      simp only [] at ht2
      rw [← hlen, ht2, List.append_assoc, List.getElem?_append_right (le_refl _), Nat.sub_self]
      simp
    · rw [h2] at h; simp at h
  · rw [h1] at h; simp at h

/-- The result of `Read`, from the result of its loop. -/
theorem Read_eq (m : M3U) (input : Str) :
    Read m input =
      ((readLines m NewRecord (scanLines input).1).1,
        if (readLines m NewRecord (scanLines input).1).2.isNone then
          (if (scanLines input).2 then some Error.tooLong else none)
        else (readLines m NewRecord (scanLines input).1).2) := by
  simp only [Read]
  rcases readLines m NewRecord (scanLines input).1 with ⟨s, _ | e⟩ <;> rfl

theorem ReadAt_eq (h : Heap) (m : List Nat) (input : Str) :
    ReadAt h m input =
      ((readLinesAt (NewRecordAt h).2 m (NewRecordAt h).1 (scanLines input).1).1,
        if (readLinesAt (NewRecordAt h).2 m (NewRecordAt h).1 (scanLines input).1).2.isNone then
          (if (scanLines input).2 then some Error.tooLong else none)
        else (readLinesAt (NewRecordAt h).2 m (NewRecordAt h).1 (scanLines input).1).2) := by
  simp only [ReadAt]
  rcases readLinesAt (NewRecordAt h).2 m (NewRecordAt h).1 (scanLines input).1
    with ⟨s, _ | e⟩ <;> rfl

/-- C17: the pending record is reset after each commit.  In a successful `Read`,
the record committed at a URL line is the new record with the EXTINF lines read
since the URL line before it (or since the start of the input) and with the URL;
so nothing of an earlier record is in it, and when no EXTINF line stands in
between it has the duration 0, no attribute and an empty title.  In memory, the
records `Read` appends are at addresses that are pairwise distinct and distinct
from those of the records the playlist held, and so are their maps; and the
records in memory are the records of `Read` on values. -/
theorem Read_pending_reset :
    (∀ (m : M3U) (input : Str) (pre seg post : List Str) (u : Str) (m1 : M3U),
      (scanLines input).1 = pre ++ seg ++ u :: post →
      (pre = [] ∨ ∃ p v, pre = p ++ [v] ∧ isDirective v = false) →
      (∀ l ∈ seg, isDirective l = true) → isDirective u = false →
      Read m input = (m1, none) →
      m1[m.length + (pre.filter (fun l => !isDirective l)).length]? =
          some { pendingAfter NewRecord seg with URL := u } ∧
        ((∀ l ∈ seg, HasPrefix l "#EXTINF".toList = false) →
          m1[m.length + (pre.filter (fun l => !isDirective l)).length]? =
            some ⟨Float64.fin false 0, [], [], u⟩)) ∧
    (∀ (h : Heap) (m : List Nat) (input : Str),
      (∀ a ∈ m, a < h.next ∧ (h.cells a).Attributes < h.next) →
      ∃ new, (ReadAt h m input).1.2 = m ++ new ∧
        ((ReadAt h m input).1.2.map (ReadAt h m input).1.1.deref, (ReadAt h m input).2) =
          Read (m.map h.deref) input ∧
        new.Nodup ∧ (∀ a ∈ new, a ∉ m) ∧
        (new.map (fun a => ((ReadAt h m input).1.1.cells a).Attributes)).Nodup ∧
        ∀ a ∈ new, ∀ b ∈ m, ((ReadAt h m input).1.1.cells a).Attributes ≠
          ((ReadAt h m input).1.1.cells b).Attributes) := by
  constructor
  · intro m input pre seg post u m1 hs hpre hseg hu h
    have hr : readLines m NewRecord (pre ++ seg ++ u :: post) = (m1, none) := by
      simp only [Read, hs] at h
      rcases h1 : readLines m NewRecord (pre ++ seg ++ u :: post) with ⟨m2, _ | e⟩
      · rw [h1] at h
        simp only [Prod.mk.injEq] at h
        rw [h.1]
      · rw [h1] at h; simp at h
    have hc := readLines_commit m pre seg post u m1 hpre hseg hu hr
    refine ⟨hc, fun hno => ?_⟩
    rw [hc, pendingAfter_no_extinf seg NewRecord hseg hno]
    rfl
  · intro h m input hm
    have hcellm : ∀ a ∈ m, ((NewRecordAt h).2.cells a).Attributes = (h.cells a).Attributes := by
      intro a ha
      have ha1 : a ≠ h.next + 1 := by have := (hm a ha).1; omega
      simp only [NewRecordAt, if_neg ha1]
    have hp1 : (NewRecordAt h).1 = h.next + 1 := rfl
    have hq : ((NewRecordAt h).2.cells (NewRecordAt h).1).Attributes = h.next := by
      simp [NewRecordAt]
    obtain ⟨new, i1, i2, i3, i4, i5, i6, i7⟩ :=
      readLinesAt_spec (scanLines input).1 (NewRecordAt h).2 m (NewRecordAt h).1
        (by show h.next + 1 < h.next + 2; omega)
        (by rw [hq]; show h.next < h.next + 2; omega)
        (fun a ha => by
          rw [hq, hcellm a ha, hp1]
          have := hm a ha
          omega)
    have hmap : m.map (NewRecordAt h).2.deref = m.map h.deref := by
      apply List.map_congr_left
      intro a ha
      have ha1 : a ≠ h.next + 1 := by have := (hm a ha).1; omega
      have ha2 : (h.cells a).Attributes ≠ h.next := by have := (hm a ha).2; omega
      simp only [NewRecordAt, Heap.deref, if_neg ha1, if_neg ha2]
    have hderq : (NewRecordAt h).2.deref (NewRecordAt h).1 = NewRecord := by
      simp [NewRecordAt, Heap.deref, NewRecord]
    rw [hmap, hderq] at i2
    rw [hq] at i7
    have hnodup : new.Nodup := i4.imp (fun hlt => Nat.ne_of_lt hlt)
    have hfresh : ∀ a ∈ new, a ∉ m := by
      intro a ha hmem
      have := i5 a ha
      rw [hp1] at this
      have := (hm a hmem).1
      omega
    rw [ReadAt_eq, Read_eq, ← i2]
    refine ⟨new, i1, rfl, hnodup, hfresh, i6.imp (fun hlt => Nat.ne_of_lt hlt), ?_⟩
    intro a ha b hb
    have h1 := i7 a ha
    have h2 := i3 b (by show b < h.next + 2; have := (hm b hb).1; omega)
    rw [hcellm b hb] at h2
    have := (hm b hb).2
    show ((readLinesAt (NewRecordAt h).2 m (NewRecordAt h).1 (scanLines input).1).1.1.cells
        a).Attributes ≠
      ((readLinesAt (NewRecordAt h).2 m (NewRecordAt h).1 (scanLines input).1).1.1.cells
        b).Attributes
    omega

theorem Read_pending_reset_witness :
    Read [] "#EXTINF:5 a=\"b\",T\nhttp://a\n#EXTM3U\nhttp://b\n".toList =
        ([⟨Float64.ofNat 5, [("a".toList, "b".toList)], "T".toList, "http://a".toList⟩,
          ⟨Float64.fin false 0, [], [], "http://b".toList⟩], none) ∧
      ([⟨Float64.ofNat 5, [("a".toList, "b".toList)], "T".toList, "http://a".toList⟩,
          ⟨Float64.fin false 0, [], [], "http://b".toList⟩] : M3U)[
          ([] : M3U).length +
            (["#EXTINF:5 a=\"b\",T".toList, "http://a".toList].filter
              (fun l => !isDirective l)).length]? =
        some ⟨Float64.fin false 0, [], [], "http://b".toList⟩ ∧
      (ReadAt ⟨0, fun _ => ⟨Float64.fin false 0, 0, [], []⟩, fun _ => []⟩ []
        "#EXTINF:5 a=\"b\",T\nhttp://a\n#EXTM3U\nhttp://b\n".toList).1.2 = [1, 3] :=
  ⟨by decide,
    (Read_pending_reset.1 [] "#EXTINF:5 a=\"b\",T\nhttp://a\n#EXTM3U\nhttp://b\n".toList
      ["#EXTINF:5 a=\"b\",T".toList, "http://a".toList] ["#EXTM3U".toList] []
      "http://b".toList _ (by decide)
      (Or.inr ⟨["#EXTINF:5 a=\"b\",T".toList], "http://a".toList, rfl, by decide⟩)
      (by decide) (by decide) (by decide)).2 (by decide),
    by decide⟩

/-! ## Lines the scanner does not deliver -/

/-- A line of `maxScanTokenSize` bytes or more is not delivered: the scanner
stops with `bufio.ErrTooLong`. -/
theorem scan_long_line (L rest : Str) (hnl : '\n' ∉ L) (hlen : maxScanTokenSize ≤ byteLen L) :
    scanFrom [] (L ++ '\n' :: rest) = ([], true) := by
  rw [scanFrom_append_line rest L [] hnl, List.nil_append, if_pos hlen]

/-- When the first line does not fit in the buffer, `Read` returns
`bufio.ErrTooLong` and reads nothing. -/
theorem Read_long_first (m : M3U) (L rest : Str) (hnl : '\n' ∉ L)
    (hlen : maxScanTokenSize ≤ byteLen L) :
    Read m (L ++ '\n' :: rest) = (m, some Error.tooLong) := by
  unfold Read scanLines
  rw [scan_long_line L rest hnl hlen]
  simp [readLines]

/-- When the line after `http://a` does not fit in the buffer, `Read` commits the
record of the first line and returns `bufio.ErrTooLong`. -/
theorem Read_long_second (L rest : Str) (hnl : '\n' ∉ L)
    (hlen : maxScanTokenSize ≤ byteLen L) :
    Read [] ("http://a".toList ++ '\n' :: (L ++ '\n' :: rest)) =
      ([⟨Float64.fin false 0, [], [], "http://a".toList⟩], some Error.tooLong) := by
  have hs := scanFrom_line "http://a".toList (L ++ '\n' :: rest) (by decide) (by decide)
    (by decide)
  rw [scan_long_line L rest hnl hlen] at hs
  unfold Read scanLines
  rw [hs]
  have hr : readLines [] NewRecord ["http://a".toList] =
      ([⟨Float64.fin false 0, [], [], "http://a".toList⟩], none) := by decide
  simp only [hr, if_true]

/-- A text made of a short prefix without line feed and of `n` letters `a` holds
no line feed and has at least `n` bytes. -/
theorem long_text (pre : Str) (n : Nat) (hpre : '\n' ∉ pre) :
    '\n' ∉ pre ++ List.replicate n 'a' ∧ n ≤ byteLen (pre ++ List.replicate n 'a') := by
  constructor
  · intro hm
    rcases List.mem_append.1 hm with h0 | h0
    · exact hpre h0
    · exact absurd (List.eq_of_mem_replicate h0) (by decide)
  · rw [byteLen_append, byteLen_replicate]; omega

/-- The line `#EXTINF:0,` followed by a title without comma and line feed parses
without error, however long the title. -/
theorem parseExtInf_long (T : Str) (hT : ',' ∉ T) (hTnl : '\n' ∉ T) :
    parseExtInf NewRecord ("#EXTINF:0,".toList ++ T) =
      (⟨Float64.ofNat 0, [], T, []⟩, none) := by
  have h := parseExtInf_plain NewRecord (Float64.ofNat 0) T (by decide) hT hTnl
  rw [show fmtF0 (Float64.ofNat 0) = "0".toList from by decide] at h
  exact h

/-- A line that begins with `#FOO ` starts with `#`, is not the header and is not
an EXTINF line. -/
theorem foo_directive (T : Str) :
    HasPrefix ("#FOO ".toList ++ T) "#".toList = true ∧ "#FOO ".toList ++ T ≠ m3uHeader ∧
      HasPrefix ("#FOO ".toList ++ T) "#EXTINF".toList = false := by
  refine ⟨rfl, ?_, rfl⟩
  intro h
  have a : HasPrefix ("#FOO ".toList ++ T) "#F".toList = true := rfl
  have b : HasPrefix m3uHeader "#F".toList = false := by decide
  rw [h, b] at a
  cases a

/-- C5 (the claim fails on these inputs): the input `#EXTM3U\r\n` holds the line
`#EXTM3U\r`, which starts with `#`, is not exactly `#EXTM3U` and does not start
with `#EXTINF`, and `Read` returns no error, because the line scanner drops the
carriage return; and on a line `#FOO aa…a` of 65541 bytes, with no line before
it, `Read` returns `bufio.ErrTooLong`, not the unknown-line error. -/
theorem Read_unknown_directive_counterexample :
    (HasPrefix "#EXTM3U\r".toList "#".toList = true ∧ "#EXTM3U\r".toList ≠ m3uHeader ∧
        HasPrefix "#EXTM3U\r".toList "#EXTINF".toList = false ∧
        Read [] "#EXTM3U\r\n".toList = ([], none)) ∧
      (HasPrefix ("#FOO ".toList ++ List.replicate 65536 'a') "#".toList = true ∧
        "#FOO ".toList ++ List.replicate 65536 'a' ≠ m3uHeader ∧
        HasPrefix ("#FOO ".toList ++ List.replicate 65536 'a') "#EXTINF".toList = false ∧
        Read [] ("#FOO ".toList ++ List.replicate 65536 'a' ++ "\n".toList) =
          ([], some Error.tooLong)) := by
  refine ⟨⟨by decide, by decide, by decide, by decide⟩, ?_⟩
  obtain ⟨f1, f2, f3⟩ := foo_directive (List.replicate 65536 'a')
  obtain ⟨t1, t2⟩ := long_text "#FOO ".toList 65536 (by decide)
  exact ⟨f1, f2, f3, Read_long_first [] _ [] t1 t2⟩

/-- C11 (the claim fails on this input): `Read` succeeds on `http://a`, and the
line `#EXTINF:0,aa…a` with a title of 65536 letters is an EXTINF line that
`parseExtInf` accepts; but with that line appended as the last line `Read` does
not succeed: the line does not fit in the buffer of the line scanner and `Read`
returns `bufio.ErrTooLong`. -/
theorem Read_dangling_extinf_counterexample :
    Read [] "http://a\n".toList =
        ([⟨Float64.fin false 0, [], [], "http://a".toList⟩], none) ∧
      HasPrefix ("#EXTINF:0,".toList ++ List.replicate 65536 'a') "#EXTINF".toList = true ∧
      parseExtInf NewRecord ("#EXTINF:0,".toList ++ List.replicate 65536 'a') =
        (⟨Float64.ofNat 0, [], List.replicate 65536 'a', []⟩, none) ∧
      Read [] ("http://a\n".toList ++ (("#EXTINF:0,".toList ++ List.replicate 65536 'a') ++
          "\n".toList)) =
        ([⟨Float64.fin false 0, [], [], "http://a".toList⟩], some Error.tooLong) := by
  obtain ⟨t1, t2⟩ := long_text "#EXTINF:0,".toList 65536 (by decide)
  refine ⟨by decide, rfl,
    parseExtInf_long _ (fun h => absurd (List.eq_of_mem_replicate h) (by decide))
      (fun h => absurd (List.eq_of_mem_replicate h) (by decide)), ?_⟩
  exact Read_long_second _ [] t1 t2

/-- C14 (the claim fails on these inputs): the lines `#EXTINF:1 a="x",T1`,
`#EXTINF:2,T2` and `http://a` give a record that keeps the attribute `a` of the
first EXTINF line, while the lines `#EXTINF:2,T2` and `http://a` give a record
without attribute; and when the first EXTINF line is `#EXTINF:0,aa…a` with a
title of 65536 letters, which `parseExtInf` accepts, `Read` of the three lines
returns `bufio.ErrTooLong` and no record. -/
theorem Read_second_extinf_counterexample :
    (Read [] "#EXTINF:1 a=\"x\",T1\n#EXTINF:2,T2\nhttp://a\n".toList =
        ([⟨Float64.ofNat 2, [("a".toList, "x".toList)], "T2".toList, "http://a".toList⟩], none) ∧
      Read [] "#EXTINF:2,T2\nhttp://a\n".toList =
        ([⟨Float64.ofNat 2, [], "T2".toList, "http://a".toList⟩], none)) ∧
      (parseExtInf NewRecord ("#EXTINF:0,".toList ++ List.replicate 65536 'a') =
          (⟨Float64.ofNat 0, [], List.replicate 65536 'a', []⟩, none) ∧
        Read [] (("#EXTINF:0,".toList ++ List.replicate 65536 'a') ++
            "\n#EXTINF:2,T2\nhttp://a\n".toList) =
          ([], some Error.tooLong)) := by
  obtain ⟨t1, t2⟩ := long_text "#EXTINF:0,".toList 65536 (by decide)
  refine ⟨⟨by decide, by decide⟩,
    parseExtInf_long _ (fun h => absurd (List.eq_of_mem_replicate h) (by decide))
      (fun h => absurd (List.eq_of_mem_replicate h) (by decide)), ?_⟩
  exact Read_long_first [] _ "#EXTINF:2,T2\nhttp://a\n".toList t1 t2

end M3u
